import Mathlib

/-!
Verification development for the hierarchical timer wheel of
`src/timer-wheel.h` (the `TimerWheel` / `TimerEventInterface` /
`TimerWheelSlot` classes).

Shallow embedding notes.

* `Tick` is `uint64_t` in the source; we model ticks as `Nat` and insert
  `% W` (with `W = 2 ^ 64`) exactly where the C++ arithmetic is performed
  on 64-bit unsigned values, so wrap-around is represented faithfully.
  Unsigned subtraction `a - b` (which wraps in C++) is modelled by `usub`.
* Events are identified by a natural number `EventId`.  The per-event
  fields `scheduled_at_` and `slot_` of `TimerEventInterface` live in
  `EvState`; the intrusive doubly-linked list of a slot is modelled as a
  `List EventId` (head = `events_`), which is observationally equivalent
  to the well-formed doubly-linked list of the source: `relink` removes
  the event from its current slot's list and pushes it at the head of the
  new slot's list, `pop_event` pops the head.
* The chain of wheels (`core`, `out_`, ...) is a fixed family of
  `NUM_LEVELS = 8` wheels (the source creates outer wheels while
  `offset + WIDTH_BITS < 64`), each with its own `now_` and 256 slots.
  Level 0 is the core wheel (`core_ == NULL` in the source).
* Event callbacks may re-enter the wheel through `schedule`,
  `schedule_in_range` and `cancel`; this is modelled by a callback
  function `Cb` producing a list of such actions (`Act`), executed in
  order after the event fires.  Recursive `advance` from a callback is
  undefined behaviour in the source and is not representable.
* The state carries two ghost logs that do not exist in the source and
  influence nothing: `fired` records each `execute()` call (event, core
  `now()` at that moment, its `scheduled_at`, and the level of the wheel
  whose drain loop fired it), and `promos` records each re-schedule of an
  event popped from an outer wheel (event, its `scheduled_at`, core
  `now()`), i.e. each evaluation of the unsigned subtraction
  `event->scheduled_at() - now` in `TimerWheel::advance`.
* The drain loop `while (slot->events())` of `advance` is executed with
  fuel equal to the current length of the slot; since no schedule with a
  positive delta can place an event into the slot currently being
  drained, this fuel is sufficient (proved below), and the source code
  would not terminate in exactly the situations where the fuel runs out.
-/

/-- `2 ^ 64`, the modulus of the `Tick = uint64_t` arithmetic. -/
def W : Nat := 2 ^ 64

abbrev Tick := Nat

abbrev EventId := Nat

/-- `WIDTH_BITS` from the source. -/
def WIDTH_BITS : Nat := 8

/-- `NUM_SLOTS = 1 << WIDTH_BITS` from the source. -/
def NUM_SLOTS : Nat := 256

/-- `MASK = NUM_SLOTS - 1` from the source. -/
def MASK : Nat := 255

/-- Number of wheels in the hierarchy: the public constructor creates the
core wheel at offset 0 and the private constructor keeps creating outer
wheels while `offset + WIDTH_BITS < 64`, giving 8 wheels in total. -/
def NUM_LEVELS : Nat := 8

/-- Unsigned 64-bit subtraction `a - b` as computed by C++ on `uint64_t`. -/
def usub (a b : Nat) : Nat := (W + a % W - b % W) % W

/-- The mutable per-event state of a `TimerEventInterface`: the recorded
absolute fire tick `scheduled_at_`, and the owning slot back-reference
`slot_` (`none` = `NULL`), given as (wheel level, slot index).  The list
linkage `next_` / `prev_` is represented by the slot's event list. -/
structure EvState where
  scheduled_at : Nat
  slot : Option (Nat × Nat)
deriving Repr, DecidableEq

/-- Ghost record of one `execute()` call: the event, the core wheel's
`now()` at that moment, the event's `scheduled_at()` at that moment, and
the level of the wheel whose drain loop invoked it. -/
structure FireRec where
  ev : EventId
  tick : Nat
  sched : Nat
  lvl : Nat
deriving Repr, DecidableEq

/-- The whole engine state: the `now_` counter of every wheel level, the
event lists of all slots (`slots L i`, head first), the per-event state,
and the two ghost logs. -/
structure TW where
  nows : Nat → Nat
  slots : Nat → Nat → List EventId
  evs : EventId → EvState
  fired : List FireRec
  promos : List (EventId × Nat × Nat)

/-- A fresh engine: `TimerWheel(Nat now = 0)`.  The core wheel starts at
the given tick, all outer wheels start at `now_ = 0`, all slots are
empty.  (`scheduled_at_` of a never-scheduled event is uninitialised in
the source; we pick 0.) -/
def TimerWheel.init (now : Nat) : TW :=
  { nows := fun L => if L = 0 then now % W else 0
    slots := fun _ _ => []
    evs := fun _ => ⟨0, none⟩
    fired := []
    promos := [] }

def setNow (L : Nat) (v : Nat) (tw : TW) : TW :=
  { tw with nows := fun k => if k = L then v else tw.nows k }

def setSlot (L i : Nat) (l : List EventId) (tw : TW) : TW :=
  { tw with slots := fun a b => if a = L ∧ b = i then l else tw.slots a b }

def setEv (e : EventId) (s : EvState) (tw : TW) : TW :=
  { tw with evs := fun x => if x = e then s else tw.evs x }

/-- `TimerEventInterface::active()`: `slot_ != NULL`. -/
def TimerEventInterface.active (e : EventId) (tw : TW) : Bool :=
  ((tw.evs e).slot).isSome

/-- `TimerEventInterface::relink(new_slot)`: if the new slot is the
current slot, do nothing; otherwise unlink from the current slot's list
(if any), push at the head of the new slot's list (if any), and update
the back-reference. -/
def TimerEventInterface.relink (e : EventId) (newSlot : Option (Nat × Nat)) (tw : TW) : TW :=
  if (tw.evs e).slot = newSlot then tw
  else
    let tw1 :=
      match (tw.evs e).slot with
      | none => tw
      | some (L, i) => setSlot L i ((tw.slots L i).erase e) tw
    let tw2 :=
      match newSlot with
      | none => tw1
      | some (L, i) => setSlot L i (e :: tw1.slots L i) tw1
    setEv e ⟨(tw.evs e).scheduled_at, newSlot⟩ tw2

/-- `TimerEventInterface::cancel()`: no-op when not scheduled, otherwise
`relink(NULL)`. -/
def TimerEventInterface.cancel (e : EventId) (tw : TW) : TW :=
  if (tw.evs e).slot = none then tw
  else TimerEventInterface.relink e none tw

/-- `TimerWheelSlot::pop_event()`: dequeue the first event of slot
`(L, i)`, clearing its slot back-reference. -/
def TimerWheelSlot.pop_event (L i : Nat) (tw : TW) : TW :=
  match tw.slots L i with
  | [] => tw
  | e :: rest =>
    setEv e ⟨(tw.evs e).scheduled_at, none⟩ (setSlot L i rest tw)

/-- `TimerWheel::schedule(event, delta)` running on the wheel at level
`L` (`core_ == NULL` iff `L = 0`).  On the core wheel the absolute fire
tick is recorded first; a delta of `NUM_SLOTS` or more is forwarded to
the next outer wheel with the recomputed delta, otherwise the event is
relinked into this wheel's slot `(now_ + delta) & MASK`.  At the
outermost level the source would dereference a null `out_`; that case is
modelled as a no-op. -/
def TimerWheel.scheduleOn : Nat → Nat → EventId → Nat → TW → TW
  | 0, _, _, _, tw => tw
  | gas + 1, L, e, delta, tw =>
    let tw0 := if L = 0 then setEv e ⟨(tw.nows 0 + delta) % W, (tw.evs e).slot⟩ tw else tw
    if delta ≥ NUM_SLOTS then
      if L + 1 < NUM_LEVELS then
        TimerWheel.scheduleOn gas (L + 1) e
          (((delta + (tw0.nows L &&& MASK)) % W) >>> WIDTH_BITS) tw0
      else tw0
    else
      TimerEventInterface.relink e (some (L, ((tw0.nows L + delta) % W) &&& MASK)) tw0

/-- The public `TimerWheel::schedule`, i.e. `scheduleOn` at the core.
The first argument of `scheduleOn` is the number of wheel levels from
`L` on (always `NUM_LEVELS - L`, i.e. 8 at the core); it makes the
recursion over the statically-bounded chain of wheels structural and is
never exhausted, since forwarding stops at the outermost wheel. -/
def TimerWheel.schedule (e : EventId) (delta : Nat) (tw : TW) : TW :=
  TimerWheel.scheduleOn NUM_LEVELS 0 e delta tw

/-- The mask-shrinking loop of `schedule_in_range`: shift the mask left
by `WIDTH_BITS` (in 64-bit arithmetic) until `start` and `end_` agree on
the masked bits.  Nine iterations always suffice (after eight shifts the
mask is zero); the fuel only mirrors that bound. -/
def maskLoop (start end_ : Nat) (mask : Nat) (fuel : Nat) : Nat :=
  match fuel with
  | 0 => mask
  | f + 1 =>
    if start &&& mask ≠ end_ &&& mask then
      maskLoop start end_ ((mask <<< WIDTH_BITS) % W) f
    else mask

/-- The delta chosen by `schedule_in_range`: `end & (mask >> WIDTH_BITS)`
with `mask` the result of the mask-shrinking loop started at `~0`. -/
def rangeDelta (start end_ : Nat) : Nat :=
  end_ &&& ((maskLoop start end_ (W - 1) 9) >>> WIDTH_BITS)

/-- `TimerWheel::schedule_in_range(event, start, end)` on the core
wheel: if the event is already scheduled and its current relative fire
tick lies in `[start, end]`, do nothing; otherwise schedule it with the
delta chosen by the mask computation. -/
def TimerWheel.schedule_in_range (e : EventId) (start end_ : Nat) (tw : TW) : TW :=
  if (tw.evs e).slot ≠ none ∧
      start ≤ usub (tw.evs e).scheduled_at (tw.nows 0) ∧
      usub (tw.evs e).scheduled_at (tw.nows 0) ≤ end_ then
    tw
  else
    TimerWheel.schedule e (rangeDelta start end_) tw

/-- Fold of `min = std::min(min, event->scheduled_at() - now)` over a
slot's event list (the peek into the outer wheel, and the scan of a
non-empty slot on an outer wheel, in `ticks_to_next_event`). -/
def slotMinFrom (tw : TW) (now : Nat) (l : List EventId) (m : Nat) : Nat :=
  match l with
  | [] => m
  | e :: rest => slotMinFrom tw now rest (min m (usub (tw.evs e).scheduled_at now))

/-- The 256-iteration scan loop of `ticks_to_next_event` on the wheel at
level `L`, with `now` the core wheel's current tick, `m` the running
minimum and `cnt` the remaining iterations (starting at `NUM_SLOTS`,
with `i` the loop counter starting at 0).  `some v` models an early
`return v`; `none` means the loop ran to completion. -/
def TimerWheel.ttneScan (tw : TW) (L : Nat) (now : Nat) (m : Nat) (i : Nat) (cnt : Nat) :
    Option Nat :=
  match cnt with
  | 0 => none
  | c + 1 =>
    let slot_index := ((tw.nows L + 1 + i) % W) &&& MASK
    let m1 :=
      if slot_index = 0 ∧ L + 1 < NUM_LEVELS ∧ (L ≠ 0 ∨ tw.slots L 0 = []) then
        slotMinFrom tw now (tw.slots (L + 1) (((tw.nows (L + 1) + 1) % W) &&& MASK)) m
      else m
    match tw.slots L slot_index with
    | [] => TimerWheel.ttneScan tw L now m1 (i + 1) c
    | e :: rest =>
      if L = 0 then some (min m1 (usub (tw.evs e).scheduled_at now))
      else some (slotMinFrom tw now (e :: rest) m1)

/-- `TimerWheel::ticks_to_next_event(max)` running on the wheel at level
`L`: scan this wheel's slots; if nothing is found, recurse outward with
the original `max` (the running minimum of a completed scan is
discarded, exactly as in the source). -/
def TimerWheel.ticks_to_next_eventOn : Nat → Nat → Nat → TW → Nat
  | 0, _, max, _ => max
  | gas + 1, L, max, tw =>
    match TimerWheel.ttneScan tw L (tw.nows 0) max 0 NUM_SLOTS with
    | some v => v
    | none =>
      if L + 1 < NUM_LEVELS then TimerWheel.ticks_to_next_eventOn gas (L + 1) max tw
      else max

/-- The public `TimerWheel::ticks_to_next_event(max)` (the default `max`
is `2 ^ 64 - 1`, the largest `Tick`).  As with `scheduleOn`, the first
argument of `ticks_to_next_eventOn` is the number of remaining wheel
levels, always `NUM_LEVELS - L`; the outward recursion stops at the
outermost wheel before it can run out. -/
def TimerWheel.ticks_to_next_event (max : Nat) (tw : TW) : Nat :=
  TimerWheel.ticks_to_next_eventOn NUM_LEVELS 0 max tw

/-- An engine call that an event callback may perform re-entrantly. -/
inductive Act where
  | sched (e : EventId) (delta : Nat)
  | schedRange (e : EventId) (start end_ : Nat)
  | cancel (e : EventId)

/-- A callback model: given the fired event and the engine state right
after the fire was logged, the list of engine calls the callback makes,
in order. -/
abbrev Cb := EventId → TW → List Act

def runAct (a : Act) (tw : TW) : TW :=
  match a with
  | .sched e d => TimerWheel.schedule e d tw
  | .schedRange e s t => TimerWheel.schedule_in_range e s t tw
  | .cancel e => TimerEventInterface.cancel e tw

def applyActs (acts : List Act) (tw : TW) : TW :=
  acts.foldl (fun tw a => runAct a tw) tw

/-- The callback that performs no engine calls. -/
def cbInert : Cb := fun _ _ => []

/-- `event->execute()` as invoked from `advance` on the wheel at level
`L`: log the fire (ghost) and run the callback's engine calls. -/
def execute (cb : Cb) (L : Nat) (e : EventId) (tw : TW) : TW :=
  let tw1 := { tw with fired := tw.fired ++ [⟨e, tw.nows 0, (tw.evs e).scheduled_at, L⟩] }
  applyActs (cb e tw1) tw1

/-- The drain loop `while (slot->events())` of `TimerWheel::advance` for
slot `(L, i)`.  On the core wheel (`L = 0`, `core_ == NULL`) every
popped event is executed.  On an outer wheel a popped event is executed
if the core's `now()` has reached its `scheduled_at()`, and otherwise
re-scheduled on the core wheel with delta `scheduled_at() - now`
(unsigned); the ghost `promos` log records that subtraction.  This is
one iteration of the loop, popping the head event `e` of slot
`(L, i)`. -/
def drainStep (cb : Cb) (L i : Nat) (e : EventId) (tw : TW) : TW :=
  let tw1 := TimerWheelSlot.pop_event L i tw
  if L = 0 then execute cb 0 e tw1
  else
    let now := tw1.nows 0
    if now ≥ (tw1.evs e).scheduled_at then execute cb L e tw1
    else
      TimerWheel.schedule e (usub (tw1.evs e).scheduled_at now)
        { tw1 with promos := tw1.promos ++ [(e, (tw1.evs e).scheduled_at, now)] }

/-- The full drain loop of slot `(L, i)`, iterating `drainStep` while
the slot is non-empty; `fuel` bounds the number of iterations (in the
runs we consider the slot only ever shrinks, so any fuel at least the
slot's initial length is exact). -/
def drainSlot (cb : Cb) (L i : Nat) (fuel : Nat) (tw : TW) : TW :=
  match fuel with
  | 0 => tw
  | f + 1 =>
    match tw.slots L i with
    | [] => tw
    | e :: _ => drainSlot cb L i f (drainStep cb L i e tw)

/-- One iteration of the `while (delta--)` loop of `advance` on the
wheel at level `L`: increment `now_`; when the new `now_` lands on slot
0, first advance the next outer wheel by one (the function `up`); then
drain the current slot. -/
def tickOn (cb : Cb) (up : TW → TW) (L : Nat) (tw : TW) : TW :=
  let tw1 := setNow L ((tw.nows L + 1) % W) tw
  let slot_index := tw1.nows L &&& MASK
  let tw2 := if slot_index = 0 ∧ L + 1 < NUM_LEVELS then up tw1 else tw1
  drainSlot cb L slot_index ((tw2.slots L slot_index).length) tw2

/-- The `while (delta--)` loop of `advance`. -/
def advanceLoop (cb : Cb) (up : TW → TW) (L : Nat) : Nat → TW → TW
  | 0, tw => tw
  | d + 1, tw => advanceLoop cb up L d (tickOn cb up L tw)

/-- `TimerWheel::advance` on the wheel at level `L`; the first argument
is the number of wheel levels from `L` on (always `NUM_LEVELS - L`),
making the recursion along the chain of outer wheels structural; it is
never exhausted because the slot-0 test requires `L + 1 < NUM_LEVELS`. -/
def TimerWheel.advanceOn (cb : Cb) : Nat → Nat → Nat → TW → TW
  | 0, _, _, tw => tw
  | gas + 1, L, delta, tw =>
    advanceLoop cb (TimerWheel.advanceOn cb gas (L + 1) 1) L delta tw

/-- The public `TimerWheel::advance(delta)`. -/
def TimerWheel.advance (cb : Cb) (delta : Nat) (tw : TW) : TW :=
  TimerWheel.advanceOn cb NUM_LEVELS 0 delta tw

/-! ### Arithmetic bridging lemmas -/

theorem Nat.land_two_pow_sub_one (n i : Nat) : n &&& (2 ^ i - 1) = n % 2 ^ i := by
  apply Nat.eq_of_testBit_eq
  intro j
  rw [Nat.testBit_and, Nat.testBit_two_pow_sub_one, Nat.testBit_mod_two_pow]
  cases h : Nat.testBit n j <;> simp [h]

theorem land_MASK (n : Nat) : n &&& MASK = n % 256 := by
  have h : MASK = 2 ^ 8 - 1 := by decide
  have h2 : (256 : Nat) = 2 ^ 8 := by decide
  rw [h, h2, Nat.land_two_pow_sub_one]

theorem W_pos : 0 < W := by decide

theorem mod_W_land_MASK (n : Nat) : (n % W) &&& MASK = n % 256 := by
  rw [land_MASK]
  have : (256 : Nat) ∣ W := by decide
  exact Nat.mod_mod_of_dvd n this

theorem shiftRight8 (n : Nat) : n >>> 8 = n / 256 := by
  rw [Nat.shiftRight_eq_div_pow]

theorem usub_exact {a b : Nat} (h : b ≤ a) (ha : a < W) : usub a b = a - b := by
  unfold usub
  have hb : b < W := lt_of_le_of_lt h ha
  rw [Nat.mod_eq_of_lt ha, Nat.mod_eq_of_lt hb]
  rw [Nat.add_sub_assoc h W, Nat.add_mod_left]
  exact Nat.mod_eq_of_lt (Nat.lt_of_le_of_lt (Nat.sub_le a b) ha)

theorem div_div_256 (x L : Nat) : x / 2 ^ (8 * L) / 256 = x / 2 ^ (8 * (L + 1)) := by
  rw [Nat.div_div_eq_div_mul]
  congr 1
  rw [Nat.mul_add, Nat.mul_one, Nat.pow_add]

/-! ### State access lemmas -/

@[simp] theorem setNow_nows (L : Nat) (v : Nat) (tw : TW) (k : Nat) :
    (setNow L v tw).nows k = if k = L then v else tw.nows k := rfl

@[simp] theorem setNow_slots (L : Nat) (v : Nat) (tw : TW) :
    (setNow L v tw).slots = tw.slots := rfl

@[simp] theorem setNow_evs (L : Nat) (v : Nat) (tw : TW) :
    (setNow L v tw).evs = tw.evs := rfl

@[simp] theorem setNow_fired (L : Nat) (v : Nat) (tw : TW) :
    (setNow L v tw).fired = tw.fired := rfl

@[simp] theorem setNow_promos (L : Nat) (v : Nat) (tw : TW) :
    (setNow L v tw).promos = tw.promos := rfl

@[simp] theorem setSlot_slots (L i : Nat) (l : List EventId) (tw : TW) (a b : Nat) :
    (setSlot L i l tw).slots a b = if a = L ∧ b = i then l else tw.slots a b := rfl

@[simp] theorem setSlot_nows (L i : Nat) (l : List EventId) (tw : TW) :
    (setSlot L i l tw).nows = tw.nows := rfl

@[simp] theorem setSlot_evs (L i : Nat) (l : List EventId) (tw : TW) :
    (setSlot L i l tw).evs = tw.evs := rfl

@[simp] theorem setSlot_fired (L i : Nat) (l : List EventId) (tw : TW) :
    (setSlot L i l tw).fired = tw.fired := rfl

@[simp] theorem setSlot_promos (L i : Nat) (l : List EventId) (tw : TW) :
    (setSlot L i l tw).promos = tw.promos := rfl

@[simp] theorem setEv_evs (e : EventId) (s : EvState) (tw : TW) (x : EventId) :
    (setEv e s tw).evs x = if x = e then s else tw.evs x := rfl

@[simp] theorem setEv_nows (e : EventId) (s : EvState) (tw : TW) :
    (setEv e s tw).nows = tw.nows := rfl

@[simp] theorem setEv_slots (e : EventId) (s : EvState) (tw : TW) :
    (setEv e s tw).slots = tw.slots := rfl

@[simp] theorem setEv_fired (e : EventId) (s : EvState) (tw : TW) :
    (setEv e s tw).fired = tw.fired := rfl

@[simp] theorem setEv_promos (e : EventId) (s : EvState) (tw : TW) :
    (setEv e s tw).promos = tw.promos := rfl

/-! ### Well-formedness predicates -/

/-- Every event found in a slot list has its back-reference `slot_`
pointing at that slot. -/
def Backrefs (tw : TW) : Prop :=
  ∀ L i e, e ∈ tw.slots L i → (tw.evs e).slot = some (L, i)

/-- No slot list contains an event twice. -/
def NodupSlots (tw : TW) : Prop :=
  ∀ L i, (tw.slots L i).Nodup

/-- Every event whose back-reference points at a slot appears in that
slot's list. -/
def MemSlots (tw : TW) : Prop :=
  ∀ e L i, (tw.evs e).slot = some (L, i) → e ∈ tw.slots L i

/-- Every active event sits on a real wheel, has an in-range
`scheduled_at`, and occupies the slot its `scheduled_at` hashes to at
that wheel's level. -/
def Placed (tw : TW) : Prop :=
  ∀ e L i, (tw.evs e).slot = some (L, i) →
    L < NUM_LEVELS ∧ (tw.evs e).scheduled_at < W ∧
    i = (tw.evs e).scheduled_at / 2 ^ (8 * L) % 256

/-- Strict window at level `L`: seen at wheel-`L` granularity, an active
event there lies strictly in the future, within one rotation. -/
def WinS (tw : TW) (L : Nat) : Prop :=
  ∀ e i, (tw.evs e).slot = some (L, i) →
    tw.nows 0 / 2 ^ (8 * L) < (tw.evs e).scheduled_at / 2 ^ (8 * L) ∧
    (tw.evs e).scheduled_at / 2 ^ (8 * L) ≤ tw.nows 0 / 2 ^ (8 * L) + 255

/-- Non-strict (due) window at level `L`: during a tick, events whose
wheel has just rolled over may sit exactly at the wheel's current
position, waiting to be drained. -/
def WinD (tw : TW) (L : Nat) : Prop :=
  ∀ e i, (tw.evs e).slot = some (L, i) →
    tw.nows 0 / 2 ^ (8 * L) ≤ (tw.evs e).scheduled_at / 2 ^ (8 * L) ∧
    (tw.evs e).scheduled_at / 2 ^ (8 * L) ≤ tw.nows 0 / 2 ^ (8 * L) + 255

/-- Each wheel's `now_` is the core tick seen at that wheel's
granularity (true between operations for an engine started at tick 0). -/
def Aligned (tw : TW) : Prop :=
  ∀ L, L < NUM_LEVELS → tw.nows L = tw.nows 0 / 2 ^ (8 * L)

/-- The resting-state invariant of the engine. -/
def WheelInv (tw : TW) : Prop :=
  tw.nows 0 < W ∧ Aligned tw ∧ Backrefs tw ∧ NodupSlots tw ∧ MemSlots tw ∧
    Placed tw ∧ ∀ L, L < NUM_LEVELS → WinS tw L

theorem WheelInv_init : WheelInv (TimerWheel.init 0) := by
  refine ⟨by decide, ?_, ?_, ?_, ?_, ?_, ?_⟩
  · intro L _; simp [TimerWheel.init]
  · intro L i e h; simp [TimerWheel.init] at h
  · intro L i; simp [TimerWheel.init]
  · intro e L i h; simp [TimerWheel.init] at h
  · intro e L i h; simp [TimerWheel.init] at h
  · intro L _ e i h; simp [TimerWheel.init] at h

/-! ### Characterization of `relink`, `cancel`, `pop_event` -/

theorem relink_evs (e : EventId) (ns : Option (Nat × Nat)) (tw : TW) (x : EventId) :
    (TimerEventInterface.relink e ns tw).evs x =
      if x = e then ⟨(tw.evs e).scheduled_at, ns⟩ else tw.evs x := by
  unfold TimerEventInterface.relink
  by_cases h : (tw.evs e).slot = ns
  · simp only [h, if_pos rfl]
    by_cases hx : x = e
    · subst hx; simp [← h]
    · simp [hx]
  · simp only [if_neg h]
    cases hslot : (tw.evs e).slot with
    | none => cases ns with
      | none => simp_all
      | some p => cases p with | mk M j => by_cases hx : x = e <;> simp [hx]
    | some p => cases p with
      | mk L i => cases ns with
        | none => by_cases hx : x = e <;> simp [hx]
        | some q => cases q with | mk M j => by_cases hx : x = e <;> simp [hx]

theorem relink_nows (e : EventId) (ns : Option (Nat × Nat)) (tw : TW) :
    (TimerEventInterface.relink e ns tw).nows = tw.nows := by
  unfold TimerEventInterface.relink
  by_cases h : (tw.evs e).slot = ns
  · simp [h]
  · simp only [if_neg h]
    cases hslot : (tw.evs e).slot <;> cases ns <;> rfl

theorem relink_fired (e : EventId) (ns : Option (Nat × Nat)) (tw : TW) :
    (TimerEventInterface.relink e ns tw).fired = tw.fired := by
  unfold TimerEventInterface.relink
  by_cases h : (tw.evs e).slot = ns
  · simp [h]
  · simp only [if_neg h]
    cases hslot : (tw.evs e).slot <;> cases ns <;> rfl

theorem relink_promos (e : EventId) (ns : Option (Nat × Nat)) (tw : TW) :
    (TimerEventInterface.relink e ns tw).promos = tw.promos := by
  unfold TimerEventInterface.relink
  by_cases h : (tw.evs e).slot = ns
  · simp [h]
  · simp only [if_neg h]
    cases hslot : (tw.evs e).slot <;> cases ns <;> rfl

theorem not_mem_of_backrefs_ne {tw : TW} (hB : Backrefs tw) {e : EventId} {a b : Nat}
    (h : (tw.evs e).slot ≠ some (a, b)) : e ∉ tw.slots a b := by
  intro hmem
  exact h (hB a b e hmem)

theorem relink_move_slots {tw : TW} (hB : Backrefs tw) {e : EventId} {M j : Nat}
    (h : (tw.evs e).slot ≠ some (M, j)) (a b : Nat) :
    (TimerEventInterface.relink e (some (M, j)) tw).slots a b =
      if a = M ∧ b = j then e :: (tw.slots a b).erase e else (tw.slots a b).erase e := by
  unfold TimerEventInterface.relink
  rw [if_neg h]
  cases hslot : (tw.evs e).slot with
  | none =>
    have hni : ∀ a b, e ∉ tw.slots a b := by
      intro a b hmem
      rw [hB a b e hmem] at hslot
      exact Option.noConfusion hslot
    by_cases hab : a = M ∧ b = j
    · obtain ⟨rfl, rfl⟩ := hab
      simp [List.erase_of_not_mem (hni a b)]
    · simp only [setEv_slots, setSlot_slots]
      rw [if_neg hab, if_neg hab, List.erase_of_not_mem (hni a b)]
  | some p =>
    obtain ⟨L, i⟩ := p
    have hLi : (L, i) ≠ (M, j) := by
      intro hc; rw [hc] at hslot; exact h hslot
    have hni : ∀ a b, ¬(a = L ∧ b = i) → e ∉ tw.slots a b := by
      intro a b hab hmem
      rw [hB a b e hmem] at hslot
      cases hslot
      exact hab ⟨rfl, rfl⟩
    simp only [setEv_slots, setSlot_slots]
    by_cases hab : a = M ∧ b = j
    · rw [if_pos hab, if_pos hab, hab.1, hab.2]
      have hMj : ¬(M = L ∧ j = i) := by
        intro hc; exact hLi (by rw [hc.1, hc.2])
      rw [if_neg hMj, List.erase_of_not_mem (hni M j hMj)]
    · rw [if_neg hab, if_neg hab]
      by_cases hab2 : a = L ∧ b = i
      · rw [if_pos hab2, hab2.1, hab2.2]
      · rw [if_neg hab2, List.erase_of_not_mem (hni a b hab2)]

theorem relink_none_slots {tw : TW} (hB : Backrefs tw) (e : EventId) (a b : Nat) :
    (TimerEventInterface.relink e none tw).slots a b = (tw.slots a b).erase e := by
  unfold TimerEventInterface.relink
  cases hslot : (tw.evs e).slot with
  | none =>
    rw [if_pos rfl]
    have : e ∉ tw.slots a b := by
      intro hmem; rw [hB a b e hmem] at hslot; exact Option.noConfusion hslot
    rw [List.erase_of_not_mem this]
  | some p =>
    obtain ⟨L, i⟩ := p
    rw [if_neg (by simp [hslot])]
    simp only [hslot, setEv_slots, setSlot_slots]
    by_cases hab : a = L ∧ b = i
    · obtain ⟨rfl, rfl⟩ := hab
      rw [if_pos ⟨rfl, rfl⟩]
    · rw [if_neg hab]
      have : e ∉ tw.slots a b := by
        intro hmem; rw [hB a b e hmem] at hslot; cases hslot; exact hab ⟨rfl, rfl⟩
      rw [List.erase_of_not_mem this]

theorem cancel_evs {tw : TW} (e x : EventId) :
    (TimerEventInterface.cancel e tw).evs x =
      if x = e then ⟨(tw.evs e).scheduled_at, none⟩ else tw.evs x := by
  unfold TimerEventInterface.cancel
  by_cases h : (tw.evs e).slot = none
  · rw [if_pos h]
    by_cases hx : x = e
    · subst hx; conv_rhs => rw [if_pos rfl]
      conv_lhs => rw [show tw.evs x = ⟨(tw.evs x).scheduled_at, (tw.evs x).slot⟩ from rfl]
      rw [h]
    · rw [if_neg hx]
  · rw [if_neg h, relink_evs]

theorem cancel_slots {tw : TW} (hB : Backrefs tw) (e : EventId) (a b : Nat) :
    (TimerEventInterface.cancel e tw).slots a b = (tw.slots a b).erase e := by
  unfold TimerEventInterface.cancel
  by_cases h : (tw.evs e).slot = none
  · rw [if_pos h]
    have : e ∉ tw.slots a b := by
      intro hmem; rw [hB a b e hmem] at h; exact Option.noConfusion h
    rw [List.erase_of_not_mem this]
  · rw [if_neg h, relink_none_slots hB]

theorem cancel_nows (tw : TW) (e : EventId) :
    (TimerEventInterface.cancel e tw).nows = tw.nows := by
  unfold TimerEventInterface.cancel
  by_cases h : (tw.evs e).slot = none
  · rw [if_pos h]
  · rw [if_neg h, relink_nows]

theorem cancel_fired (tw : TW) (e : EventId) :
    (TimerEventInterface.cancel e tw).fired = tw.fired := by
  unfold TimerEventInterface.cancel
  by_cases h : (tw.evs e).slot = none
  · rw [if_pos h]
  · rw [if_neg h, relink_fired]

theorem cancel_promos (tw : TW) (e : EventId) :
    (TimerEventInterface.cancel e tw).promos = tw.promos := by
  unfold TimerEventInterface.cancel
  by_cases h : (tw.evs e).slot = none
  · rw [if_pos h]
  · rw [if_neg h, relink_promos]

theorem pop_event_eq {tw : TW} {L i : Nat} {e : EventId} {rest : List EventId}
    (h : tw.slots L i = e :: rest) :
    TimerWheelSlot.pop_event L i tw =
      setEv e ⟨(tw.evs e).scheduled_at, none⟩ (setSlot L i rest tw) := by
  unfold TimerWheelSlot.pop_event
  rw [h]

/-! ### Reduction of `schedule` to a single relink -/

theorem sched_step_arith {n s : Nat} (hns : n ≤ s) (hsW : s < W) (ℓ : Nat)
    (hd : 256 ≤ s / 2 ^ (8 * ℓ) - n / 2 ^ (8 * ℓ)) :
    ((s / 2 ^ (8 * ℓ) - n / 2 ^ (8 * ℓ) + n / 2 ^ (8 * ℓ) % 256) % W) >>> 8 =
      s / 2 ^ (8 * (ℓ + 1)) - n / 2 ^ (8 * (ℓ + 1)) ∧
    1 ≤ s / 2 ^ (8 * (ℓ + 1)) - n / 2 ^ (8 * (ℓ + 1)) := by
  have hA : n / 2 ^ (8 * ℓ) ≤ s / 2 ^ (8 * ℓ) := Nat.div_le_div_right hns
  have hK : 256 * (n / 2 ^ (8 * ℓ) / 256) + n / 2 ^ (8 * ℓ) % 256 = n / 2 ^ (8 * ℓ) :=
    Nat.div_add_mod _ 256
  have hsum : s / 2 ^ (8 * ℓ) - n / 2 ^ (8 * ℓ) + n / 2 ^ (8 * ℓ) % 256 =
      s / 2 ^ (8 * ℓ) - 256 * (n / 2 ^ (8 * ℓ) / 256) := by omega
  have hKle : 256 * (n / 2 ^ (8 * ℓ) / 256) ≤ s / 2 ^ (8 * ℓ) := by omega
  have hlt : s / 2 ^ (8 * ℓ) - 256 * (n / 2 ^ (8 * ℓ) / 256) < W :=
    lt_of_le_of_lt (le_trans (Nat.sub_le _ _) (Nat.div_le_self _ _)) hsW
  rw [hsum, Nat.mod_eq_of_lt hlt, shiftRight8, Nat.sub_mul_div _ _ _ hKle]
  rw [div_div_256, div_div_256]
  constructor
  · rfl
  · have h1 : 256 * (n / 2 ^ (8 * ℓ) / 256 + 1) ≤ s / 2 ^ (8 * ℓ) := by omega
    have h2 : n / 2 ^ (8 * ℓ) / 256 + 1 ≤ s / 2 ^ (8 * ℓ) / 256 :=
      (Nat.le_div_iff_mul_le (by omega)).mpr (by omega)
    rw [div_div_256, div_div_256] at h2
    omega

theorem div56_le (s : Nat) (hsW : s < W) : s / 2 ^ (8 * 7) ≤ 255 := by
  have h : s / 2 ^ (8 * 7) < 256 := by
    rw [Nat.div_lt_iff_lt_mul (by norm_num : 0 < (2:Nat) ^ (8 * 7))]
    calc s < W := hsW
    _ ≤ 256 * 2 ^ (8 * 7) := by norm_num [W]
  omega

theorem scheduleOn_outer_reduce (ℓ : Nat) (h1 : 1 ≤ ℓ) (h8 : ℓ < 8)
    (tw : TW) (e : EventId) (d : Nat)
    (hn : tw.nows 0 < W) (hal : Aligned tw)
    (hns : tw.nows 0 < (tw.evs e).scheduled_at) (hsW : (tw.evs e).scheduled_at < W)
    (hd : d = (tw.evs e).scheduled_at / 2 ^ (8 * ℓ) - tw.nows 0 / 2 ^ (8 * ℓ)) (hd1 : 1 ≤ d) :
    ∃ Lf, ℓ ≤ Lf ∧ Lf < 8 ∧
      1 ≤ (tw.evs e).scheduled_at / 2 ^ (8 * Lf) - tw.nows 0 / 2 ^ (8 * Lf) ∧
      (tw.evs e).scheduled_at / 2 ^ (8 * Lf) - tw.nows 0 / 2 ^ (8 * Lf) ≤ 255 ∧
      TimerWheel.scheduleOn (8 - ℓ) ℓ e d tw =
        TimerEventInterface.relink e
          (some (Lf, (tw.evs e).scheduled_at / 2 ^ (8 * Lf) % 256)) tw ∧
      (∀ m, ℓ ≤ m → m < Lf →
        256 ≤ (tw.evs e).scheduled_at / 2 ^ (8 * m) - tw.nows 0 / 2 ^ (8 * m)) := by
  have hℓ0 : ¬ℓ = 0 := by omega
  have hgas : 8 - ℓ = (8 - (ℓ + 1)) + 1 := by omega
  rw [hgas, TimerWheel.scheduleOn]
  simp only [if_neg hℓ0]
  by_cases hbig : d ≥ NUM_SLOTS
  · -- forwarded to the next outer wheel
    have hbig' : 256 ≤ (tw.evs e).scheduled_at / 2 ^ (8 * ℓ) - tw.nows 0 / 2 ^ (8 * ℓ) := by
      rw [← hd]; exact hbig
    have hℓ7 : ℓ + 1 < 8 := by
      rcases Nat.lt_or_ge ℓ 7 with h | h
      · omega
      · exfalso
        have hle : (tw.evs e).scheduled_at / 2 ^ (8 * ℓ) - tw.nows 0 / 2 ^ (8 * ℓ) ≤ 255 := by
          have hℓeq : ℓ = 7 := by omega
          subst hℓeq
          exact le_trans (Nat.sub_le _ _) (div56_le _ hsW)
        exact absurd (le_trans hbig' hle) (by decide)
    rw [if_pos hbig, if_pos (by simp only [NUM_LEVELS]; omega : ℓ + 1 < NUM_LEVELS)]
    have harith := sched_step_arith (le_of_lt hns) hsW ℓ hbig'
    have hmask : tw.nows ℓ &&& MASK = tw.nows 0 / 2 ^ (8 * ℓ) % 256 := by
      rw [hal ℓ (by simp only [NUM_LEVELS]; omega), land_MASK]
    have harg : ((d + (tw.nows ℓ &&& MASK)) % W) >>> WIDTH_BITS =
        (tw.evs e).scheduled_at / 2 ^ (8 * (ℓ + 1)) - tw.nows 0 / 2 ^ (8 * (ℓ + 1)) := by
      rw [hmask, hd]
      exact harith.1
    rw [harg]
    have hres := scheduleOn_outer_reduce (ℓ + 1) (Nat.succ_pos ℓ) hℓ7 tw e _ hn hal hns hsW
      rfl harith.2
    obtain ⟨Lf, hLf1, hLf8, hw1, hw2, heq, hmin⟩ := hres
    refine ⟨Lf, by omega, hLf8, hw1, hw2, heq, ?_⟩
    intro m hm1 hm2
    rcases Nat.eq_or_lt_of_le hm1 with he | hlt
    · rw [← he]; exact hbig'
    · exact hmin m hlt hm2
  · -- linked into this wheel
    rw [if_neg hbig]
    have hg1 : 1 ≤ (tw.evs e).scheduled_at / 2 ^ (8 * ℓ) - tw.nows 0 / 2 ^ (8 * ℓ) := by
      rw [← hd]; exact hd1
    have hdlt : d < 256 := Nat.lt_of_not_le hbig
    have hg2 : (tw.evs e).scheduled_at / 2 ^ (8 * ℓ) - tw.nows 0 / 2 ^ (8 * ℓ) ≤ 255 := by
      rw [← hd]; exact Nat.le_of_lt_succ hdlt
    refine ⟨ℓ, le_refl ℓ, h8, hg1, hg2, ?_, fun m hm1 hm2 => absurd hm2 (Nat.not_lt.mpr hm1)⟩
    have hA : tw.nows 0 / 2 ^ (8 * ℓ) ≤ (tw.evs e).scheduled_at / 2 ^ (8 * ℓ) :=
      Nat.div_le_div_right (le_of_lt hns)
    have hsum : tw.nows ℓ + d = (tw.evs e).scheduled_at / 2 ^ (8 * ℓ) := by
      rw [hal ℓ (by simp only [NUM_LEVELS]; omega), hd]
      exact Nat.add_sub_cancel' hA
    have hlt : (tw.evs e).scheduled_at / 2 ^ (8 * ℓ) < W :=
      lt_of_le_of_lt (Nat.div_le_self _ _) hsW
    rw [hsum, Nat.mod_eq_of_lt hlt, land_MASK]
termination_by 8 - ℓ
decreasing_by omega

theorem Aligned_setEv (tw : TW) (e : EventId) (s : EvState) (h : Aligned tw) :
    Aligned (setEv e s tw) := by
  intro L hL
  simp only [setEv_nows]
  exact h L hL

/-- `TimerWheel::schedule` on the core wheel reduces to: record the
absolute fire tick `now + delta`, then relink the event into the slot of
the unique wheel level whose granularity window accommodates the delta. -/
theorem schedule_reduce (tw : TW) (e : EventId) (delta : Nat)
    (hn : tw.nows 0 < W) (hal : Aligned tw) (hd1 : 1 ≤ delta)
    (hov : tw.nows 0 + delta < W) :
    ∃ Lf, Lf < 8 ∧ (delta < 256 → Lf = 0) ∧ (256 ≤ delta → 1 ≤ Lf) ∧
      1 ≤ (tw.nows 0 + delta) / 2 ^ (8 * Lf) - tw.nows 0 / 2 ^ (8 * Lf) ∧
      (tw.nows 0 + delta) / 2 ^ (8 * Lf) - tw.nows 0 / 2 ^ (8 * Lf) ≤ 255 ∧
      TimerWheel.schedule e delta tw =
        TimerEventInterface.relink e
          (some (Lf, (tw.nows 0 + delta) / 2 ^ (8 * Lf) % 256))
          (setEv e ⟨tw.nows 0 + delta, (tw.evs e).slot⟩ tw) ∧
      (∀ m, m < Lf →
        256 ≤ (tw.nows 0 + delta) / 2 ^ (8 * m) - tw.nows 0 / 2 ^ (8 * m)) := by
  have hmodW : (tw.nows 0 + delta) % W = tw.nows 0 + delta := Nat.mod_eq_of_lt hov
  have hgas : NUM_LEVELS = 7 + 1 := rfl
  rw [TimerWheel.schedule, hgas, TimerWheel.scheduleOn]
  simp only [reduceIte, if_true, hmodW]
  by_cases hbig : delta ≥ NUM_SLOTS
  · -- forwarded to the outer wheel
    rw [if_pos hbig, if_pos (by simp only [NUM_LEVELS]; omega : 0 + 1 < NUM_LEVELS)]
    have hbig' : (256 : Nat) ≤ delta := hbig
    set tw0 := setEv e ⟨tw.nows 0 + delta, (tw.evs e).slot⟩ tw with htw0
    have hnows0 : tw0.nows 0 = tw.nows 0 := rfl
    have hsched0 : (tw0.evs e).scheduled_at = tw.nows 0 + delta := by
      simp [htw0]
    have hal0 : Aligned tw0 := Aligned_setEv tw e _ hal
    have hd0 : delta = (tw0.evs e).scheduled_at / 2 ^ (8 * 0) - tw0.nows 0 / 2 ^ (8 * 0) := by
      simp only [hsched0, hnows0, Nat.mul_zero, Nat.pow_zero, Nat.div_one]
      omega
    have hbig0 : 256 ≤ (tw0.evs e).scheduled_at / 2 ^ (8 * 0) - tw0.nows 0 / 2 ^ (8 * 0) := by
      rw [← hd0]; exact hbig'
    have hsW0 : (tw0.evs e).scheduled_at < W := by rw [hsched0]; exact hov
    have hns0 : tw0.nows 0 < (tw0.evs e).scheduled_at := by
      rw [hsched0, hnows0]; omega
    have harith := sched_step_arith (le_of_lt hns0) hsW0 0 hbig0
    have hmask : tw0.nows 0 &&& MASK = tw0.nows 0 / 2 ^ (8 * 0) % 256 := by
      simp only [Nat.mul_zero, Nat.pow_zero, Nat.div_one]
      exact land_MASK _
    have harg : ((delta + (tw0.nows 0 &&& MASK)) % W) >>> WIDTH_BITS =
        (tw0.evs e).scheduled_at / 2 ^ (8 * (0 + 1)) - tw0.nows 0 / 2 ^ (8 * (0 + 1)) := by
      rw [hmask, hd0]
      exact harith.1
    rw [harg]
    have hres := scheduleOn_outer_reduce 1 (Nat.le_refl 1) (by omega) tw0 e _
      (by rw [hnows0]; exact hn) hal0 hns0 hsW0 rfl harith.2
    obtain ⟨Lf, hLf1, hLf8, hw1, hw2, heq, hmin⟩ := hres
    rw [hsched0, hnows0] at hw1 hw2 heq
    simp only [hsched0, hnows0] at hmin
    refine ⟨Lf, hLf8, fun hlt => absurd hlt (Nat.not_lt.mpr hbig'), fun _ => hLf1, hw1, hw2,
      ?_, ?_⟩
    · simp only [Nat.zero_add]
      rw [hsched0, hnows0]
      exact heq
    · intro m hm
      rcases Nat.eq_zero_or_pos m with hm0 | hm1
      · subst hm0
        simp only [Nat.mul_zero, Nat.pow_zero, Nat.div_one]
        omega
      · exact hmin m hm1 hm
  · -- linked into the core wheel
    rw [if_neg hbig]
    have hdlt : delta < 256 := Nat.lt_of_not_le hbig
    refine ⟨0, by omega, fun _ => rfl, fun hc => absurd hdlt (Nat.not_lt.mpr hc), ?_, ?_, ?_,
      fun m hm => absurd hm (Nat.not_lt_zero m)⟩
    · simp only [Nat.mul_zero, Nat.pow_zero, Nat.div_one]; omega
    · simp only [Nat.mul_zero, Nat.pow_zero, Nat.div_one]; omega
    · simp only [Nat.mul_zero, Nat.pow_zero, Nat.div_one, setEv_nows]
      rw [hmodW, land_MASK]

theorem relink_mem_some {tw : TW} (hB : Backrefs tw) (hN : NodupSlots tw) (hM : MemSlots tw)
    {e : EventId} {M j : Nat} (a b : Nat) (x : EventId) :
    (x ∈ (TimerEventInterface.relink e (some (M, j)) tw).slots a b ↔
      (x = e ∧ a = M ∧ b = j) ∨ (x ≠ e ∧ x ∈ tw.slots a b)) := by
  by_cases h : (tw.evs e).slot = some (M, j)
  · rw [TimerEventInterface.relink, if_pos h]
    constructor
    · intro hx
      by_cases hxe : x = e
      · subst hxe
        have := hB a b x hx
        rw [h] at this
        cases this
        exact Or.inl ⟨rfl, rfl, rfl⟩
      · exact Or.inr ⟨hxe, hx⟩
    · rintro (⟨rfl, rfl, rfl⟩ | ⟨hxe, hx⟩)
      · exact hM x a b h
      · exact hx
  · rw [relink_move_slots hB h]
    by_cases hab : a = M ∧ b = j
    · rw [if_pos hab]
      constructor
      · intro hx
        rcases List.mem_cons.mp hx with hx | hx
        · exact Or.inl ⟨hx, hab⟩
        · have hxe : x ≠ e := by
            intro hc; subst hc
            exact (hN a b).not_mem_erase hx
          exact Or.inr ⟨hxe, List.mem_of_mem_erase hx⟩
      · rintro (⟨rfl, _, _⟩ | ⟨hxe, hx⟩)
        · exact List.mem_cons_self _ _
        · exact List.mem_cons_of_mem _ ((List.mem_erase_of_ne hxe).mpr hx)
    · rw [if_neg hab]
      constructor
      · intro hx
        have hxe : x ≠ e := by
          intro hc; subst hc
          exact (hN a b).not_mem_erase hx
        exact Or.inr ⟨hxe, List.mem_of_mem_erase hx⟩
      · rintro (⟨rfl, h1, h2⟩ | ⟨hxe, hx⟩)
        · exact absurd ⟨h1, h2⟩ hab
        · exact (List.mem_erase_of_ne hxe).mpr hx

theorem relink_nodup_some {tw : TW} (hB : Backrefs tw) (hN : NodupSlots tw)
    (e : EventId) (M j : Nat) (a b : Nat) :
    ((TimerEventInterface.relink e (some (M, j)) tw).slots a b).Nodup := by
  by_cases h : (tw.evs e).slot = some (M, j)
  · rw [TimerEventInterface.relink, if_pos h]
    exact hN a b
  · rw [relink_move_slots hB h]
    by_cases hab : a = M ∧ b = j
    · rw [if_pos hab]
      exact List.Nodup.cons ((hN a b).not_mem_erase) ((hN a b).erase e)
    · rw [if_neg hab]
      exact (hN a b).erase e

/-- The structural well-formedness bundle preserved by every operation. -/
structure WF (tw : TW) : Prop where
  hB : Backrefs tw
  hN : NodupSlots tw
  hM : MemSlots tw
  hP : Placed tw

theorem setEv_keep_backrefs {tw : TW} (hB : Backrefs tw) (e : EventId) (v : Nat) :
    Backrefs (setEv e ⟨v, (tw.evs e).slot⟩ tw) := by
  intro L i x hx
  simp only [setEv_slots] at hx
  simp only [setEv_evs]
  by_cases hxe : x = e
  · subst hxe
    simp only [if_pos rfl]
    exact hB L i x hx
  · rw [if_neg hxe]
    exact hB L i x hx

theorem setEv_keep_nodup {tw : TW} (hN : NodupSlots tw) (e : EventId) (s : EvState) :
    NodupSlots (setEv e s tw) := by
  intro L i
  simp only [setEv_slots]
  exact hN L i

theorem setEv_keep_mem {tw : TW} (hM : MemSlots tw) (e : EventId) (v : Nat) :
    MemSlots (setEv e ⟨v, (tw.evs e).slot⟩ tw) := by
  intro x L i hx
  simp only [setEv_evs] at hx
  simp only [setEv_slots]
  by_cases hxe : x = e
  · subst hxe
    rw [if_pos rfl] at hx
    exact hM x L i hx
  · rw [if_neg hxe] at hx
    exact hM x L i hx

/-- Omnibus description of `TimerWheel::schedule` on a well-formed
state: the event's `scheduled_at` becomes `now + delta`, the event ends
up linked exactly in the slot of a unique level `Lf` (the core wheel iff
`delta < 256`), nothing else changes, and well-formedness and all window
invariants are preserved. -/
theorem schedule_spec (tw : TW) (e : EventId) (delta : Nat)
    (hn : tw.nows 0 < W) (hal : Aligned tw) (hd1 : 1 ≤ delta)
    (hov : tw.nows 0 + delta < W) (hwf : WF tw) :
    ∃ Lf, Lf < 8 ∧ (delta < 256 → Lf = 0) ∧ (256 ≤ delta → 1 ≤ Lf) ∧
      1 ≤ (tw.nows 0 + delta) / 2 ^ (8 * Lf) - tw.nows 0 / 2 ^ (8 * Lf) ∧
      (tw.nows 0 + delta) / 2 ^ (8 * Lf) - tw.nows 0 / 2 ^ (8 * Lf) ≤ 255 ∧
      (TimerWheel.schedule e delta tw).nows = tw.nows ∧
      (TimerWheel.schedule e delta tw).fired = tw.fired ∧
      (TimerWheel.schedule e delta tw).promos = tw.promos ∧
      (TimerWheel.schedule e delta tw).evs e =
        ⟨tw.nows 0 + delta, some (Lf, (tw.nows 0 + delta) / 2 ^ (8 * Lf) % 256)⟩ ∧
      (∀ x, x ≠ e → (TimerWheel.schedule e delta tw).evs x = tw.evs x) ∧
      (∀ a b x, x ∈ (TimerWheel.schedule e delta tw).slots a b ↔
        ((x = e ∧ a = Lf ∧ b = (tw.nows 0 + delta) / 2 ^ (8 * Lf) % 256) ∨
          (x ≠ e ∧ x ∈ tw.slots a b))) ∧
      WF (TimerWheel.schedule e delta tw) ∧
      ((tw.evs e).slot = none → ∀ a b,
        ¬(a = Lf ∧ b = (tw.nows 0 + delta) / 2 ^ (8 * Lf) % 256) →
        (TimerWheel.schedule e delta tw).slots a b = tw.slots a b) ∧
      (∀ m, m < Lf →
        256 ≤ (tw.nows 0 + delta) / 2 ^ (8 * m) - tw.nows 0 / 2 ^ (8 * m)) := by
  obtain ⟨Lf, hLf8, hcore, houter, hw1, hw2, heq, hmin⟩ :=
    schedule_reduce tw e delta hn hal hd1 hov
  set tw1 := setEv e ⟨tw.nows 0 + delta, (tw.evs e).slot⟩ tw with htw1
  have hB1 : Backrefs tw1 := setEv_keep_backrefs hwf.hB e _
  have hN1 : NodupSlots tw1 := setEv_keep_nodup hwf.hN e _
  have hM1 : MemSlots tw1 := setEv_keep_mem hwf.hM e _
  have hsched1 : (tw1.evs e).scheduled_at = tw.nows 0 + delta := by
    simp [htw1]
  refine ⟨Lf, hLf8, hcore, houter, hw1, hw2, ?_, ?_, ?_, ?_, ?_, ?_, ?_, ?_, hmin⟩
  · rw [heq, relink_nows]; rfl
  · rw [heq, relink_fired]; rfl
  · rw [heq, relink_promos]; rfl
  · rw [heq, relink_evs, if_pos rfl, hsched1]
  · intro x hx
    rw [heq, relink_evs, if_neg hx]
    simp [htw1, hx]
  · intro a b x
    rw [heq, relink_mem_some hB1 hN1 hM1]
    simp only [htw1, setEv_slots]
  · constructor
    · -- Backrefs
      intro a b x hx
      rw [heq] at hx ⊢
      rw [relink_mem_some hB1 hN1 hM1] at hx
      rw [relink_evs]
      rcases hx with ⟨rfl, rfl, rfl⟩ | ⟨hxe, hx⟩
      · rw [if_pos rfl]
      · rw [if_neg hxe]
        simp only [htw1, setEv_slots] at hx
        have := hwf.hB a b x hx
        simp [htw1, hxe, this]
    · -- Nodup
      intro a b
      rw [heq]
      exact relink_nodup_some hB1 hN1 e _ _ a b
    · -- Mem
      intro x a b hx
      rw [heq] at hx ⊢
      rw [relink_evs] at hx
      rw [relink_mem_some hB1 hN1 hM1]
      by_cases hxe : x = e
      · subst hxe
        rw [if_pos rfl] at hx
        cases hx
        exact Or.inl ⟨rfl, rfl, rfl⟩
      · rw [if_neg hxe] at hx
        simp only [htw1, setEv_evs, if_neg hxe] at hx
        exact Or.inr ⟨hxe, hwf.hM x a b hx⟩
    · -- Placed
      intro x a b hx
      rw [heq] at hx ⊢
      rw [relink_evs] at hx ⊢
      by_cases hxe : x = e
      · subst hxe
        rw [if_pos rfl] at hx ⊢
        cases hx
        simp only [hsched1]
        exact ⟨by simp only [NUM_LEVELS]; omega, hov, trivial⟩
      · rw [if_neg hxe] at hx ⊢
        simp only [htw1, setEv_evs, if_neg hxe] at hx ⊢
        exact hwf.hP x a b hx
  · intro hinact a b hab
    have hni : ∀ a b, e ∉ tw.slots a b := by
      intro a b hmem
      rw [hwf.hB a b e hmem] at hinact
      exact Option.noConfusion hinact
    have h1slot : (tw1.evs e).slot = (tw.evs e).slot := by
      simp [htw1]
    rw [heq, relink_move_slots hB1 (by rw [h1slot, hinact]; intro hc; cases hc)]
    rw [if_neg hab]
    simp only [htw1, setEv_slots]
    exact List.erase_of_not_mem (hni a b)

theorem schedule_windows (tw : TW) (e : EventId) (delta : Nat)
    (hn : tw.nows 0 < W) (hal : Aligned tw) (hd1 : 1 ≤ delta)
    (hov : tw.nows 0 + delta < W) (hwf : WF tw) :
    (∀ L, WinS tw L → WinS (TimerWheel.schedule e delta tw) L) ∧
    (∀ L, WinD tw L → WinD (TimerWheel.schedule e delta tw) L) := by
  obtain ⟨Lf, hLf8, _, _, hw1, hw2, hnows, _, _, hevse, hevso, _, _, _, _⟩ :=
    schedule_spec tw e delta hn hal hd1 hov hwf
  constructor
  · intro L hWin x i hx
    rw [hnows]
    by_cases hxe : x = e
    · subst hxe
      rw [hevse] at hx
      cases hx
      simp only [hevse]
      exact ⟨by omega, by omega⟩
    · rw [hevso x hxe] at hx
      rw [hevso x hxe]
      exact hWin x i hx
  · intro L hWin x i hx
    rw [hnows]
    by_cases hxe : x = e
    · subst hxe
      rw [hevse] at hx
      cases hx
      simp only [hevse]
      exact ⟨by omega, by omega⟩
    · rw [hevso x hxe] at hx
      rw [hevso x hxe]
      exact hWin x i hx

theorem cancel_spec (tw : TW) (e : EventId) (hwf : WF tw) :
    (TimerEventInterface.cancel e tw).nows = tw.nows ∧
    (TimerEventInterface.cancel e tw).fired = tw.fired ∧
    (TimerEventInterface.cancel e tw).promos = tw.promos ∧
    (TimerEventInterface.cancel e tw).evs e = ⟨(tw.evs e).scheduled_at, none⟩ ∧
    (∀ x, x ≠ e → (TimerEventInterface.cancel e tw).evs x = tw.evs x) ∧
    (∀ a b, (TimerEventInterface.cancel e tw).slots a b = (tw.slots a b).erase e) ∧
    WF (TimerEventInterface.cancel e tw) ∧
    (∀ L, WinS tw L → WinS (TimerEventInterface.cancel e tw) L) ∧
    (∀ L, WinD tw L → WinD (TimerEventInterface.cancel e tw) L) := by
  have hevs := @cancel_evs tw e
  have hslots := cancel_slots hwf.hB e
  have hnows := cancel_nows tw e
  refine ⟨hnows, cancel_fired tw e, cancel_promos tw e, ?_, ?_, hslots, ?_, ?_, ?_⟩
  · rw [hevs e, if_pos rfl]
  · intro x hx
    rw [hevs x, if_neg hx]
  · constructor
    · intro a b x hx
      rw [hslots a b] at hx
      have hxe : x ≠ e := by
        intro hc; subst hc
        exact (hwf.hN a b).not_mem_erase hx
      rw [hevs x, if_neg hxe]
      exact hwf.hB a b x (List.mem_of_mem_erase hx)
    · intro a b
      rw [hslots a b]
      exact (hwf.hN a b).erase e
    · intro x a b hx
      rw [hevs x] at hx
      rw [hslots a b]
      by_cases hxe : x = e
      · rw [if_pos hxe] at hx
        cases hx
      · rw [if_neg hxe] at hx
        exact (List.mem_erase_of_ne hxe).mpr (hwf.hM x a b hx)
    · intro x a b hx
      rw [hevs x] at hx ⊢
      by_cases hxe : x = e
      · rw [if_pos hxe] at hx
        cases hx
      · rw [if_neg hxe] at hx ⊢
        exact hwf.hP x a b hx
  · intro L hWin x i hx
    rw [hnows]
    rw [hevs x] at hx
    by_cases hxe : x = e
    · rw [if_pos hxe] at hx
      cases hx
    · rw [if_neg hxe] at hx
      rw [hevs x, if_neg hxe]
      exact hWin x i hx
  · intro L hWin x i hx
    rw [hnows]
    rw [hevs x] at hx
    by_cases hxe : x = e
    · rw [if_pos hxe] at hx
      cases hx
    · rw [if_neg hxe] at hx
      rw [hevs x, if_neg hxe]
      exact hWin x i hx

theorem pop_event_spec (tw : TW) (L i : Nat) (e : EventId) (rest : List EventId)
    (hsl : tw.slots L i = e :: rest) (hwf : WF tw) :
    (TimerWheelSlot.pop_event L i tw).nows = tw.nows ∧
    (TimerWheelSlot.pop_event L i tw).fired = tw.fired ∧
    (TimerWheelSlot.pop_event L i tw).promos = tw.promos ∧
    (TimerWheelSlot.pop_event L i tw).evs e = ⟨(tw.evs e).scheduled_at, none⟩ ∧
    (∀ x, x ≠ e → (TimerWheelSlot.pop_event L i tw).evs x = tw.evs x) ∧
    (∀ a b, (TimerWheelSlot.pop_event L i tw).slots a b =
      if a = L ∧ b = i then rest else tw.slots a b) ∧
    WF (TimerWheelSlot.pop_event L i tw) ∧
    (∀ K, WinS tw K → WinS (TimerWheelSlot.pop_event L i tw) K) ∧
    (∀ K, WinD tw K → WinD (TimerWheelSlot.pop_event L i tw) K) := by
  rw [pop_event_eq hsl]
  have hmemE : e ∈ tw.slots L i := by rw [hsl]; exact List.mem_cons_self _ _
  have hbrE : (tw.evs e).slot = some (L, i) := hwf.hB L i e hmemE
  have hnodLi := hwf.hN L i
  have heNotRest : e ∉ rest := by
    rw [hsl] at hnodLi
    exact (List.nodup_cons.mp hnodLi).1
  refine ⟨rfl, rfl, rfl, ?_, ?_, ?_, ?_, ?_, ?_⟩
  · simp
  · intro x hx
    simp [hx]
  · intro a b
    simp only [setEv_slots, setSlot_slots]
  · constructor
    · intro a b x hx
      simp only [setEv_slots, setSlot_slots] at hx
      simp only [setEv_evs]
      by_cases hab : a = L ∧ b = i
      · rw [if_pos hab] at hx
        have hxe : x ≠ e := fun hc => heNotRest (hc ▸ hx)
        rw [if_neg hxe]
        have : x ∈ tw.slots a b := by
          rw [hab.1, hab.2, hsl]
          exact List.mem_cons_of_mem _ hx
        exact hwf.hB a b x this
      · rw [if_neg hab] at hx
        have hxe : x ≠ e := by
          intro hc; subst hc
          have := hwf.hB a b x hx
          rw [hbrE] at this
          cases this
          exact hab ⟨rfl, rfl⟩
        rw [if_neg hxe]
        exact hwf.hB a b x hx
    · intro a b
      simp only [setEv_slots, setSlot_slots]
      by_cases hab : a = L ∧ b = i
      · rw [if_pos hab]
        rw [hsl] at hnodLi
        exact (List.nodup_cons.mp hnodLi).2
      · rw [if_neg hab]
        exact hwf.hN a b
    · intro x a b hx
      simp only [setEv_evs] at hx
      simp only [setEv_slots, setSlot_slots]
      by_cases hxe : x = e
      · rw [if_pos hxe] at hx
        cases hx
      · rw [if_neg hxe] at hx
        have hmem := hwf.hM x a b hx
        by_cases hab : a = L ∧ b = i
        · rw [if_pos hab]
          rw [hab.1, hab.2, hsl] at hmem
          rcases List.mem_cons.mp hmem with hc | hc
          · exact absurd hc hxe
          · exact hc
        · rw [if_neg hab]
          exact hmem
    · intro x a b hx
      simp only [setEv_evs] at hx ⊢
      by_cases hxe : x = e
      · rw [if_pos hxe] at hx
        cases hx
      · rw [if_neg hxe] at hx ⊢
        exact hwf.hP x a b hx
  · intro K hWin x j hx
    simp only [setEv_evs] at hx
    simp only [setEv_nows, setSlot_nows, setEv_evs]
    by_cases hxe : x = e
    · rw [if_pos hxe] at hx
      cases hx
    · rw [if_neg hxe] at hx
      rw [if_neg hxe]
      exact hWin x j hx
  · intro K hWin x j hx
    simp only [setEv_evs] at hx
    simp only [setEv_nows, setSlot_nows, setEv_evs]
    by_cases hxe : x = e
    · rw [if_pos hxe] at hx
      cases hx
    · rw [if_neg hxe] at hx
      rw [if_neg hxe]
      exact hWin x j hx

/-! ### The mask computation of `schedule_in_range` -/

theorem testBit_of_true_lt {x j b : Nat} (hx : x < 2 ^ b) (ht : x.testBit j = true) : j < b := by
  by_contra hc
  have hle : b ≤ j := Nat.le_of_not_lt hc
  have : x < 2 ^ j := lt_of_lt_of_le hx (Nat.pow_le_pow_right (by omega) hle)
  rw [Nat.testBit_lt_two_pow this] at ht
  cases ht

theorem land_window {x a b : Nat} (hab : a ≤ b) (hx : x < 2 ^ b) :
    x &&& (2 ^ b - 2 ^ a) = x / 2 ^ a * 2 ^ a := by
  have hmask : 2 ^ b - 2 ^ a = (2 ^ (b - a) - 1) <<< a := by
    rw [Nat.shiftLeft_eq, Nat.sub_mul, ← Nat.pow_add, Nat.one_mul]
    congr 2
    omega
  have hrhs : x / 2 ^ a * 2 ^ a = (x >>> a) <<< a := by
    rw [Nat.shiftLeft_eq, Nat.shiftRight_eq_div_pow]
  rw [hmask, hrhs]
  apply Nat.eq_of_testBit_eq
  intro j
  rw [Nat.testBit_and, Nat.testBit_shiftLeft, Nat.testBit_shiftLeft, Nat.testBit_shiftRight,
    Nat.testBit_two_pow_sub_one]
  by_cases haj : a ≤ j
  · have hga : j ≥ a := haj
    simp only [decide_eq_true hga, Bool.true_and]
    rw [Nat.add_sub_cancel' haj]
    cases ht : x.testBit j with
    | true =>
      have hjb : j < b := testBit_of_true_lt hx ht
      have hlt2 : j - a < b - a := by omega
      simp [hlt2]
    | false => simp
  · have hnj : ¬ j ≥ a := haj
    simp [hnj]

theorem maskLoop_sl {k : Nat} (hk : k < 8) :
    ((W - 2 ^ (8 * k)) <<< WIDTH_BITS) % W = W - 2 ^ (8 * (k + 1)) := by
  have h1 : 2 ^ (8 * (k + 1)) = 256 * 2 ^ (8 * k) := by
    rw [show 8 * (k + 1) = 8 * k + 8 by omega, Nat.pow_add]
    ring
  have h2 : 2 ^ (8 * k) ≤ W := by
    apply Nat.pow_le_pow_right (by omega)
    omega
  have h3 : 2 ^ (8 * (k + 1)) ≤ W := by
    apply Nat.pow_le_pow_right (by omega)
    omega
  have hW : W = 2 ^ 64 := rfl
  rw [Nat.shiftLeft_eq, show (2 : Nat) ^ WIDTH_BITS = 256 from rfl]
  have heq : (W - 2 ^ (8 * k)) * 256 = (W - 2 ^ (8 * (k + 1))) + 255 * W := by
    rw [Nat.sub_mul]
    omega
  rw [heq, Nat.add_mul_mod_self_right]
  apply Nat.mod_eq_of_lt
  have : 0 < 2 ^ (8 * (k + 1)) := Nat.pos_pow_of_pos _ (by omega)
  omega

theorem land_highmask {x k : Nat} (hx : x < W) (hk : k ≤ 8) :
    x &&& (W - 2 ^ (8 * k)) = x / 2 ^ (8 * k) * 2 ^ (8 * k) := by
  have : W = 2 ^ 64 := rfl
  rw [this]
  exact land_window (by omega) hx

theorem maskLoop_run (start end_ kstar : Nat) (hs : start < W) (he : end_ < W)
    (hstop : start / 2 ^ (8 * kstar) = end_ / 2 ^ (8 * kstar))
    (hmin : ∀ j, j < kstar → start / 2 ^ (8 * j) ≠ end_ / 2 ^ (8 * j))
    (hk8 : kstar ≤ 8) :
    ∀ f k, k ≤ kstar → kstar - k < f →
      maskLoop start end_ (W - 2 ^ (8 * k)) f = W - 2 ^ (8 * kstar) := by
  intro f
  induction f with
  | zero => intro k _ h; omega
  | succ g ih =>
    intro k hkk hfuel
    rw [maskLoop]
    have hland : (start &&& (W - 2 ^ (8 * k)) = end_ &&& (W - 2 ^ (8 * k))) ↔
        (start / 2 ^ (8 * k) = end_ / 2 ^ (8 * k)) := by
      rw [land_highmask hs (by omega), land_highmask he (by omega)]
      constructor
      · intro h
        exact Nat.eq_of_mul_eq_mul_right (Nat.pos_pow_of_pos _ (by omega)) h
      · intro h
        rw [h]
    by_cases hkstar : k = kstar
    · subst hkstar
      rw [if_neg (by simp only [ne_eq, Decidable.not_not]; exact hland.mpr hstop)]
    · have hklt : k < kstar := by omega
      rw [if_pos (by intro hc; exact hmin k hklt (hland.mp hc))]
      rw [maskLoop_sl (by omega)]
      exact ih (k + 1) (by omega) (by omega)

/-- The delta chosen by `schedule_in_range` when the range's `end` fits
below `2 ^ 56`: `end` with as many low 8-bit chunks cleared as possible
while staying at or above `start`. -/
theorem rangeDelta_eq (start end_ : Nat) (hlt : start < end_) (hend : end_ < 2 ^ 56) :
    ∃ kstar, 1 ≤ kstar ∧ kstar ≤ 7 ∧
      start / 2 ^ (8 * kstar) = end_ / 2 ^ (8 * kstar) ∧
      start / 2 ^ (8 * (kstar - 1)) < end_ / 2 ^ (8 * (kstar - 1)) ∧
      rangeDelta start end_ =
        end_ / 2 ^ (8 * (kstar - 1)) * 2 ^ (8 * (kstar - 1)) := by
  have hsW : start < W := by
    have : (2 : Nat) ^ 56 < W := by decide
    omega
  have heW : end_ < W := by
    have : (2 : Nat) ^ 56 < W := by decide
    omega
  have hP7 : start / 2 ^ (8 * 7) = end_ / 2 ^ (8 * 7) := by
    have h1 : start / 2 ^ (8 * 7) = 0 := Nat.div_eq_of_lt (by omega)
    have h2 : end_ / 2 ^ (8 * 7) = 0 := Nat.div_eq_of_lt (by omega)
    rw [h1, h2]
  have hex : ∃ k, start / 2 ^ (8 * k) = end_ / 2 ^ (8 * k) := ⟨7, hP7⟩
  set kstar := Nat.find hex with hkdef
  have hstop : start / 2 ^ (8 * kstar) = end_ / 2 ^ (8 * kstar) := Nat.find_spec hex
  have hmin : ∀ j, j < kstar → start / 2 ^ (8 * j) ≠ end_ / 2 ^ (8 * j) := by
    intro j hj
    exact Nat.find_min hex hj
  have hk7 : kstar ≤ 7 := Nat.find_min' hex hP7
  have hk1 : 1 ≤ kstar := by
    by_contra hc
    have h0 : kstar = 0 := by omega
    have := hstop
    rw [h0] at this
    simp only [Nat.mul_zero, Nat.pow_zero, Nat.div_one] at this
    omega
  have hloop : maskLoop start end_ (W - 1) 9 = W - 2 ^ (8 * kstar) := by
    have h0 : W - 1 = W - 2 ^ (8 * 0) := by norm_num
    rw [h0]
    exact maskLoop_run start end_ kstar hsW heW hstop hmin (by omega) 9 0 (by omega) (by omega)
  have hshift : (W - 2 ^ (8 * kstar)) >>> WIDTH_BITS = 2 ^ 56 - 2 ^ (8 * (kstar - 1)) := by
    rw [Nat.shiftRight_eq_div_pow, show (2 : Nat) ^ WIDTH_BITS = 256 from rfl]
    have h1 : W - 2 ^ (8 * kstar) = (2 ^ 56 - 2 ^ (8 * (kstar - 1))) * 256 := by
      rw [Nat.sub_mul]
      have e1 : (2 : Nat) ^ 56 * 256 = W := by decide
      have e2 : 2 ^ (8 * (kstar - 1)) * 256 = 2 ^ (8 * kstar) := by
        rw [show (256 : Nat) = 2 ^ 8 from rfl, ← Nat.pow_add]
        congr 1
        omega
      rw [e1, e2]
    rw [h1, Nat.mul_div_cancel _ (by omega)]
  refine ⟨kstar, hk1, hk7, hstop, ?_, ?_⟩
  · have hne := hmin (kstar - 1) (by omega)
    have hle : start / 2 ^ (8 * (kstar - 1)) ≤ end_ / 2 ^ (8 * (kstar - 1)) :=
      Nat.div_le_div_right (by omega)
    omega
  · rw [rangeDelta, hloop, hshift]
    exact land_window (by omega) hend

theorem rangeDelta_bounds (start end_ : Nat) (_h1 : 1 ≤ start) (hlt : start < end_)
    (hend : end_ < 2 ^ 56) :
    start ≤ rangeDelta start end_ ∧ rangeDelta start end_ ≤ end_ := by
  obtain ⟨k, hk1, hk7, hstop, hlt', heq⟩ := rangeDelta_eq start end_ hlt hend
  constructor
  · rw [heq]
    set a := 8 * (k - 1)
    have hpos : 0 < 2 ^ a := Nat.pos_pow_of_pos _ (by omega)
    have hstep : start < (start / 2 ^ a + 1) * 2 ^ a :=
      (Nat.div_lt_iff_lt_mul hpos).mp (Nat.lt_succ_self _)
    have hmul : (start / 2 ^ a + 1) * 2 ^ a ≤ end_ / 2 ^ a * 2 ^ a :=
      Nat.mul_le_mul_right _ (by omega)
    exact le_of_lt (lt_of_lt_of_le hstep hmul)
  · rw [heq]
    exact Nat.div_mul_le_self _ _

/-! ### Re-entrant callback actions preserve the invariants -/

/-- What a single re-entrant engine call (or a sequence of them)
preserves: the clocks and the ghost logs are untouched, structural
well-formedness and the per-level windows survive, and no event is ever
added to any wheel's current slot (the slot a drain loop may currently
be working on). -/
def ActPres (tw tw' : TW) : Prop :=
  tw'.nows = tw.nows ∧ tw'.fired = tw.fired ∧ tw'.promos = tw.promos ∧
  WF tw' ∧ (∀ L, WinS tw L → WinS tw' L) ∧ (∀ L, WinD tw L → WinD tw' L) ∧
  (∀ K x, x ∈ tw'.slots K (tw.nows K % 256) → x ∈ tw.slots K (tw.nows K % 256))

theorem ActPres_refl (tw : TW) (hwf : WF tw) : ActPres tw tw :=
  ⟨rfl, rfl, rfl, hwf, fun _ h => h, fun _ h => h, fun _ _ h => h⟩

theorem ActPres_trans {tw1 tw2 tw3 : TW} (h12 : ActPres tw1 tw2) (h23 : ActPres tw2 tw3) :
    ActPres tw1 tw3 := by
  obtain ⟨hn1, hf1, hp1, _, hs1, hd1, hc1⟩ := h12
  obtain ⟨hn2, hf2, hp2, hwf2, hs2, hd2, hc2⟩ := h23
  refine ⟨by rw [hn2, hn1], by rw [hf2, hf1], by rw [hp2, hp1], hwf2, ?_, ?_, ?_⟩
  · intro L h
    exact hs2 L (hs1 L h)
  · intro L h
    exact hd2 L (hd1 L h)
  · intro K x hx
    have hc2' := hc2
    rw [hn1] at hc2'
    exact hc1 K x (hc2' K x hx)

theorem schedule_ActPres (tw : TW) (e : EventId) (delta : Nat)
    (hn : tw.nows 0 < W) (hal : Aligned tw) (hd1 : 1 ≤ delta)
    (hov : tw.nows 0 + delta < W) (hwf : WF tw) :
    ActPres tw (TimerWheel.schedule e delta tw) := by
  obtain ⟨Lf, hLf8, _, _, hw1, hw2, hnows, hfired, hpromos, hevse, hevso, hmem, hwf', _, _⟩ :=
    schedule_spec tw e delta hn hal hd1 hov hwf
  obtain ⟨hWS, hWD⟩ := schedule_windows tw e delta hn hal hd1 hov hwf
  refine ⟨hnows, hfired, hpromos, hwf', hWS, hWD, ?_⟩
  intro K x hx
  rw [hmem] at hx
  rcases hx with ⟨hxe, hKL, hb⟩ | ⟨_, hx⟩
  · -- the newly placed event never lands in the current slot of its wheel
    exfalso
    subst hKL
    have hc : tw.nows K = tw.nows 0 / 2 ^ (8 * K) := hal K (by simp only [NUM_LEVELS]; omega)
    rw [hc] at hb
    set c := tw.nows 0 / 2 ^ (8 * K) with hcdef
    set q := (tw.nows 0 + delta) / 2 ^ (8 * K) with hqdef
    have hmodeq : q % 256 = c % 256 := hb.symm
    have hdq : q = c + (q - c) := by omega
    have hthis : (c + (q - c)) % 256 = c % 256 := by rw [← hdq, hmodeq]
    rw [Nat.add_mod] at hthis
    have h255 : (q - c) % 256 = q - c := Nat.mod_eq_of_lt (by omega)
    omega
  · exact hx

theorem cancel_ActPres (tw : TW) (e : EventId) (hwf : WF tw) :
    ActPres tw (TimerEventInterface.cancel e tw) := by
  obtain ⟨hnows, hfired, hpromos, _, _, hslots, hwf', hWS, hWD⟩ := cancel_spec tw e hwf
  refine ⟨hnows, hfired, hpromos, hwf', hWS, hWD, ?_⟩
  intro K x hx
  rw [hslots] at hx
  exact List.mem_of_mem_erase hx

theorem schedule_in_range_ActPres (tw : TW) (e : EventId) (start end_ : Nat)
    (hn : tw.nows 0 < W) (hal : Aligned tw) (hs1 : 1 ≤ start) (hst : start < end_)
    (hend : end_ < 2 ^ 56) (hov : tw.nows 0 + end_ < W) (hwf : WF tw) :
    ActPres tw (TimerWheel.schedule_in_range e start end_ tw) := by
  rw [TimerWheel.schedule_in_range]
  by_cases hc : (tw.evs e).slot ≠ none ∧
      start ≤ usub (tw.evs e).scheduled_at (tw.nows 0) ∧
      usub (tw.evs e).scheduled_at (tw.nows 0) ≤ end_
  · rw [if_pos hc]
    exact ActPres_refl tw hwf
  · rw [if_neg hc]
    obtain ⟨hlo, hhi⟩ := rangeDelta_bounds start end_ hs1 hst hend
    exact schedule_ActPres tw e _ hn hal (by omega) (by omega) hwf

/-- Well-formed callback actions: every re-entrant `schedule` has a
positive, non-overflowing delta, and every `schedule_in_range` has a
well-ordered range below `2 ^ 56`. -/
def GoodActs (tw : TW) (acts : List Act) : Prop :=
  ∀ a ∈ acts,
    match a with
    | .sched _ d => 1 ≤ d ∧ tw.nows 0 + d < W
    | .schedRange _ s t => 1 ≤ s ∧ s < t ∧ t < 2 ^ 56 ∧ tw.nows 0 + t < W
    | .cancel _ => True

/-- A callback whose actions are always well formed. -/
def GoodCb (cb : Cb) : Prop := ∀ e tw, GoodActs tw (cb e tw)

theorem cbInert_good : GoodCb cbInert := by
  intro e tw a ha
  cases ha

theorem runAct_ActPres (tw : TW) (a : Act)
    (hn : tw.nows 0 < W) (hal : Aligned tw) (hwf : WF tw)
    (hgood : match a with
      | .sched _ d => 1 ≤ d ∧ tw.nows 0 + d < W
      | .schedRange _ s t => 1 ≤ s ∧ s < t ∧ t < 2 ^ 56 ∧ tw.nows 0 + t < W
      | .cancel _ => True) :
    ActPres tw (runAct a tw) := by
  cases a with
  | sched e d =>
    exact schedule_ActPres tw e d hn hal hgood.1 hgood.2 hwf
  | schedRange e s t =>
    exact schedule_in_range_ActPres tw e s t hn hal hgood.1 hgood.2.1 hgood.2.2.1
      hgood.2.2.2 hwf
  | cancel e =>
    exact cancel_ActPres tw e hwf

theorem applyActs_ActPres (acts : List Act) : ∀ (tw : TW),
    tw.nows 0 < W → Aligned tw → WF tw → GoodActs tw acts →
    ActPres tw (applyActs acts tw) := by
  induction acts with
  | nil =>
    intro tw _ _ hwf _
    exact ActPres_refl tw hwf
  | cons a rest ih =>
    intro tw hn hal hwf hgood
    rw [applyActs, List.foldl_cons]
    have h1 : ActPres tw (runAct a tw) :=
      runAct_ActPres tw a hn hal hwf (hgood a (List.mem_cons_self _ _))
    have hn1 : (runAct a tw).nows 0 < W := by rw [h1.1]; exact hn
    have hal1 : Aligned (runAct a tw) := by
      intro L hL
      rw [h1.1]
      exact hal L hL
    have hgood1 : GoodActs (runAct a tw) rest := by
      intro b hb
      have := hgood b (List.mem_cons_of_mem _ hb)
      cases b with
      | sched e d => rw [h1.1] at *; exact this
      | schedRange e s t => rw [h1.1] at *; exact this
      | cancel e => trivial
    have h2 : ActPres (runAct a tw) (applyActs rest (runAct a tw)) :=
      ih (runAct a tw) hn1 hal1 h1.2.2.2.1 hgood1
    rw [applyActs] at h2
    exact ActPres_trans h1 h2

theorem nodup_subset_length {l1 l2 : List Nat} (h1 : l1.Nodup) (hs : l1 ⊆ l2) :
    l1.length ≤ l2.length := by
  calc l1.length = l1.toFinset.card := (List.toFinset_card_of_nodup h1).symm
  _ ≤ l2.toFinset.card := Finset.card_le_card (fun x hx => by
      rw [List.mem_toFinset] at hx ⊢
      exact hs hx)
  _ ≤ l2.length := List.toFinset_card_le l2

/-! ### Unfolding equations of `schedule` used by claim C2 -/

theorem schedule_forwards (tw : TW) (e : EventId) (delta : Nat) (hbig : 256 ≤ delta) :
    TimerWheel.schedule e delta tw =
      TimerWheel.scheduleOn (NUM_LEVELS - 1) 1 e
        (((delta + (tw.nows 0 &&& MASK)) % W) >>> WIDTH_BITS)
        (setEv e ⟨(tw.nows 0 + delta) % W, (tw.evs e).slot⟩ tw) := by
  have hgas : NUM_LEVELS = 7 + 1 := rfl
  rw [TimerWheel.schedule, hgas, TimerWheel.scheduleOn]
  simp only [reduceIte]
  rw [if_pos (by simp only [NUM_SLOTS]; omega), if_pos (by simp only [NUM_LEVELS]; omega :
    0 + 1 < NUM_LEVELS)]
  rfl

theorem scheduleOn_forwards (tw : TW) (e : EventId) (delta : Nat) (ℓ : Nat)
    (hℓ : 1 ≤ ℓ) (hℓ8 : ℓ + 1 < 8) (hbig : 256 ≤ delta) :
    TimerWheel.scheduleOn (8 - ℓ) ℓ e delta tw =
      TimerWheel.scheduleOn (8 - (ℓ + 1)) (ℓ + 1) e
        (((delta + (tw.nows ℓ &&& MASK)) % W) >>> WIDTH_BITS) tw := by
  have hgas : 8 - ℓ = (8 - (ℓ + 1)) + 1 := by omega
  rw [hgas, TimerWheel.scheduleOn]
  simp only [if_neg (by omega : ¬ℓ = 0)]
  rw [if_pos (by simp only [NUM_SLOTS]; omega),
    if_pos (by simp only [NUM_LEVELS]; omega : ℓ + 1 < NUM_LEVELS)]

theorem scheduleOn_links (tw : TW) (e : EventId) (delta : Nat) (ℓ : Nat)
    (hℓ : 1 ≤ ℓ) (hℓ8 : ℓ < 8) (hsmall : delta < 256) :
    TimerWheel.scheduleOn (8 - ℓ) ℓ e delta tw =
      TimerEventInterface.relink e (some (ℓ, ((tw.nows ℓ + delta) % W) &&& MASK)) tw := by
  have hgas : 8 - ℓ = (8 - (ℓ + 1)) + 1 := by omega
  rw [hgas, TimerWheel.scheduleOn]
  simp only [if_neg (by omega : ¬ℓ = 0)]
  rw [if_neg (by simp only [NUM_SLOTS]; omega)]

/-- On outer wheels `schedule` never rewrites any event's
`scheduled_at` (invariant 6 of the specification). -/
theorem scheduleOn_outer_keeps_sched (g : Nat) : ∀ (ℓ : Nat), 1 ≤ ℓ →
    ∀ (tw : TW) (e x : EventId) (d : Nat),
      ((TimerWheel.scheduleOn g ℓ e d tw).evs x).scheduled_at = (tw.evs x).scheduled_at := by
  induction g with
  | zero =>
    intro ℓ h1 tw e x d
    rw [TimerWheel.scheduleOn]
  | succ g ih =>
    intro ℓ h1 tw e x d
    rw [TimerWheel.scheduleOn]
    simp only [if_neg (by omega : ¬ℓ = 0)]
    by_cases hbig : d ≥ NUM_SLOTS
    · rw [if_pos hbig]
      by_cases h8 : ℓ + 1 < NUM_LEVELS
      · rw [if_pos h8]
        exact ih (ℓ + 1) (by omega) tw e x _
      · rw [if_neg h8]
    · rw [if_neg hbig]
      rw [relink_evs]
      by_cases hxe : x = e
      · rw [if_pos hxe, hxe]
      · rw [if_neg hxe]

/-! ### Claim theorems: C2, C4, C6 -/

theorem WheelInv_WF {tw : TW} (h : WheelInv tw) : WF tw :=
  ⟨h.2.2.1, h.2.2.2.1, h.2.2.2.2.1, h.2.2.2.2.2.1⟩

/-- C2: `schedule(event, delta)` on the core wheel records
`scheduled_at = core.now + delta` before any placement; a delta below
256 links the event into core slot `(core.now + delta) & 0xFF`; a delta
of 256 or more is forwarded to the next outer wheel with delta
`(delta + (now & 0xFF)) >> 8`, the same rule applying recursively at
every outer level; outer wheels never rewrite `scheduled_at`; and in all
cases the event ends up active with `scheduled_at = core.now + delta`. -/
theorem C2_schedule_contract :
    (∀ (tw : TW) (e : EventId) (delta : Nat), WheelInv tw → 1 ≤ delta →
      tw.nows 0 + delta < W →
      ((TimerWheel.schedule e delta tw).evs e).scheduled_at = tw.nows 0 + delta ∧
      ((TimerWheel.schedule e delta tw).evs e).slot.isSome = true ∧
      (delta < 256 →
        ((TimerWheel.schedule e delta tw).evs e).slot =
          some (0, ((tw.nows 0 + delta) % W) &&& MASK)) ∧
      (256 ≤ delta → ∃ Lf, 1 ≤ Lf ∧ Lf < 8 ∧
        ((TimerWheel.schedule e delta tw).evs e).slot =
          some (Lf, (tw.nows 0 + delta) / 2 ^ (8 * Lf) % 256))) ∧
    (∀ (tw : TW) (e : EventId) (delta : Nat), 256 ≤ delta →
      TimerWheel.schedule e delta tw =
        TimerWheel.scheduleOn (NUM_LEVELS - 1) 1 e
          (((delta + (tw.nows 0 &&& MASK)) % W) >>> WIDTH_BITS)
          (setEv e ⟨(tw.nows 0 + delta) % W, (tw.evs e).slot⟩ tw)) ∧
    (∀ (tw : TW) (e : EventId) (delta ℓ : Nat), 1 ≤ ℓ → ℓ + 1 < 8 → 256 ≤ delta →
      TimerWheel.scheduleOn (8 - ℓ) ℓ e delta tw =
        TimerWheel.scheduleOn (8 - (ℓ + 1)) (ℓ + 1) e
          (((delta + (tw.nows ℓ &&& MASK)) % W) >>> WIDTH_BITS) tw) ∧
    (∀ (g ℓ : Nat), 1 ≤ ℓ → ∀ (tw : TW) (e x : EventId) (d : Nat),
      ((TimerWheel.scheduleOn g ℓ e d tw).evs x).scheduled_at =
        (tw.evs x).scheduled_at) := by
  refine ⟨?_, schedule_forwards, ?_, scheduleOn_outer_keeps_sched⟩
  · intro tw e delta hinv hd1 hov
    obtain ⟨Lf, hLf8, hcore, houter, hw1, hw2, _, _, _, hevse, _, _, _, _, _⟩ :=
      schedule_spec tw e delta hinv.1 hinv.2.1 hd1 hov (WheelInv_WF hinv)
    refine ⟨by rw [hevse], by rw [hevse]; rfl, ?_, ?_⟩
    · intro hsmall
      rw [hevse, hcore hsmall]
      have hmod : (tw.nows 0 + delta) % W = tw.nows 0 + delta := Nat.mod_eq_of_lt hov
      rw [hmod, land_MASK]
      simp only [Nat.mul_zero, Nat.pow_zero, Nat.div_one]
    · intro hbig
      exact ⟨Lf, houter hbig, hLf8, by rw [hevse]⟩
  · intro tw e delta ℓ h1 h8 hbig
    exact scheduleOn_forwards tw e delta ℓ h1 h8 hbig

theorem C2_schedule_contract_witness :
    ((TimerWheel.schedule 1 5 (TimerWheel.init 0)).evs 1).scheduled_at =
      (TimerWheel.init 0).nows 0 + 5 :=
  (C2_schedule_contract.1 (TimerWheel.init 0) 1 5 WheelInv_init (by decide) (by decide)).1

/-- C4 (amended): `schedule_in_range(event, start, end)` returns
unchanged when the event is active with its current relative fire tick
in `[start, end]`; otherwise it schedules with the mask-derived delta
`end & (mask >> 8)`; that delta lies in `[start, end]` whenever
`end < 2 ^ 56` (for `end ≥ 2 ^ 56` the shifted mask clears the top byte
and the delta can fall below `start`, see the counterexample); the two
literal examples of the specification hold. -/
theorem C4_schedule_in_range_contract :
    (∀ (tw : TW) (e : EventId) (start end_ : Nat),
      ((tw.evs e).slot ≠ none ∧
        start ≤ usub (tw.evs e).scheduled_at (tw.nows 0) ∧
        usub (tw.evs e).scheduled_at (tw.nows 0) ≤ end_) →
      TimerWheel.schedule_in_range e start end_ tw = tw) ∧
    (∀ (tw : TW) (e : EventId) (start end_ : Nat),
      ¬((tw.evs e).slot ≠ none ∧
        start ≤ usub (tw.evs e).scheduled_at (tw.nows 0) ∧
        usub (tw.evs e).scheduled_at (tw.nows 0) ≤ end_) →
      TimerWheel.schedule_in_range e start end_ tw =
        TimerWheel.schedule e (rangeDelta start end_) tw) ∧
    (∀ (start end_ : Nat), 1 ≤ start → start < end_ → end_ < 2 ^ 56 →
      start ≤ rangeDelta start end_ ∧ rangeDelta start end_ ≤ end_) ∧
    ((TimerWheel.schedule_in_range 1 281 290 (TimerWheel.init 0)).evs 1).scheduled_at = 290 ∧
    ((TimerWheel.schedule_in_range 1 1023 1279 (TimerWheel.init 0)).evs 1).scheduled_at =
      1024 := by
  refine ⟨?_, ?_, ?_, by decide, by decide⟩
  · intro tw e start end_ hc
    rw [TimerWheel.schedule_in_range, if_pos hc]
  · intro tw e start end_ hc
    rw [TimerWheel.schedule_in_range, if_neg hc]
  · intro start end_ h1 hlt hend
    exact rangeDelta_bounds start end_ h1 hlt hend

theorem C4_schedule_in_range_witness :
    1 ≤ (281 : Nat) ∧ 281 ≤ rangeDelta 281 290 ∧ rangeDelta 281 290 ≤ 290 :=
  ⟨by decide,
    (C4_schedule_in_range_contract.2.2.1 281 290 (by decide) (by decide) (by decide)).1,
    (C4_schedule_in_range_contract.2.2.1 281 290 (by decide) (by decide) (by decide)).2⟩

/-- C4 counterexample: for `start = 2 ^ 56`, `end = 2 ^ 56 + 1` (a valid
range with `1 ≤ start < end`) on a fresh engine, `schedule_in_range`
chooses delta 1 — the event is scheduled at absolute tick 1 — which does
not lie in `[start, end]`: the claim that the chosen delta always lies
in `[start, end]` is false. -/
theorem C4_schedule_in_range_counterexample :
    1 ≤ 2 ^ 56 ∧ (2 ^ 56 : Nat) < 2 ^ 56 + 1 ∧
    ((TimerWheel.schedule_in_range 1 (2 ^ 56) (2 ^ 56 + 1) (TimerWheel.init 0)).evs 1).slot.isSome
      = true ∧
    ((TimerWheel.schedule_in_range 1 (2 ^ 56) (2 ^ 56 + 1) (TimerWheel.init 0)).evs
      1).scheduled_at = (TimerWheel.init 0).nows 0 + 1 ∧
    ¬(2 ^ 56 ≤ 1) := by
  refine ⟨by decide, by decide, ?_, ?_, by decide⟩
  · decide
  · decide

/-- C6: `cancel` on an inactive event is a no-op; on an active event it
detaches the event from its slot's list and clears the back-reference,
so `active()` is false afterwards; `cancel` is idempotent; and the
scenario `schedule(e, 5); cancel(e); advance(10)` fires nothing and
leaves the event inactive, with a second `cancel` accepted as a no-op. -/
theorem C6_cancel_contract :
    (∀ (tw : TW) (e : EventId), (tw.evs e).slot = none →
      TimerEventInterface.cancel e tw = tw) ∧
    (∀ (tw : TW) (e : EventId),
      TimerEventInterface.cancel e (TimerEventInterface.cancel e tw) =
        TimerEventInterface.cancel e tw) ∧
    (∀ (tw : TW) (e : EventId), WF tw →
      TimerEventInterface.active e (TimerEventInterface.cancel e tw) = false ∧
      (∀ a b, (TimerEventInterface.cancel e tw).slots a b = (tw.slots a b).erase e)) ∧
    ((TimerWheel.advance cbInert 10
        (TimerEventInterface.cancel 1 (TimerWheel.schedule 1 5 (TimerWheel.init 0)))).fired
      = []) ∧
    (TimerEventInterface.active 1
      (TimerWheel.advance cbInert 10
        (TimerEventInterface.cancel 1 (TimerWheel.schedule 1 5 (TimerWheel.init 0)))) =
      false) := by
  refine ⟨?_, ?_, ?_, by decide, by decide⟩
  · intro tw e h
    rw [TimerEventInterface.cancel, if_pos h]
  · intro tw e
    by_cases h : (tw.evs e).slot = none
    · have hin : TimerEventInterface.cancel e tw = tw := by
        rw [TimerEventInterface.cancel, if_pos h]
      rw [hin, hin]
    · have hnone : ((TimerEventInterface.cancel e tw).evs e).slot = none := by
        rw [cancel_evs, if_pos rfl]
      conv_lhs => rw [TimerEventInterface.cancel]
      rw [if_pos hnone]
  · intro tw e hwf
    constructor
    · rw [TimerEventInterface.active, cancel_evs, if_pos rfl]
      rfl
    · exact cancel_slots hwf.hB e

theorem C6_cancel_contract_witness :
    TimerEventInterface.active 1
      (TimerEventInterface.cancel 1 (TimerWheel.schedule 1 5 (TimerWheel.init 0))) = false :=
  (C6_cancel_contract.2.2.1 (TimerWheel.schedule 1 5 (TimerWheel.init 0)) 1
    (by
      obtain ⟨_, _, _, _, _, _, _, _, _, _, _, _, hwf, _, _⟩ :=
        schedule_spec (TimerWheel.init 0) 1 5 (by decide) WheelInv_init.2.1 (by decide)
          (by decide) (WheelInv_WF WheelInv_init)
      exact hwf)).1

theorem execute_spec (cb : Cb) (hGood : GoodCb cb) (L : Nat) (e : EventId) (tw : TW)
    (hn : tw.nows 0 < W) (hal : Aligned tw) (hwf : WF tw) :
    (execute cb L e tw).nows = tw.nows ∧
    (execute cb L e tw).promos = tw.promos ∧
    (execute cb L e tw).fired = tw.fired ++ [⟨e, tw.nows 0, (tw.evs e).scheduled_at, L⟩] ∧
    WF (execute cb L e tw) ∧
    (∀ K, WinS tw K → WinS (execute cb L e tw) K) ∧
    (∀ K, WinD tw K → WinD (execute cb L e tw) K) ∧
    (∀ K x, x ∈ (execute cb L e tw).slots K (tw.nows K % 256) →
      x ∈ tw.slots K (tw.nows K % 256)) ∧
    (cb = cbInert → execute cb L e tw =
      { tw with fired := tw.fired ++ [⟨e, tw.nows 0, (tw.evs e).scheduled_at, L⟩] }) := by
  rw [execute]
  set tw1 : TW := { tw with fired := tw.fired ++ [⟨e, tw.nows 0, (tw.evs e).scheduled_at, L⟩] }
    with htw1
  have hn1 : tw1.nows 0 < W := hn
  have hal1 : Aligned tw1 := hal
  have hwf1 : WF tw1 := ⟨hwf.hB, hwf.hN, hwf.hM, hwf.hP⟩
  have hpres := applyActs_ActPres (cb e tw1) tw1 hn1 hal1 hwf1 (hGood e tw1)
  obtain ⟨hnws, hfrd, hprm, hwf', hWS, hWD, hshr⟩ := hpres
  refine ⟨hnws, hprm, by rw [hfrd], hwf', ?_, ?_, ?_, ?_⟩
  · intro K h
    exact hWS K h
  · intro K h
    exact hWD K h
  · intro K x hx
    exact hshr K x hx
  · intro hcb
    subst hcb
    rw [cbInert]
    rfl

/-- An event sitting in the current slot of wheel `ℓ` while the tick is
aligned and a multiple of the wheel's granularity is due within one
granule: `now ≤ scheduled_at < now + 2^(8ℓ)`. -/
theorem due_slot_sched {tw : TW} (ℓ : Nat) (hℓ8 : ℓ < 8) (e : EventId)
    (hal : Aligned tw) (hmod : tw.nows 0 % 2 ^ (8 * ℓ) = 0)
    (hwf : WF tw) (hWD : WinD tw ℓ)
    (hmem : e ∈ tw.slots ℓ (tw.nows ℓ % 256)) :
    tw.nows 0 ≤ (tw.evs e).scheduled_at ∧
    (tw.evs e).scheduled_at < tw.nows 0 + 2 ^ (8 * ℓ) ∧
    (tw.evs e).scheduled_at < W := by
  have hbr := hwf.hB _ _ e hmem
  obtain ⟨_, hsW, hidx⟩ := hwf.hP e _ _ hbr
  have hwin := hWD e _ hbr
  have hnl : tw.nows ℓ = tw.nows 0 / 2 ^ (8 * ℓ) :=
    hal ℓ (by simp only [NUM_LEVELS]; omega)
  rw [hnl] at hidx
  set P := 2 ^ (8 * ℓ) with hP
  have hPpos : 0 < P := Nat.pos_pow_of_pos _ (by omega)
  have hqc : (tw.evs e).scheduled_at / P = tw.nows 0 / P := by omega
  have h1 : P * ((tw.evs e).scheduled_at / P) + (tw.evs e).scheduled_at % P =
      (tw.evs e).scheduled_at := Nat.div_add_mod _ _
  have h2 : P * (tw.nows 0 / P) + tw.nows 0 % P = tw.nows 0 := Nat.div_add_mod _ _
  rw [hqc] at h1
  have hr : (tw.evs e).scheduled_at % P < P := Nat.mod_lt _ hPpos
  set A := P * (tw.nows 0 / P) with hA
  refine ⟨by omega, by omega, hsW⟩

theorem window_mod_ne {c q : Nat} (h1 : 1 ≤ q - c) (h2 : q - c ≤ 255) :
    ¬ q % 256 = c % 256 := by omega

/-- One iteration of the drain loop at the current slot of wheel `ℓ`:
the popped head `e` either fires exactly at its `scheduled_at` (which
then equals the core tick) or, on an outer wheel, is pushed down with
the exact positive residual; the state stays well formed, all windows
survive, and the slot only loses `e` (callbacks can only cancel further
events of it, never add one). -/
theorem drainStep_spec (cb : Cb) (hGood : GoodCb cb) (ℓ : Nat) (hℓ8 : ℓ < 8)
    (e : EventId) (rest : List EventId) (tw : TW)
    (hn : tw.nows 0 < W) (hal : Aligned tw) (hmod : tw.nows 0 % 2 ^ (8 * ℓ) = 0)
    (hwf : WF tw) (hWD : ∀ L, L < 8 → WinD tw L)
    (hWS : ∀ L, ℓ < L → L < 8 → WinS tw L)
    (hsl : tw.slots ℓ (tw.nows ℓ % 256) = e :: rest) :
    (drainStep cb ℓ (tw.nows ℓ % 256) e tw).nows = tw.nows ∧
    WF (drainStep cb ℓ (tw.nows ℓ % 256) e tw) ∧
    (∀ L, L < 8 → WinD (drainStep cb ℓ (tw.nows ℓ % 256) e tw) L) ∧
    (∀ L, ℓ < L → L < 8 → WinS (drainStep cb ℓ (tw.nows ℓ % 256) e tw) L) ∧
    (∀ x, x ∈ (drainStep cb ℓ (tw.nows ℓ % 256) e tw).slots ℓ (tw.nows ℓ % 256) →
      x ∈ rest) ∧
    (∃ recs, (drainStep cb ℓ (tw.nows ℓ % 256) e tw).fired = tw.fired ++ recs ∧
      ∀ r ∈ recs, r = ⟨e, tw.nows 0, tw.nows 0, ℓ⟩) ∧
    (∃ ps, (drainStep cb ℓ (tw.nows ℓ % 256) e tw).promos = tw.promos ++ ps ∧
      ∀ p ∈ ps, p.2.2 = tw.nows 0 ∧ tw.nows 0 < p.2.1 ∧ p.2.1 < W) ∧
    (cb = cbInert →
      (drainStep cb ℓ (tw.nows ℓ % 256) e tw).slots ℓ (tw.nows ℓ % 256) = rest ∧
      (∀ x, x ≠ e → (drainStep cb ℓ (tw.nows ℓ % 256) e tw).evs x = tw.evs x) ∧
      ((drainStep cb ℓ (tw.nows ℓ % 256) e tw).evs e).scheduled_at =
        (tw.evs e).scheduled_at ∧
      ((tw.evs e).scheduled_at = tw.nows 0 →
        ((drainStep cb ℓ (tw.nows ℓ % 256) e tw).evs e).slot = none ∧
        (drainStep cb ℓ (tw.nows ℓ % 256) e tw).fired =
          tw.fired ++ [⟨e, tw.nows 0, tw.nows 0, ℓ⟩]) ∧
      ((tw.evs e).scheduled_at ≠ tw.nows 0 →
        ((drainStep cb ℓ (tw.nows ℓ % 256) e tw).evs e).slot.isSome = true ∧
        (drainStep cb ℓ (tw.nows ℓ % 256) e tw).fired = tw.fired)) := by
  set j := tw.nows ℓ % 256 with hj
  have hmemE : e ∈ tw.slots ℓ j := by rw [hsl]; exact List.mem_cons_self _ _
  obtain ⟨hle, hltP, hsW⟩ :=
    due_slot_sched ℓ hℓ8 e hal hmod hwf (hWD ℓ hℓ8) hmemE
  obtain ⟨hpn, hpf, hpp, hpe, hpo, hps, hpwf, hpWS, hpWD⟩ :=
    pop_event_spec tw ℓ j e rest hsl hwf
  set twp := TimerWheelSlot.pop_event ℓ j tw with htwp
  have hpn0 : twp.nows 0 = tw.nows 0 := by rw [hpn]
  have hpnl : twp.nows ℓ % 256 = j := by rw [hpn]
  have hpslj : twp.slots ℓ j = rest := by rw [hps, if_pos ⟨rfl, rfl⟩]
  have halp : Aligned twp := by
    intro L hL
    rw [hpn]
    exact hal L hL
  have hnp : twp.nows 0 < W := by rw [hpn0]; exact hn
  have hstep : drainStep cb ℓ j e tw =
      if ℓ = 0 then execute cb 0 e twp
      else if twp.nows 0 ≥ (twp.evs e).scheduled_at then execute cb ℓ e twp
      else TimerWheel.schedule e (usub (twp.evs e).scheduled_at (twp.nows 0))
        { twp with promos :=
            twp.promos ++ [(e, (twp.evs e).scheduled_at, twp.nows 0)] } := rfl
  by_cases hsn : (tw.evs e).scheduled_at = tw.nows 0
  · -- the event is due exactly now: it fires
    have hbranch : drainStep cb ℓ j e tw = execute cb ℓ e twp := by
      rw [hstep]
      by_cases hL0 : ℓ = 0
      · subst hL0
        rw [if_pos rfl]
      · rw [if_neg hL0, if_pos (by rw [hpn0, hpe, hsn])]
    obtain ⟨hen, hep, hef, hewf, heWS, heWD, hesh, hei⟩ :=
      execute_spec cb hGood ℓ e twp hnp halp hpwf
    have hfeq : (execute cb ℓ e twp).fired =
        tw.fired ++ [⟨e, tw.nows 0, tw.nows 0, ℓ⟩] := by
      rw [hef, hpf, hpe, hpn0, hsn]
    refine ⟨?_, ?_, ?_, ?_, ?_, ?_, ?_, ?_⟩
    · rw [hbranch, hen, hpn]
    · rw [hbranch]; exact hewf
    · intro L hL
      rw [hbranch]
      exact heWD L (hpWD L (hWD L hL))
    · intro L hℓL hL
      rw [hbranch]
      exact heWS L (hpWS L (hWS L hℓL hL))
    · intro x hx
      rw [hbranch] at hx
      have := hesh ℓ x (by rw [hpnl]; exact hx)
      rw [hpnl, hpslj] at this
      exact this
    · exact ⟨[⟨e, tw.nows 0, tw.nows 0, ℓ⟩], by rw [hbranch]; exact hfeq,
        by intro r hr; simpa using hr⟩
    · refine ⟨[], ?_, by intro p hp; cases hp⟩
      rw [hbranch, hep, hpp, List.append_nil]
    · intro hcb
      have hei' := hei hcb
      rw [hbranch, hei']
      refine ⟨by rw [hpslj], ?_, ?_, ?_, ?_⟩
      · intro x hx
        exact hpo x hx
      · rw [hpe]
      · intro _
        refine ⟨by rw [hpe], ?_⟩
        show twp.fired ++ [⟨e, twp.nows 0, (twp.evs e).scheduled_at, ℓ⟩] =
          tw.fired ++ [⟨e, tw.nows 0, tw.nows 0, ℓ⟩]
        rw [hpf, hpe, hpn0, hsn]
      · intro hne
        exact absurd hsn hne
  · -- the event is due strictly later: it is pushed toward the core
    have hlt : tw.nows 0 < (tw.evs e).scheduled_at :=
      Nat.lt_of_le_of_ne hle (fun h => hsn h.symm)
    have hL0 : ℓ ≠ 0 := by
      intro h
      subst h
      simp only [Nat.mul_zero, pow_zero] at hltP
      omega
    have hg : ¬ twp.nows 0 ≥ (twp.evs e).scheduled_at := by
      rw [hpn0, hpe]
      exact Nat.not_le.mpr hlt
    set twpp : TW :=
      { twp with promos :=
          twp.promos ++ [(e, (twp.evs e).scheduled_at, twp.nows 0)] } with htwpp
    have hbranch : drainStep cb ℓ j e tw =
        TimerWheel.schedule e (usub (twp.evs e).scheduled_at (twp.nows 0)) twpp := by
      rw [hstep, if_neg hL0, if_neg hg]
    have harg : usub (twp.evs e).scheduled_at (twp.nows 0) =
        (tw.evs e).scheduled_at - tw.nows 0 := by
      rw [hpn0, hpe]
      exact usub_exact hle hsW
    rw [harg] at hbranch
    set d := (tw.evs e).scheduled_at - tw.nows 0 with hd
    have hppn : twpp.nows = tw.nows := hpn
    have hppn0 : twpp.nows 0 = tw.nows 0 := by rw [hppn]
    have hppe : twpp.evs e = ⟨(tw.evs e).scheduled_at, none⟩ := hpe
    have hppwf : WF twpp := ⟨hpwf.hB, hpwf.hN, hpwf.hM, hpwf.hP⟩
    have halpp : Aligned twpp := halp
    have hnpp : twpp.nows 0 < W := hnp
    have hd1 : 1 ≤ d := by omega
    have hov : twpp.nows 0 + d < W := by rw [hppn0]; omega
    obtain ⟨Lf, hLf8, _, _, hw1, hw2, hsnw, hsf, hsp, hsevse, hsevso, hsmem, hswf, hsexact, _⟩ :=
      schedule_spec twpp e d hnpp halpp hd1 hov hppwf
    have hsched : twpp.nows 0 + d = (tw.evs e).scheduled_at := by
      rw [hppn0]; omega
    have hnotj : ¬(ℓ = Lf ∧ j = (twpp.nows 0 + d) / 2 ^ (8 * Lf) % 256) := by
      rintro ⟨h1, h2⟩
      subst h1
      have hcj : j = tw.nows 0 / 2 ^ (8 * ℓ) % 256 := by
        rw [hj, hal ℓ (by simp only [NUM_LEVELS]; omega)]
      rw [hppn0] at hw1 hw2 h2
      have := window_mod_ne hw1 hw2
      rw [← h2, hcj] at this
      exact this rfl
    obtain ⟨hWSs, hWDs⟩ := schedule_windows twpp e d hnpp halpp hd1 hov hppwf
    refine ⟨?_, ?_, ?_, ?_, ?_, ?_, ?_, ?_⟩
    · rw [hbranch, hsnw, hppn]
    · rw [hbranch]; exact hswf
    · intro L hL
      rw [hbranch]
      exact hWDs L (hpWD L (hWD L hL))
    · intro L hℓL hL
      rw [hbranch]
      exact hWSs L (hpWS L (hWS L hℓL hL))
    · intro x hx
      rw [hbranch] at hx
      rw [hsmem] at hx
      rcases hx with ⟨hxe, hLf, hjx⟩ | ⟨hxe, hx⟩
      · exact absurd ⟨hLf, hjx⟩ hnotj
      · rw [show twpp.slots ℓ j = twp.slots ℓ j from rfl, hpslj] at hx
        exact hx
    · refine ⟨[], ?_, by intro r hr; cases hr⟩
      rw [hbranch, hsf, List.append_nil,
        show twpp.fired = twp.fired from rfl, hpf]
    · refine ⟨[(e, (tw.evs e).scheduled_at, tw.nows 0)], ?_, ?_⟩
      · rw [hbranch, hsp,
          show twpp.promos = twp.promos ++ [(e, (twp.evs e).scheduled_at, twp.nows 0)]
            from rfl, hpp, hpe, hpn0]
      · intro p hp
        rcases List.mem_singleton.mp hp with rfl
        exact ⟨rfl, hlt, hsW⟩
    · intro _
      refine ⟨?_, ?_, ?_, ?_, ?_⟩
      · rw [hbranch, hsexact (by rw [hppe]) ℓ j hnotj,
          show twpp.slots ℓ j = twp.slots ℓ j from rfl, hpslj]
      · intro x hx
        rw [hbranch, hsevso x hx,
          show twpp.evs x = twp.evs x from rfl, hpo x hx]
      · rw [hbranch, hsevse]
        show twpp.nows 0 + d = (tw.evs e).scheduled_at
        exact hsched
      · intro hcon
        exact absurd hcon hsn
      · intro _
        constructor
        · rw [hbranch, hsevse]
          rfl
        · rw [hbranch, hsf, show twpp.fired = twp.fired from rfl, hpf]

theorem drainSlot_zero (cb : Cb) (L i : Nat) (tw : TW) : drainSlot cb L i 0 tw = tw := rfl

theorem drainSlot_nil (cb : Cb) (L i f : Nat) (tw : TW) (h : tw.slots L i = []) :
    drainSlot cb L i (f + 1) tw = tw := by
  unfold drainSlot
  rw [h]

theorem drainSlot_cons (cb : Cb) (L i f : Nat) (tw : TW) (e : EventId) (rest : List EventId)
    (h : tw.slots L i = e :: rest) :
    drainSlot cb L i (f + 1) tw = drainSlot cb L i f (drainStep cb L i e tw) := by
  conv_lhs => rw [drainSlot]
  rw [h]

/-- If the current slot of wheel `ℓ` is empty, the due window at `ℓ`
is in fact strict: an event due exactly now would have to sit in that
slot. -/
theorem WinS_of_empty_due (tw : TW) (ℓ : Nat) (hℓ8 : ℓ < 8)
    (hal : Aligned tw) (hwf : WF tw) (hWD : WinD tw ℓ)
    (hempty : tw.slots ℓ (tw.nows ℓ % 256) = []) : WinS tw ℓ := by
  intro x i hx
  have hwin := hWD x i hx
  refine ⟨?_, hwin.2⟩
  rcases Nat.lt_or_ge (tw.nows 0 / 2 ^ (8 * ℓ)) ((tw.evs x).scheduled_at / 2 ^ (8 * ℓ))
    with h | h
  · exact h
  · exfalso
    have hq : (tw.evs x).scheduled_at / 2 ^ (8 * ℓ) = tw.nows 0 / 2 ^ (8 * ℓ) :=
      Nat.le_antisymm h hwin.1
    have hi := (hwf.hP x ℓ i hx).2.2
    have hmem := hwf.hM x ℓ i hx
    have hij : i = tw.nows ℓ % 256 := by
      rw [hi, hq, hal ℓ (by simp only [NUM_LEVELS]; omega)]
    rw [hij, hempty] at hmem
    cases hmem

/-- Full characterization of the drain loop of the current slot of
wheel `ℓ` (any fuel at least the slot length): the state stays well
formed with all windows due and the levels from `ℓ` up strict, the slot
ends empty, every fire logged happened exactly at the core tick with
`scheduled_at` equal to it, and every push-down recorded a strictly
positive residual; with an inert callback the fired log and the final
event states are computed exactly. -/
theorem drainSlot_spec (cb : Cb) (hGood : GoodCb cb) (ℓ : Nat) (hℓ8 : ℓ < 8) :
    ∀ (fuel : Nat) (tw : TW),
      tw.nows 0 < W → Aligned tw → tw.nows 0 % 2 ^ (8 * ℓ) = 0 → WF tw →
      (∀ L, L < 8 → WinD tw L) → (∀ L, ℓ < L → L < 8 → WinS tw L) →
      (tw.slots ℓ (tw.nows ℓ % 256)).length ≤ fuel →
      (drainSlot cb ℓ (tw.nows ℓ % 256) fuel tw).nows = tw.nows ∧
      WF (drainSlot cb ℓ (tw.nows ℓ % 256) fuel tw) ∧
      (∀ L, L < 8 → WinD (drainSlot cb ℓ (tw.nows ℓ % 256) fuel tw) L) ∧
      (∀ L, ℓ ≤ L → L < 8 → WinS (drainSlot cb ℓ (tw.nows ℓ % 256) fuel tw) L) ∧
      (drainSlot cb ℓ (tw.nows ℓ % 256) fuel tw).slots ℓ (tw.nows ℓ % 256) = [] ∧
      (∃ recs, (drainSlot cb ℓ (tw.nows ℓ % 256) fuel tw).fired = tw.fired ++ recs ∧
        ∀ r ∈ recs, r.ev ∈ tw.slots ℓ (tw.nows ℓ % 256) ∧
          r.tick = tw.nows 0 ∧ r.sched = tw.nows 0 ∧ r.lvl = ℓ) ∧
      (∃ ps, (drainSlot cb ℓ (tw.nows ℓ % 256) fuel tw).promos = tw.promos ++ ps ∧
        ∀ p ∈ ps, p.2.2 = tw.nows 0 ∧ tw.nows 0 < p.2.1 ∧ p.2.1 < W) ∧
      (cb = cbInert →
        (drainSlot cb ℓ (tw.nows ℓ % 256) fuel tw).fired = tw.fired ++
          ((tw.slots ℓ (tw.nows ℓ % 256)).filter
            (fun x => decide ((tw.evs x).scheduled_at = tw.nows 0))).map
            (fun x => (⟨x, tw.nows 0, tw.nows 0, ℓ⟩ : FireRec)) ∧
        (∀ x, x ∉ tw.slots ℓ (tw.nows ℓ % 256) →
          (drainSlot cb ℓ (tw.nows ℓ % 256) fuel tw).evs x = tw.evs x) ∧
        (∀ x, x ∈ tw.slots ℓ (tw.nows ℓ % 256) →
          ((drainSlot cb ℓ (tw.nows ℓ % 256) fuel tw).evs x).scheduled_at =
            (tw.evs x).scheduled_at ∧
          ((tw.evs x).scheduled_at = tw.nows 0 →
            ((drainSlot cb ℓ (tw.nows ℓ % 256) fuel tw).evs x).slot = none) ∧
          ((tw.evs x).scheduled_at ≠ tw.nows 0 →
            ((drainSlot cb ℓ (tw.nows ℓ % 256) fuel tw).evs x).slot.isSome = true))) := by
  intro fuel
  induction fuel with
  | zero =>
    intro tw hn hal hmod hwf hWD hWS hlen
    have hempty : tw.slots ℓ (tw.nows ℓ % 256) = [] :=
      List.length_eq_zero.mp (Nat.le_zero.mp hlen)
    rw [drainSlot_zero]
    refine ⟨rfl, hwf, hWD, ?_, hempty, ⟨[], by simp, by intro r hr; cases hr⟩,
      ⟨[], by simp, by intro p hp; cases hp⟩, ?_⟩
    · intro L hℓL hL
      rcases Nat.lt_or_ge ℓ L with h | h
      · exact hWS L h hL
      · have : L = ℓ := by omega
        subst this
        exact WinS_of_empty_due tw L hL hal hwf (hWD L hL) hempty
    · intro _
      refine ⟨by rw [hempty]; simp, ?_, ?_⟩
      · intro x _; rfl
      · intro x hx
        rw [hempty] at hx
        cases hx
  | succ f ih =>
    intro tw hn hal hmod hwf hWD hWS hlen
    rcases hsl : tw.slots ℓ (tw.nows ℓ % 256) with _ | ⟨e, rest⟩
    · -- empty slot: the loop exits immediately
      rw [drainSlot_nil cb ℓ (tw.nows ℓ % 256) f tw hsl]
      refine ⟨rfl, hwf, hWD, ?_, hsl, ⟨[], by simp, by intro r hr; cases hr⟩,
        ⟨[], by simp, by intro p hp; cases hp⟩, ?_⟩
      · intro L hℓL hL
        rcases Nat.lt_or_ge ℓ L with h | h
        · exact hWS L h hL
        · have : L = ℓ := by omega
          subst this
          exact WinS_of_empty_due tw L hL hal hwf (hWD L hL) hsl
      · intro _
        refine ⟨by simp, ?_, ?_⟩
        · intro x _; rfl
        · intro x hx
          cases hx
    · -- pop the head event and continue
      rw [drainSlot_cons cb ℓ (tw.nows ℓ % 256) f tw e rest hsl]
      obtain ⟨h2n, h2wf, h2WD, h2WS, h2sub, ⟨recs1, h2f, h2r⟩, ⟨ps1, h2p, h2pp⟩, h2in⟩ :=
        drainStep_spec cb hGood ℓ hℓ8 e rest tw hn hal hmod hwf hWD hWS hsl
      set tw2 := drainStep cb ℓ (tw.nows ℓ % 256) e tw with htw2
      have h2n0 : tw2.nows 0 = tw.nows 0 := by rw [h2n]
      have hidx : tw2.nows ℓ % 256 = tw.nows ℓ % 256 := by rw [h2n]
      have heNotRest : e ∉ rest := by
        have := hwf.hN ℓ (tw.nows ℓ % 256)
        rw [hsl] at this
        exact (List.nodup_cons.mp this).1
      have hlen2 : (tw2.slots ℓ (tw2.nows ℓ % 256)).length ≤ f := by
        have hnod : (tw2.slots ℓ (tw2.nows ℓ % 256)).Nodup := h2wf.hN _ _
        have hsub2 : tw2.slots ℓ (tw2.nows ℓ % 256) ⊆ rest := by
          rw [hidx]
          intro x hx
          exact h2sub x hx
        have h1 := nodup_subset_length hnod hsub2
        rw [hsl] at hlen
        simp only [List.length_cons] at hlen
        omega
      obtain ⟨An, Bn, Cn, Dn, En, ⟨recs2, Fn, Fr⟩, ⟨ps2, Gn, Gp⟩, Hn⟩ :=
        ih tw2 (by rw [h2n0]; exact hn)
          (by intro L hL; rw [h2n]; exact hal L hL)
          (by rw [h2n0]; exact hmod) h2wf h2WD h2WS hlen2
      rw [hidx] at An Bn Cn Dn En Fn Fr Gn Hn
      refine ⟨?_, Bn, Cn, Dn, En, ?_, ?_, ?_⟩
      · rw [An, h2n]
      · refine ⟨recs1 ++ recs2, ?_, ?_⟩
        · rw [Fn, h2f, List.append_assoc]
        · intro r hr
          rcases List.mem_append.mp hr with hr | hr
          · have := h2r r hr
            subst this
            exact ⟨List.mem_cons_self _ _, rfl, rfl, rfl⟩
          · obtain ⟨hrev, hrt, hrs, hrl⟩ := Fr r hr
            refine ⟨?_, by rw [← h2n0]; exact hrt, by rw [← h2n0]; exact hrs, hrl⟩
            exact List.mem_cons_of_mem _ (h2sub _ hrev)
      · refine ⟨ps1 ++ ps2, ?_, ?_⟩
        · rw [Gn, h2p, List.append_assoc]
        · intro p hp
          rcases List.mem_append.mp hp with hp | hp
          · exact h2pp p hp
          · obtain ⟨hp1, hp2, hp3⟩ := Gp p hp
            exact ⟨by rw [← h2n0]; exact hp1, by rw [← h2n0]; exact hp2, hp3⟩
      · intro hcb
        obtain ⟨h2slj, h2evo, h2evs, h2fireY, h2fireN⟩ := h2in hcb
        obtain ⟨Hf, Hout, Hin⟩ := Hn hcb
        rw [h2slj] at Hf Hout Hin
        have hfilt : rest.filter (fun x => decide ((tw2.evs x).scheduled_at = tw2.nows 0)) =
            rest.filter (fun x => decide ((tw.evs x).scheduled_at = tw.nows 0)) := by
          apply List.filter_congr
          intro x hx
          have hxe : x ≠ e := fun hc => heNotRest (hc ▸ hx)
          rw [h2evo x hxe, h2n0]
        have hmapf : (fun x => (⟨x, tw2.nows 0, tw2.nows 0, ℓ⟩ : FireRec)) =
            (fun x => (⟨x, tw.nows 0, tw.nows 0, ℓ⟩ : FireRec)) := by
          funext x
          rw [h2n0]
        rw [hfilt, hmapf] at Hf
        refine ⟨?_, ?_, ?_⟩
        · rw [Hf]
          by_cases hse : (tw.evs e).scheduled_at = tw.nows 0
          · rw [List.filter_cons_of_pos (by rw [decide_eq_true_eq]; exact hse)]
            rw [(h2fireY hse).2, List.map_cons, List.append_assoc, List.singleton_append]
          · rw [List.filter_cons_of_neg (by rw [decide_eq_true_eq]; exact hse)]
            rw [(h2fireN hse).2]
        · intro x hx
          have hxe : x ≠ e := fun hc => hx (hc ▸ List.mem_cons_self _ _)
          have hxr : x ∉ rest := fun hc => hx (List.mem_cons_of_mem _ hc)
          rw [Hout x hxr, h2evo x hxe]
        · intro x hx
          rcases List.mem_cons.mp hx with rfl | hxr
          · -- the popped head itself
            have hDe : (drainSlot cb ℓ (tw.nows ℓ % 256) f tw2).evs x = tw2.evs x :=
              Hout x heNotRest
            refine ⟨by rw [hDe, h2evs], ?_, ?_⟩
            · intro hse
              rw [hDe]
              exact (h2fireY hse).1
            · intro hse
              rw [hDe]
              exact (h2fireN hse).1
          · -- an event behind the head: handled by the recursive drain
            have hxe : x ≠ e := fun hc => heNotRest (hc ▸ hxr)
            obtain ⟨Hs, HY, HN⟩ := Hin x hxr
            rw [h2evo x hxe] at Hs HY HN
            rw [h2n0] at HY HN
            exact ⟨Hs, HY, HN⟩

/-! ### Arithmetic about wheel granules used by `advance` -/

theorem pred_div_eq {n m : Nat} (hm : 0 < m) (hnz : n % m ≠ 0) : (n - 1) / m = n / m := by
  obtain ⟨A, hA⟩ : ∃ A, A = m * (n / m) := ⟨_, rfl⟩
  obtain ⟨r, hrd⟩ : ∃ r, r = n % m := ⟨_, rfl⟩
  have h0 : m * (n / m) + n % m = n := Nat.div_add_mod n m
  rw [← hA, ← hrd] at h0
  have hr : r < m := by rw [hrd]; exact Nat.mod_lt _ hm
  have hnz' : r ≠ 0 := by rw [hrd]; exact hnz
  have h1 : n - 1 = A + (r - 1) := by omega
  rw [hA, hrd] at h1
  rw [h1, Nat.mul_add_div hm,
    Nat.div_eq_of_lt (Nat.lt_of_le_of_lt (Nat.sub_le _ _) (Nat.mod_lt _ hm)), Nat.add_zero]

theorem pred_div_succ {n m : Nat} (hm : 0 < m) (h1 : 1 ≤ n) (hz : n % m = 0) :
    (n - 1) / m + 1 = n / m := by
  have h0 : m * (n / m) + n % m = n := Nat.div_add_mod n m
  rw [hz, Nat.add_zero] at h0
  obtain ⟨Y, hY⟩ : ∃ Y, Y = m * (n / m) := ⟨_, rfl⟩
  rw [← hY] at h0
  have hq1 : 1 ≤ n / m := by
    rcases Nat.eq_zero_or_pos (n / m) with h | h
    · rw [h, Nat.mul_zero] at hY
      omega
    · exact h
  obtain ⟨X, hX⟩ : ∃ X, X = m * (n / m - 1) := ⟨_, rfl⟩
  have h3 : X + m = Y := by
    rw [hX, hY, ← Nat.mul_succ]
    congr 1
    omega
  have h2 : X + (m - 1) = n - 1 := by omega
  rw [hX] at h2
  rw [← h2, Nat.mul_add_div hm,
    Nat.div_eq_of_lt (Nat.sub_lt hm Nat.one_pos), Nat.add_zero]
  exact Nat.succ_pred_eq_of_pos hq1

theorem mod_step_zero {n ℓ : Nat} (hz : n % 2 ^ (8 * ℓ) = 0)
    (hz2 : n / 2 ^ (8 * ℓ) % 256 = 0) : n % 2 ^ (8 * (ℓ + 1)) = 0 := by
  have hd1 : 2 ^ (8 * ℓ) ∣ n := Nat.dvd_of_mod_eq_zero hz
  have hd2 : (256 : Nat) ∣ n / 2 ^ (8 * ℓ) := Nat.dvd_of_mod_eq_zero hz2
  obtain ⟨k, hk⟩ := hd2
  have hn : n = 2 ^ (8 * ℓ) * (n / 2 ^ (8 * ℓ)) := (Nat.mul_div_cancel' hd1).symm
  apply Nat.mod_eq_zero_of_dvd
  refine ⟨k, ?_⟩
  rw [hn, hk, show 8 * (ℓ + 1) = 8 * ℓ + 8 by omega, pow_add]
  ring

theorem div_mod256_zero_of_mod {n ℓ k : Nat} (hk : ℓ < k) (h : n % 2 ^ (8 * k) = 0) :
    n / 2 ^ (8 * ℓ) % 256 = 0 := by
  have hd : 2 ^ (8 * (ℓ + 1)) ∣ n := by
    refine Nat.dvd_trans (Nat.pow_dvd_pow 2 (by omega)) (Nat.dvd_of_mod_eq_zero h)
  have hdl : 2 ^ (8 * ℓ) ∣ n :=
    Nat.dvd_trans (Nat.pow_dvd_pow 2 (by omega)) hd
  apply Nat.mod_eq_zero_of_dvd
  obtain ⟨m, hm⟩ := hd
  refine ⟨m, ?_⟩
  have h2 : (2 : Nat) ^ (8 * (ℓ + 1)) = 2 ^ (8 * ℓ) * 256 := by
    rw [show 8 * (ℓ + 1) = 8 * ℓ + 8 by omega, pow_add]
    norm_num
  rw [hm, h2, Nat.mul_assoc, Nat.mul_div_cancel_left _ (Nat.pos_pow_of_pos _ (by omega))]

theorem lt_of_div_lt_div {m s P : Nat} (h : m / P < s / P) : m < s := by
  by_contra hc
  exact absurd (Nat.div_le_div_right (Nat.le_of_not_lt hc)) (Nat.not_le.mpr h)

theorem succ_mod_eq_zero_of_div_lt {m P : Nat} (hP : 0 < P)
    (h : m / P < (m + 1) / P) : (m + 1) % P = 0 := by
  obtain ⟨A, hA⟩ : ∃ A, A = P * (m / P) := ⟨_, rfl⟩
  obtain ⟨B, hB⟩ : ∃ B, B = P * ((m + 1) / P) := ⟨_, rfl⟩
  have h0 : P * (m / P) + m % P = m := Nat.div_add_mod m P
  have h1 : P * ((m + 1) / P) + (m + 1) % P = m + 1 := Nat.div_add_mod (m + 1) P
  have hAB : A + P ≤ B := by
    rw [hA, hB, ← Nat.mul_succ]
    exact Nat.mul_le_mul_left P h
  obtain ⟨r, hrd⟩ : ∃ r, r = m % P := ⟨_, rfl⟩
  obtain ⟨r', hrd'⟩ : ∃ r', r' = (m + 1) % P := ⟨_, rfl⟩
  rw [← hA, ← hrd] at h0
  rw [← hB, ← hrd'] at h1
  have hr : r < P := by rw [hrd]; exact Nat.mod_lt _ hP
  have hr' : r' < P := by rw [hrd']; exact Nat.mod_lt _ hP
  rw [← hrd']
  omega

/-- Strict window at level `L` measured against an arbitrary reference
tick `m` (used mid-tick, where outer wheels still hold the previous
core tick). -/
def WinSAt (m : Nat) (tw : TW) (L : Nat) : Prop :=
  ∀ e i, (tw.evs e).slot = some (L, i) →
    m / 2 ^ (8 * L) < (tw.evs e).scheduled_at / 2 ^ (8 * L) ∧
    (tw.evs e).scheduled_at / 2 ^ (8 * L) ≤ m / 2 ^ (8 * L) + 255

/-- How one cascade step (the advance-by-one of the wheels from level
`ℓ` up) transforms the per-event states, for an inert callback: inactive
events and events on wheels below `ℓ` are untouched; events on wheels
from `ℓ` up keep their `scheduled_at`, fire (and detach) exactly if due
at the core tick, and otherwise stay active. -/
def EvsCascade (tw tw2 : TW) (ℓ : Nat) : Prop :=
  (∀ x, (tw.evs x).slot = none → tw2.evs x = tw.evs x) ∧
  (∀ x k i, (tw.evs x).slot = some (k, i) → k < ℓ → tw2.evs x = tw.evs x) ∧
  (∀ x k i, (tw.evs x).slot = some (k, i) → ℓ ≤ k →
    (tw2.evs x).scheduled_at = (tw.evs x).scheduled_at ∧
    ((tw.evs x).scheduled_at = tw.nows 0 → (tw2.evs x).slot = none) ∧
    ((tw.evs x).scheduled_at ≠ tw.nows 0 → (tw2.evs x).slot.isSome = true)) ∧
  (∀ x k i, (tw.evs x).slot = some (k, i) → ℓ ≤ k →
    ¬(tw.nows 0 % 2 ^ (8 * k) = 0 ∧ i = tw.nows 0 / 2 ^ (8 * k) % 256) →
    tw2.evs x = tw.evs x)

/-- The fires logged by one cascade step from level `ℓ` up, for an
inert callback: each is at the core tick with `scheduled_at` equal to
it, no event fires twice, and exactly the events due now on wheels from
`ℓ` up fire. -/
def FiredCascade (tw tw2 : TW) (ℓ : Nat) : Prop :=
  ∃ recs, tw2.fired = tw.fired ++ recs ∧
    (∀ r ∈ recs, r.tick = tw.nows 0 ∧ r.sched = tw.nows 0) ∧
    (recs.map FireRec.ev).Nodup ∧
    (∀ x, x ∈ recs.map FireRec.ev ↔
      (∃ k i, (tw.evs x).slot = some (k, i) ∧ ℓ ≤ k) ∧
      (tw.evs x).scheduled_at = tw.nows 0)

theorem EvsCascade_of_setNow {tw tw2 : TW} {L v m : Nat} (hL : L ≠ 0)
    (h : EvsCascade (setNow L v tw) tw2 m) : EvsCascade tw tw2 m := by
  have hn0 : (setNow L v tw).nows 0 = tw.nows 0 := by
    rw [setNow_nows, if_neg (fun hc => hL hc.symm)]
  refine ⟨h.1, h.2.1, ?_, ?_⟩
  · intro x k i hx hk
    obtain ⟨a, b, c⟩ := h.2.2.1 x k i hx hk
    refine ⟨a, ?_, ?_⟩
    · intro hs
      exact b (by rw [hn0]; exact hs)
    · intro hs
      exact c (by rw [hn0]; exact hs)
  · intro x k i hx hk hsite
    exact h.2.2.2 x k i hx hk (by rw [hn0]; exact hsite)

theorem FiredCascade_of_setNow {tw tw2 : TW} {L v m : Nat} (hL : L ≠ 0)
    (h : FiredCascade (setNow L v tw) tw2 m) : FiredCascade tw tw2 m := by
  have hn0 : (setNow L v tw).nows 0 = tw.nows 0 := by
    rw [setNow_nows, if_neg (fun hc => hL hc.symm)]
  obtain ⟨recs, hf, hp, hd, hiff⟩ := h
  refine ⟨recs, hf, ?_, hd, ?_⟩
  · intro r hr
    obtain ⟨h1, h2⟩ := hp r hr
    exact ⟨by rw [← hn0]; exact h1, by rw [← hn0]; exact h2⟩
  · intro x
    rw [hiff x, hn0]
    exact Iff.rfl

/-- Composing the recursive outer advance (already summarized as the
state `tw2`) with the drain of wheel `ℓ`'s current slot yields the full
effect of `advance(1)` at level `ℓ` seen from the pre-state `tw`. -/
theorem drain_compose (cb : Cb) (hGood : GoodCb cb) (ℓ : Nat) (h8 : ℓ < 8)
    (tw tw2 : TW)
    (hnW : tw.nows 0 < W)
    (hmod : tw.nows 0 % 2 ^ (8 * ℓ) = 0)
    (halow : ∀ k, k < ℓ → tw.nows k = tw.nows 0 / 2 ^ (8 * k))
    (hB0 : tw2.nows 0 = tw.nows 0)
    (hBlow : ∀ k, k < ℓ → tw2.nows k = tw.nows k)
    (hBl : tw2.nows ℓ = tw.nows 0 / 2 ^ (8 * ℓ))
    (hBhigh : ∀ k, ℓ < k → k < 8 → tw2.nows k = tw.nows 0 / 2 ^ (8 * k))
    (hBwf : WF tw2)
    (hBWD : ∀ k, k < 8 → WinD tw2 k)
    (hBWS : ∀ k, ℓ < k → k < 8 → WinS tw2 k)
    (hBf : ∃ recs, tw2.fired = tw.fired ++ recs ∧
      ∀ r ∈ recs, r.tick = tw.nows 0 ∧ r.sched = tw.nows 0)
    (hBp : ∃ ps, tw2.promos = tw.promos ++ ps ∧
      ∀ p ∈ ps, p.2.2 = tw.nows 0 ∧ tw.nows 0 < p.2.1 ∧ p.2.1 < W)
    (hBin : cb = cbInert → EvsCascade tw tw2 (ℓ + 1) ∧ FiredCascade tw tw2 (ℓ + 1)) :
    (drainSlot cb ℓ (tw2.nows ℓ % 256)
        ((tw2.slots ℓ (tw2.nows ℓ % 256)).length) tw2).nows 0 = tw.nows 0 ∧
    (∀ k, k < ℓ → (drainSlot cb ℓ (tw2.nows ℓ % 256)
        ((tw2.slots ℓ (tw2.nows ℓ % 256)).length) tw2).nows k = tw.nows k) ∧
    (∀ k, ℓ ≤ k → k < 8 → (drainSlot cb ℓ (tw2.nows ℓ % 256)
        ((tw2.slots ℓ (tw2.nows ℓ % 256)).length) tw2).nows k =
        tw.nows 0 / 2 ^ (8 * k)) ∧
    WF (drainSlot cb ℓ (tw2.nows ℓ % 256)
        ((tw2.slots ℓ (tw2.nows ℓ % 256)).length) tw2) ∧
    (∀ k, k < 8 → WinD (drainSlot cb ℓ (tw2.nows ℓ % 256)
        ((tw2.slots ℓ (tw2.nows ℓ % 256)).length) tw2) k) ∧
    (∀ k, ℓ ≤ k → k < 8 → WinS (drainSlot cb ℓ (tw2.nows ℓ % 256)
        ((tw2.slots ℓ (tw2.nows ℓ % 256)).length) tw2) k) ∧
    (∃ recs, (drainSlot cb ℓ (tw2.nows ℓ % 256)
        ((tw2.slots ℓ (tw2.nows ℓ % 256)).length) tw2).fired = tw.fired ++ recs ∧
      ∀ r ∈ recs, r.tick = tw.nows 0 ∧ r.sched = tw.nows 0) ∧
    (∃ ps, (drainSlot cb ℓ (tw2.nows ℓ % 256)
        ((tw2.slots ℓ (tw2.nows ℓ % 256)).length) tw2).promos = tw.promos ++ ps ∧
      ∀ p ∈ ps, p.2.2 = tw.nows 0 ∧ tw.nows 0 < p.2.1 ∧ p.2.1 < W) ∧
    (cb = cbInert →
      EvsCascade tw (drainSlot cb ℓ (tw2.nows ℓ % 256)
        ((tw2.slots ℓ (tw2.nows ℓ % 256)).length) tw2) ℓ ∧
      FiredCascade tw (drainSlot cb ℓ (tw2.nows ℓ % 256)
        ((tw2.slots ℓ (tw2.nows ℓ % 256)).length) tw2) ℓ) := by
  have hal2 : Aligned tw2 := by
    intro k hk
    have hk8 : k < 8 := by simp only [NUM_LEVELS] at hk; omega
    rw [hB0]
    rcases Nat.lt_trichotomy k ℓ with h | h | h
    · rw [hBlow k h, halow k h]
    · subst h
      exact hBl
    · exact hBhigh k h hk8
  obtain ⟨Dn, Dwf, DWD, DWS, Dempty, ⟨recsD, Df, Dr⟩, ⟨psD, Dp, Dpp⟩, Din⟩ :=
    drainSlot_spec cb hGood ℓ h8 ((tw2.slots ℓ (tw2.nows ℓ % 256)).length) tw2
      (by rw [hB0]; exact hnW) hal2 (by rw [hB0]; exact hmod) hBwf hBWD hBWS
      (Nat.le_refl _)
  have hDn0 : (drainSlot cb ℓ (tw2.nows ℓ % 256)
      ((tw2.slots ℓ (tw2.nows ℓ % 256)).length) tw2).nows = tw2.nows := Dn
  refine ⟨?_, ?_, ?_, Dwf, DWD, ?_, ?_, ?_, ?_⟩
  · rw [hDn0, hB0]
  · intro k hk
    rw [hDn0, hBlow k hk]
  · intro k hk1 hk8
    rw [hDn0]
    rcases Nat.eq_or_lt_of_le hk1 with h | h
    · rw [← h]; exact hBl
    · exact hBhigh k h hk8
  · intro k hk1 hk8
    exact DWS k hk1 hk8
  · obtain ⟨recs1, hf1, hr1⟩ := hBf
    refine ⟨recs1 ++ recsD, ?_, ?_⟩
    · rw [Df, hf1, List.append_assoc]
    · intro r hr
      rcases List.mem_append.mp hr with hr | hr
      · exact hr1 r hr
      · obtain ⟨_, h1, h2, _⟩ := Dr r hr
        exact ⟨by rw [← hB0]; exact h1, by rw [← hB0]; exact h2⟩
  · obtain ⟨ps1, hp1, hpp1⟩ := hBp
    refine ⟨ps1 ++ psD, ?_, ?_⟩
    · rw [Dp, hp1, List.append_assoc]
    · intro p hp
      rcases List.mem_append.mp hp with hp | hp
      · exact hpp1 p hp
      · obtain ⟨h1, h2, h3⟩ := Dpp p hp
        exact ⟨by rw [← hB0]; exact h1, by rw [← hB0]; exact h2, h3⟩
  · intro hcb
    obtain ⟨⟨ec1, ec2, ec3, ec4⟩, ⟨recs1, f1, r1props, r1nodup, r1iff⟩⟩ := hBin hcb
    obtain ⟨DIf, DIout, DIin⟩ := Din hcb
    have hnotin : ∀ x, (tw2.evs x).slot ≠ some (ℓ, tw2.nows ℓ % 256) →
        x ∉ tw2.slots ℓ (tw2.nows ℓ % 256) :=
      fun x h hm => h (hBwf.hB _ _ x hm)
    have hjD : tw2.nows ℓ % 256 = tw.nows 0 / 2 ^ (8 * ℓ) % 256 := by rw [hBl]
    constructor
    · -- EvsCascade
      refine ⟨?_, ?_, ?_, ?_⟩
      · intro x hx
        have heq := ec1 x hx
        have hni : x ∉ tw2.slots ℓ (tw2.nows ℓ % 256) := by
          apply hnotin
          rw [heq, hx]
          intro hc
          cases hc
        rw [DIout x hni, heq]
      · intro x k i hx hk
        have heq := ec2 x k i hx (by omega)
        have hni : x ∉ tw2.slots ℓ (tw2.nows ℓ % 256) := by
          apply hnotin
          rw [heq, hx]
          intro hc
          injection hc with hc'
          exact absurd (congrArg Prod.fst hc') (by omega)
        rw [DIout x hni, heq]
      · intro x k i hx hk
        rcases Nat.eq_or_lt_of_le hk with hkeq | hklt
        · -- the event sits on wheel ℓ itself
          rw [← hkeq] at hx
          have heq := ec2 x ℓ i hx (by omega)
          by_cases hij : i = tw2.nows ℓ % 256
          · have hmem : x ∈ tw2.slots ℓ (tw2.nows ℓ % 256) := by
              rw [← hij]
              exact hBwf.hM x ℓ i (by rw [heq]; exact hx)
            obtain ⟨Hs, HY, HN⟩ := DIin x hmem
            rw [heq] at Hs HY HN
            refine ⟨Hs, ?_, ?_⟩
            · intro hsd
              exact HY (by rw [hB0]; exact hsd)
            · intro hsd
              exact HN (by rw [hB0]; exact hsd)
          · have hni : x ∉ tw2.slots ℓ (tw2.nows ℓ % 256) := by
              apply hnotin
              rw [heq, hx]
              intro hc
              injection hc with hc'
              exact hij (congrArg Prod.snd hc')
            have hunt := DIout x hni
            rw [hunt, heq]
            refine ⟨rfl, ?_, ?_⟩
            · intro hsd
              exfalso
              have hpl := hBwf.hP x ℓ i (by rw [heq]; exact hx)
              apply hij
              rw [hpl.2.2, heq, hsd]
              exact hjD.symm
            · intro _
              rw [hx]
              rfl
        · -- the event sits on a wheel strictly above ℓ
          obtain ⟨s_pres, yb, nb⟩ := ec3 x k i hx (by omega)
          by_cases hs : (tw.evs x).scheduled_at = tw.nows 0
          · have hnone := yb hs
            have hni : x ∉ tw2.slots ℓ (tw2.nows ℓ % 256) := by
              apply hnotin
              rw [hnone]
              intro hc
              cases hc
            have hunt := DIout x hni
            rw [hunt]
            exact ⟨s_pres, fun _ => hnone, fun hc => absurd hs hc⟩
          · have hsome := nb hs
            obtain ⟨⟨k2, i2⟩, hk2⟩ := Option.isSome_iff_exists.mp hsome
            by_cases h2 : (k2, i2) = (ℓ, tw2.nows ℓ % 256)
            · have hmem : x ∈ tw2.slots ℓ (tw2.nows ℓ % 256) := by
                have hm := hBwf.hM x k2 i2 hk2
                have e1 : k2 = ℓ := congrArg Prod.fst h2
                have e2 : i2 = tw2.nows ℓ % 256 := congrArg Prod.snd h2
                rw [e1, e2] at hm
                exact hm
              obtain ⟨Hs, HY, HN⟩ := DIin x hmem
              refine ⟨Hs.trans s_pres, fun hc => absurd hc hs, ?_⟩
              intro _
              apply HN
              rw [s_pres, hB0]
              exact hs
            · have hni : x ∉ tw2.slots ℓ (tw2.nows ℓ % 256) := by
                apply hnotin
                rw [hk2]
                intro hc
                injection hc with hc'
                exact h2 hc'
              have hunt := DIout x hni
              rw [hunt]
              refine ⟨s_pres, fun hc => absurd hc hs, ?_⟩
              intro _
              rw [hk2]
              rfl
      · -- untouched events: slot not drained in this pass
        intro x k i hx hk hsite
        rcases Nat.eq_or_lt_of_le hk with hkeq | hklt
        · rw [← hkeq] at hx hsite
          have heq := ec2 x ℓ i hx (by omega)
          have hine : i ≠ tw2.nows ℓ % 256 := by
            intro hc
            exact hsite ⟨hmod, by rw [hc, hjD]⟩
          have hni : x ∉ tw2.slots ℓ (tw2.nows ℓ % 256) := by
            apply hnotin
            rw [heq, hx]
            intro hc
            injection hc with hc'
            exact hine (congrArg Prod.snd hc')
          rw [DIout x hni, heq]
        · have heq := ec4 x k i hx (by omega) hsite
          have hni : x ∉ tw2.slots ℓ (tw2.nows ℓ % 256) := by
            apply hnotin
            rw [heq, hx]
            intro hc
            injection hc with hc'
            exact absurd (congrArg Prod.fst hc') (by omega)
          rw [DIout x hni, heq]
    · -- FiredCascade
      have hrecsD : recsD = ((tw2.slots ℓ (tw2.nows ℓ % 256)).filter
          (fun x => decide ((tw2.evs x).scheduled_at = tw2.nows 0))).map
          (fun x => (⟨x, tw2.nows 0, tw2.nows 0, ℓ⟩ : FireRec)) :=
        List.append_cancel_left (Df.symm.trans DIf)
      have hmapD : recsD.map FireRec.ev = (tw2.slots ℓ (tw2.nows ℓ % 256)).filter
          (fun x => decide ((tw2.evs x).scheduled_at = tw2.nows 0)) := by
        rw [hrecsD, List.map_map]
        exact List.map_id'' (fun x => rfl) _
      refine ⟨recs1 ++ recsD, by rw [Df, f1, List.append_assoc], ?_, ?_, ?_⟩
      · intro r hr
        rcases List.mem_append.mp hr with hr | hr
        · exact r1props r hr
        · obtain ⟨_, h1, h2, _⟩ := Dr r hr
          exact ⟨by rw [← hB0]; exact h1, by rw [← hB0]; exact h2⟩
      · rw [List.map_append]
        refine List.Nodup.append r1nodup ?_ ?_
        · rw [hmapD]
          exact List.Nodup.filter _ (hBwf.hN _ _)
        · intro x hx1 hx2
          obtain ⟨⟨k, i, hsl, hk⟩, hsched⟩ := (r1iff x).mp hx1
          obtain ⟨_, yb, _⟩ := ec3 x k i hsl hk
          have hnone := yb hsched
          rw [hmapD] at hx2
          have hmem := (List.mem_filter.mp hx2).1
          exact hnotin x (by rw [hnone]; intro hc; cases hc) hmem
      · intro x
        rw [List.map_append, List.mem_append, hmapD, r1iff, List.mem_filter,
          decide_eq_true_eq]
        constructor
        · rintro (⟨⟨k, i, hsl, hk⟩, hs⟩ | ⟨hmem, hs2⟩)
          · exact ⟨⟨k, i, hsl, by omega⟩, hs⟩
          · have hbr2 : (tw2.evs x).slot = some (ℓ, tw2.nows ℓ % 256) :=
              hBwf.hB _ _ x hmem
            rw [hB0] at hs2
            cases hslot : (tw.evs x).slot with
            | none =>
              have heq := ec1 x hslot
              rw [heq, hslot] at hbr2
              cases hbr2
            | some p =>
              obtain ⟨k, i⟩ := p
              by_cases hkk : k ≤ ℓ
              · have heq := ec2 x k i hslot (by omega)
                rw [heq, hslot] at hbr2
                injection hbr2 with hb
                have hbk : k = ℓ := congrArg Prod.fst hb
                refine ⟨⟨k, i, rfl, by omega⟩, ?_⟩
                rw [← heq]
                exact hs2
              · obtain ⟨s_pres, _, _⟩ := ec3 x k i hslot (by omega)
                exact ⟨⟨k, i, rfl, by omega⟩, by rw [← s_pres]; exact hs2⟩
        · rintro ⟨⟨k, i, hsl, hk⟩, hs⟩
          rcases Nat.eq_or_lt_of_le hk with hkeq | hklt
          · right
            rw [← hkeq] at hsl
            have heq := ec2 x ℓ i hsl (by omega)
            have hbr2 : (tw2.evs x).slot = some (ℓ, i) := by rw [heq]; exact hsl
            have hpl := hBwf.hP x ℓ i hbr2
            have hieq : i = tw2.nows ℓ % 256 := by
              rw [hpl.2.2, heq, hs, ← hjD]
            refine ⟨?_, ?_⟩
            · have hm := hBwf.hM x ℓ i hbr2
              rw [hieq] at hm
              exact hm
            · rw [heq, hB0]
              exact hs
          · left
            exact ⟨⟨k, i, hsl, by omega⟩, hs⟩

/-- `advance(1)` on the outer wheel at level `ℓ ≥ 1`, entered mid-tick
of the core: wheels below `ℓ` already show the new core tick, wheels
from `ℓ` up still show the previous one and the new tick is a multiple
of wheel `ℓ`'s granule.  The call realigns all wheels from `ℓ` up,
keeps the engine well formed, drains every due event (they fire exactly
at the core tick) and pushes every not-yet-due event of the drained
slots down with a positive residual. -/
theorem advanceOn_outer_spec (cb : Cb) (hGood : GoodCb cb) (ℓ : Nat) (h1 : 1 ≤ ℓ)
    (h8 : ℓ < 8) (tw : TW) (hn1 : 1 ≤ tw.nows 0) (hnW : tw.nows 0 < W)
    (hmod : tw.nows 0 % 2 ^ (8 * ℓ) = 0)
    (halow : ∀ k, k < ℓ → tw.nows k = tw.nows 0 / 2 ^ (8 * k))
    (hstale : ∀ k, ℓ ≤ k → k < 8 → tw.nows k = (tw.nows 0 - 1) / 2 ^ (8 * k))
    (hwf : WF tw)
    (hWDlow : ∀ k, k < ℓ → WinD tw k)
    (hWSstale : ∀ k, ℓ ≤ k → k < 8 → WinSAt (tw.nows 0 - 1) tw k) :
    (TimerWheel.advanceOn cb (8 - ℓ) ℓ 1 tw).nows 0 = tw.nows 0 ∧
    (∀ k, k < ℓ → (TimerWheel.advanceOn cb (8 - ℓ) ℓ 1 tw).nows k = tw.nows k) ∧
    (∀ k, ℓ ≤ k → k < 8 →
      (TimerWheel.advanceOn cb (8 - ℓ) ℓ 1 tw).nows k = tw.nows 0 / 2 ^ (8 * k)) ∧
    WF (TimerWheel.advanceOn cb (8 - ℓ) ℓ 1 tw) ∧
    (∀ k, k < 8 → WinD (TimerWheel.advanceOn cb (8 - ℓ) ℓ 1 tw) k) ∧
    (∀ k, ℓ ≤ k → k < 8 → WinS (TimerWheel.advanceOn cb (8 - ℓ) ℓ 1 tw) k) ∧
    (∃ recs, (TimerWheel.advanceOn cb (8 - ℓ) ℓ 1 tw).fired = tw.fired ++ recs ∧
      ∀ r ∈ recs, r.tick = tw.nows 0 ∧ r.sched = tw.nows 0) ∧
    (∃ ps, (TimerWheel.advanceOn cb (8 - ℓ) ℓ 1 tw).promos = tw.promos ++ ps ∧
      ∀ p ∈ ps, p.2.2 = tw.nows 0 ∧ tw.nows 0 < p.2.1 ∧ p.2.1 < W) ∧
    (cb = cbInert →
      EvsCascade tw (TimerWheel.advanceOn cb (8 - ℓ) ℓ 1 tw) ℓ ∧
      FiredCascade tw (TimerWheel.advanceOn cb (8 - ℓ) ℓ 1 tw) ℓ) := by
  have hP : (0:Nat) < 2 ^ (8 * ℓ) := Nat.pos_pow_of_pos _ (by omega)
  have hsucc : (tw.nows 0 - 1) / 2 ^ (8 * ℓ) + 1 = tw.nows 0 / 2 ^ (8 * ℓ) :=
    pred_div_succ hP hn1 hmod
  have hwl : tw.nows ℓ = (tw.nows 0 - 1) / 2 ^ (8 * ℓ) := hstale ℓ (Nat.le_refl _) h8
  have hdivW : tw.nows 0 / 2 ^ (8 * ℓ) < W :=
    Nat.lt_of_le_of_lt (Nat.div_le_self _ _) hnW
  set tw1 := setNow ℓ ((tw.nows ℓ + 1) % W) tw with htw1
  have h1nl : tw1.nows ℓ = tw.nows 0 / 2 ^ (8 * ℓ) := by
    rw [htw1, setNow_nows, if_pos rfl, hwl, Nat.mod_eq_of_lt (by omega), hsucc]
  have h1nk : ∀ k, k ≠ ℓ → tw1.nows k = tw.nows k := by
    intro k hk
    simp only [htw1, setNow_nows, if_neg hk]
  have h1n0 : tw1.nows 0 = tw.nows 0 := h1nk 0 (by omega)
  have hwf1 : WF tw1 := ⟨hwf.hB, hwf.hN, hwf.hM, hwf.hP⟩
  have hj : tw1.nows ℓ &&& MASK = tw.nows 0 / 2 ^ (8 * ℓ) % 256 := by
    rw [land_MASK, h1nl]
  have hgas : 8 - ℓ = (8 - (ℓ + 1)) + 1 := by omega
  have hadv0 : TimerWheel.advanceOn cb (8 - ℓ) ℓ 1 tw =
      drainSlot cb ℓ (tw1.nows ℓ &&& MASK)
        (((if tw1.nows ℓ &&& MASK = 0 ∧ ℓ + 1 < NUM_LEVELS
            then TimerWheel.advanceOn cb (8 - (ℓ + 1)) (ℓ + 1) 1 tw1 else tw1).slots ℓ
          (tw1.nows ℓ &&& MASK)).length)
        (if tw1.nows ℓ &&& MASK = 0 ∧ ℓ + 1 < NUM_LEVELS
          then TimerWheel.advanceOn cb (8 - (ℓ + 1)) (ℓ + 1) 1 tw1 else tw1) := by
    rw [hgas]
    rfl
  suffices H : ∃ tw2, TimerWheel.advanceOn cb (8 - ℓ) ℓ 1 tw =
      drainSlot cb ℓ (tw2.nows ℓ % 256) ((tw2.slots ℓ (tw2.nows ℓ % 256)).length) tw2 ∧
      tw2.nows 0 = tw1.nows 0 ∧
      (∀ k, k < ℓ → tw2.nows k = tw1.nows k) ∧
      tw2.nows ℓ = tw1.nows 0 / 2 ^ (8 * ℓ) ∧
      (∀ k, ℓ < k → k < 8 → tw2.nows k = tw1.nows 0 / 2 ^ (8 * k)) ∧
      WF tw2 ∧
      (∀ k, k < 8 → WinD tw2 k) ∧
      (∀ k, ℓ < k → k < 8 → WinS tw2 k) ∧
      (∃ recs, tw2.fired = tw1.fired ++ recs ∧
        ∀ r ∈ recs, r.tick = tw1.nows 0 ∧ r.sched = tw1.nows 0) ∧
      (∃ ps, tw2.promos = tw1.promos ++ ps ∧
        ∀ p ∈ ps, p.2.2 = tw1.nows 0 ∧ tw1.nows 0 < p.2.1 ∧ p.2.1 < W) ∧
      (cb = cbInert → EvsCascade tw1 tw2 (ℓ + 1) ∧ FiredCascade tw1 tw2 (ℓ + 1)) by
    obtain ⟨tw2, heq2, hB0, hBlow, hBl, hBhigh, hBwf, hBWD, hBWS, hBf, hBp, hBin⟩ := H
    have hnW1 : tw1.nows 0 < W := by rw [h1n0]; exact hnW
    have hmod1 : tw1.nows 0 % 2 ^ (8 * ℓ) = 0 := by rw [h1n0]; exact hmod
    have halow1 : ∀ k, k < ℓ → tw1.nows k = tw1.nows 0 / 2 ^ (8 * k) := by
      intro k hk
      rw [h1nk k (by omega), h1n0]
      exact halow k hk
    obtain ⟨C1, C2, C3, C4, C5, C6, C7, C8, C9⟩ :=
      drain_compose cb hGood ℓ h8 tw1 tw2 hnW1 hmod1 halow1 hB0 hBlow hBl hBhigh
        hBwf hBWD hBWS hBf hBp hBin
    rw [heq2]
    refine ⟨C1.trans h1n0, ?_, ?_, C4, C5, C6, ?_, ?_, ?_⟩
    · intro k hk
      exact (C2 k hk).trans (h1nk k (by omega))
    · intro k hk1 hk8
      exact (C3 k hk1 hk8).trans (by rw [h1n0])
    · obtain ⟨recs, hf, hr⟩ := C7
      refine ⟨recs, hf, ?_⟩
      intro r hrr
      obtain ⟨a, b⟩ := hr r hrr
      exact ⟨by rw [← h1n0]; exact a, by rw [← h1n0]; exact b⟩
    · obtain ⟨ps, hp, hpp⟩ := C8
      refine ⟨ps, hp, ?_⟩
      intro p hpm
      obtain ⟨a, b, c⟩ := hpp p hpm
      exact ⟨by rw [← h1n0]; exact a, by rw [← h1n0]; exact b, c⟩
    · intro hcb
      obtain ⟨hec, hfc⟩ := C9 hcb
      rw [htw1] at hec hfc
      exact ⟨EvsCascade_of_setNow (by omega) hec, FiredCascade_of_setNow (by omega) hfc⟩
  by_cases hcasc : tw.nows 0 / 2 ^ (8 * ℓ) % 256 = 0 ∧ ℓ + 1 < 8
  · -- the new tick also lands on slot 0 of wheel ℓ: the next wheel advances first
    have hcond : tw1.nows ℓ &&& MASK = 0 ∧ ℓ + 1 < NUM_LEVELS := by
      refine ⟨by rw [hj]; exact hcasc.1, by simp only [NUM_LEVELS]; exact hcasc.2⟩
    rw [if_pos hcond] at hadv0
    have hmod1' : tw1.nows 0 % 2 ^ (8 * (ℓ + 1)) = 0 := by
      rw [h1n0]
      exact mod_step_zero hmod hcasc.1
    have halow1' : ∀ k, k < ℓ + 1 → tw1.nows k = tw1.nows 0 / 2 ^ (8 * k) := by
      intro k hk
      rcases Nat.lt_or_ge k ℓ with h | h
      · rw [h1nk k (by omega), h1n0]
        exact halow k h
      · have : k = ℓ := by omega
        subst this
        rw [h1nl, h1n0]
    have hstale1' : ∀ k, ℓ + 1 ≤ k → k < 8 → tw1.nows k = (tw1.nows 0 - 1) / 2 ^ (8 * k) := by
      intro k hk hk8
      rw [h1nk k (by omega), h1n0]
      exact hstale k (by omega) hk8
    have hWDlow1' : ∀ k, k < ℓ + 1 → WinD tw1 k := by
      intro k hk
      rcases Nat.lt_or_ge k ℓ with h | h
      · intro e i he
        rw [h1n0]
        exact hWDlow k h e i he
      · have : k = ℓ := by omega
        subst this
        intro e i he
        obtain ⟨w1, w2⟩ := hWSstale k (Nat.le_refl _) h8 e i he
        rw [h1n0, ← hsucc]
        exact ⟨w1, Nat.le_trans w2 (by omega)⟩
    have hWSstale1' : ∀ k, ℓ + 1 ≤ k → k < 8 → WinSAt (tw1.nows 0 - 1) tw1 k := by
      intro k hk hk8 e i he
      rw [h1n0]
      exact hWSstale k (by omega) hk8 e i he
    obtain ⟨IH0, IHlow, IHhigh, IHwf, IHWD, IHWS, IHf, IHp, IHin⟩ :=
      advanceOn_outer_spec cb hGood (ℓ + 1) (by omega) hcasc.2 tw1
        (by rw [h1n0]; exact hn1) (by rw [h1n0]; exact hnW) hmod1'
        halow1' hstale1' hwf1 hWDlow1' hWSstale1'
    have hidx : tw1.nows ℓ &&& MASK =
        (TimerWheel.advanceOn cb (8 - (ℓ + 1)) (ℓ + 1) 1 tw1).nows ℓ % 256 := by
      rw [hj, IHlow ℓ (by omega), h1nl]
    rw [hidx] at hadv0
    refine ⟨TimerWheel.advanceOn cb (8 - (ℓ + 1)) (ℓ + 1) 1 tw1, hadv0, IH0, ?_, ?_,
      ?_, IHwf, IHWD, ?_, IHf, IHp, IHin⟩
    · intro k hk
      exact IHlow k (by omega)
    · exact (IHlow ℓ (by omega)).trans (by rw [h1nl, h1n0])
    · intro k hk hk8
      exact IHhigh k (by omega) hk8
    · intro k hk hk8
      exact IHWS k (by omega) hk8
  · -- slot not 0 (or already the outermost wheel): no recursion upward
    have hcond : ¬(tw1.nows ℓ &&& MASK = 0 ∧ ℓ + 1 < NUM_LEVELS) := by
      rw [hj]
      simp only [NUM_LEVELS]
      exact fun hc => hcasc ⟨hc.1, hc.2⟩
    rw [if_neg hcond] at hadv0
    have hknz : ∀ k, ℓ < k → k < 8 → tw.nows 0 % 2 ^ (8 * k) ≠ 0 := by
      intro k hk hk8 hc
      exact hcasc ⟨div_mod256_zero_of_mod hk hc, by omega⟩
    have hstali : ∀ k, ℓ < k → k < 8 →
        (tw.nows 0 - 1) / 2 ^ (8 * k) = tw.nows 0 / 2 ^ (8 * k) := by
      intro k hk hk8
      exact pred_div_eq (Nat.pos_pow_of_pos _ (by omega)) (hknz k hk hk8)
    have hsgtn : ∀ x k i, (tw.evs x).slot = some (k, i) → ℓ < k →
        tw.nows 0 < (tw.evs x).scheduled_at := by
      intro x k i hx hk
      have hk8 : k < 8 := by
        have := (hwf.hP x k i hx).1
        simp only [NUM_LEVELS] at this
        exact this
      have w1 := (hWSstale k (by omega) hk8 x i hx).1
      rw [hstali k hk hk8] at w1
      exact lt_of_div_lt_div w1
    have hidx : tw1.nows ℓ &&& MASK = tw1.nows ℓ % 256 := land_MASK _
    rw [hidx] at hadv0
    refine ⟨tw1, hadv0, rfl, fun k _ => rfl, by rw [h1nl, h1n0], ?_, hwf1, ?_, ?_,
      ⟨[], (List.append_nil _).symm, fun r hr => absurd hr (List.not_mem_nil r)⟩,
      ⟨[], (List.append_nil _).symm, fun p hp => absurd hp (List.not_mem_nil p)⟩, ?_⟩
    · intro k hk hk8
      rw [h1nk k (by omega), hstale k (by omega) hk8, hstali k hk hk8, h1n0]
    · -- all wheels hold the due window at the new tick
      intro k hk8
      rcases Nat.lt_trichotomy k ℓ with h | h | h
      · intro e i he
        rw [h1n0]
        exact hWDlow k h e i he
      · subst h
        intro e i he
        obtain ⟨w1, w2⟩ := hWSstale k (Nat.le_refl _) hk8 e i he
        rw [h1n0, ← hsucc]
        exact ⟨w1, Nat.le_trans w2 (by omega)⟩
      · intro e i he
        obtain ⟨w1, w2⟩ := hWSstale k (by omega) hk8 e i he
        rw [hstali k h hk8] at w1 w2
        rw [h1n0]
        exact ⟨Nat.le_of_lt w1, w2⟩
    · -- wheels above ℓ keep strict windows
      intro k hk hk8 e i he
      obtain ⟨w1, w2⟩ := hWSstale k (by omega) hk8 e i he
      rw [hstali k hk hk8] at w1 w2
      rw [h1n0]
      exact ⟨w1, w2⟩
    · intro _
      constructor
      · refine ⟨fun x _ => rfl, fun x k i _ _ => rfl, ?_, fun x k i _ _ _ => rfl⟩
        intro x k i hx hk
        refine ⟨rfl, ?_, ?_⟩
        · intro hsd
          exfalso
          have hlt := hsgtn x k i hx (by omega)
          have hsd' : (tw.evs x).scheduled_at = tw.nows 0 := by
            rw [← h1n0]
            exact hsd
          rw [hsd'] at hlt
          exact Nat.lt_irrefl _ hlt
        · intro _
          rw [hx]
          rfl
      · refine ⟨[], (List.append_nil _).symm,
          fun r hr => absurd hr (List.not_mem_nil r), List.nodup_nil, ?_⟩
        intro x
        constructor
        · intro hx
          exact absurd hx (List.not_mem_nil x)
        · rintro ⟨⟨k, i, hx, hk⟩, hs⟩
          exfalso
          have hlt := hsgtn x k i hx (by omega)
          have hs' : (tw.evs x).scheduled_at = tw.nows 0 := by
            rw [← h1n0]
            exact hs
          rw [hs'] at hlt
          exact Nat.lt_irrefl _ hlt
termination_by 8 - ℓ
decreasing_by omega

/-- One core tick (`delta--` iteration of the public `advance`) from a
resting well-formed state: the tick advances `now` by one, cascades to
the outer wheels exactly when the new tick is a multiple of 256, fires
exactly the active events whose `scheduled_at` equals the new tick
(each once, at `now()` equal to that tick), and leaves every other
event's activity and `scheduled_at` unchanged. -/
theorem tick_spec (cb : Cb) (hGood : GoodCb cb) (tw : TW)
    (hnW : tw.nows 0 + 1 < W) (hal : Aligned tw) (hwf : WF tw)
    (hWS : ∀ k, k < 8 → WinS tw k) :
    (tickOn cb (TimerWheel.advanceOn cb 7 1 1) 0 tw).nows 0 = tw.nows 0 + 1 ∧
    Aligned (tickOn cb (TimerWheel.advanceOn cb 7 1 1) 0 tw) ∧
    WF (tickOn cb (TimerWheel.advanceOn cb 7 1 1) 0 tw) ∧
    (∀ k, k < 8 → WinS (tickOn cb (TimerWheel.advanceOn cb 7 1 1) 0 tw) k) ∧
    (∃ recs, (tickOn cb (TimerWheel.advanceOn cb 7 1 1) 0 tw).fired = tw.fired ++ recs ∧
      ∀ r ∈ recs, r.tick = tw.nows 0 + 1 ∧ r.sched = tw.nows 0 + 1) ∧
    (∃ ps, (tickOn cb (TimerWheel.advanceOn cb 7 1 1) 0 tw).promos = tw.promos ++ ps ∧
      ∀ p ∈ ps, p.2.2 = tw.nows 0 + 1 ∧ tw.nows 0 + 1 < p.2.1 ∧ p.2.1 < W) ∧
    (cb = cbInert →
      (∀ x, ¬((tw.evs x).slot.isSome = true ∧
          (tw.evs x).scheduled_at = tw.nows 0 + 1) →
        ((tickOn cb (TimerWheel.advanceOn cb 7 1 1) 0 tw).evs x).slot.isSome =
          (tw.evs x).slot.isSome ∧
        ((tickOn cb (TimerWheel.advanceOn cb 7 1 1) 0 tw).evs x).scheduled_at =
          (tw.evs x).scheduled_at) ∧
      (∀ x, (tw.evs x).slot.isSome = true → (tw.evs x).scheduled_at = tw.nows 0 + 1 →
        ((tickOn cb (TimerWheel.advanceOn cb 7 1 1) 0 tw).evs x).slot = none ∧
        ((tickOn cb (TimerWheel.advanceOn cb 7 1 1) 0 tw).evs x).scheduled_at =
          (tw.evs x).scheduled_at) ∧
      (∀ x, (tw.evs x).slot = none →
        (tickOn cb (TimerWheel.advanceOn cb 7 1 1) 0 tw).evs x = tw.evs x) ∧
      (∀ x k i, (tw.evs x).slot = some (k, i) →
        ¬((tw.nows 0 + 1) % 2 ^ (8 * k) = 0 ∧
          i = (tw.nows 0 + 1) / 2 ^ (8 * k) % 256) →
        (tickOn cb (TimerWheel.advanceOn cb 7 1 1) 0 tw).evs x = tw.evs x) ∧
      (∃ recs, (tickOn cb (TimerWheel.advanceOn cb 7 1 1) 0 tw).fired =
          tw.fired ++ recs ∧
        (∀ r ∈ recs, r.tick = tw.nows 0 + 1 ∧ r.sched = tw.nows 0 + 1) ∧
        (recs.map FireRec.ev).Nodup ∧
        (∀ x, x ∈ recs.map FireRec.ev ↔
          (tw.evs x).slot.isSome = true ∧
          (tw.evs x).scheduled_at = tw.nows 0 + 1))) := by
  set tw1 := setNow 0 ((tw.nows 0 + 1) % W) tw with htw1
  have h1n0 : tw1.nows 0 = tw.nows 0 + 1 := by
    rw [htw1, setNow_nows, if_pos rfl, Nat.mod_eq_of_lt hnW]
  have h1nk : ∀ k, k ≠ 0 → tw1.nows k = tw.nows k := by
    intro k hk
    rw [htw1, setNow_nows, if_neg hk]
  have hwf1 : WF tw1 := ⟨hwf.hB, hwf.hN, hwf.hM, hwf.hP⟩
  have hj : tw1.nows 0 &&& MASK = (tw.nows 0 + 1) % 256 := by
    rw [land_MASK, h1n0]
  have hadv0 : tickOn cb (TimerWheel.advanceOn cb 7 1 1) 0 tw =
      drainSlot cb 0 (tw1.nows 0 &&& MASK)
        (((if tw1.nows 0 &&& MASK = 0 ∧ 0 + 1 < NUM_LEVELS
            then TimerWheel.advanceOn cb 7 1 1 tw1 else tw1).slots 0
          (tw1.nows 0 &&& MASK)).length)
        (if tw1.nows 0 &&& MASK = 0 ∧ 0 + 1 < NUM_LEVELS
          then TimerWheel.advanceOn cb 7 1 1 tw1 else tw1) := rfl
  have hWD1 : WinD tw1 0 := by
    intro e i he
    obtain ⟨w1, w2⟩ := hWS 0 (by omega) e i he
    show tw1.nows 0 / 2 ^ (8 * 0) ≤ (tw.evs e).scheduled_at / 2 ^ (8 * 0) ∧
      (tw.evs e).scheduled_at / 2 ^ (8 * 0) ≤ tw1.nows 0 / 2 ^ (8 * 0) + 255
    rw [h1n0]
    exact ⟨by omega, by omega⟩
  suffices H : ∃ tw2, tickOn cb (TimerWheel.advanceOn cb 7 1 1) 0 tw =
      drainSlot cb 0 (tw2.nows 0 % 256) ((tw2.slots 0 (tw2.nows 0 % 256)).length) tw2 ∧
      tw2.nows 0 = tw1.nows 0 ∧
      (∀ k, 0 < k → k < 8 → tw2.nows k = tw1.nows 0 / 2 ^ (8 * k)) ∧
      WF tw2 ∧
      (∀ k, k < 8 → WinD tw2 k) ∧
      (∀ k, 0 < k → k < 8 → WinS tw2 k) ∧
      (∃ recs, tw2.fired = tw1.fired ++ recs ∧
        ∀ r ∈ recs, r.tick = tw1.nows 0 ∧ r.sched = tw1.nows 0) ∧
      (∃ ps, tw2.promos = tw1.promos ++ ps ∧
        ∀ p ∈ ps, p.2.2 = tw1.nows 0 ∧ tw1.nows 0 < p.2.1 ∧ p.2.1 < W) ∧
      (cb = cbInert → EvsCascade tw1 tw2 1 ∧ FiredCascade tw1 tw2 1) by
    obtain ⟨tw2, heq2, hB0, hBhigh, hBwf, hBWD, hBWS, hBf, hBp, hBin⟩ := H
    have hnW1 : tw1.nows 0 < W := by rw [h1n0]; exact hnW
    have hBl : tw2.nows 0 = tw1.nows 0 / 2 ^ (8 * 0) := by
      rw [hB0]
      norm_num
    obtain ⟨C1, C2, C3, C4, C5, C6, C7, C8, C9⟩ :=
      drain_compose cb hGood 0 (by omega) tw1 tw2 hnW1 (by omega)
        (fun k hk => absurd hk (Nat.not_lt_zero k)) hB0
        (fun k hk => absurd hk (Nat.not_lt_zero k)) hBl hBhigh
        hBwf hBWD hBWS hBf hBp hBin
    rw [heq2]
    have hTn0 : (drainSlot cb 0 (tw2.nows 0 % 256)
        ((tw2.slots 0 (tw2.nows 0 % 256)).length) tw2).nows 0 = tw.nows 0 + 1 :=
      C1.trans h1n0
    refine ⟨hTn0, ?_, C4, ?_, ?_, ?_, ?_⟩
    · intro k hk
      have hk8 : k < 8 := by simp only [NUM_LEVELS] at hk; omega
      rw [hTn0, C3 k (Nat.zero_le _) hk8, h1n0]
    · intro k hk
      exact C6 k (Nat.zero_le _) hk
    · obtain ⟨recs, hf, hr⟩ := C7
      refine ⟨recs, hf, ?_⟩
      intro r hrr
      obtain ⟨a, b⟩ := hr r hrr
      exact ⟨by rw [← h1n0]; exact a, by rw [← h1n0]; exact b⟩
    · obtain ⟨ps, hp, hpp⟩ := C8
      refine ⟨ps, hp, ?_⟩
      intro p hpm
      obtain ⟨a, b, c⟩ := hpp p hpm
      exact ⟨by rw [← h1n0]; exact a, by rw [← h1n0]; exact b, c⟩
    · intro hcb
      obtain ⟨⟨ec1, ec2, ec3, ec4⟩, ⟨recs, hf, hp, hd, hiff⟩⟩ := C9 hcb
      refine ⟨?_, ?_, ?_, ?_, ?_⟩
      · intro x hx
        cases hslot : (tw.evs x).slot with
        | none =>
          have heq := ec1 x hslot
          have hslot1 : (tw1.evs x).slot = none := hslot
          rw [heq, hslot1]
          exact ⟨rfl, rfl⟩
        | some p =>
          obtain ⟨k, i⟩ := p
          have hs : (tw.evs x).scheduled_at ≠ tw.nows 0 + 1 := by
            intro hc
            exact hx ⟨by rw [hslot]; rfl, hc⟩
          obtain ⟨sp, _, nb⟩ := ec3 x k i hslot (Nat.zero_le _)
          have hsome := nb (by rw [h1n0]; exact hs)
          exact ⟨by rw [hsome]; rfl, sp⟩
      · intro x hact hs
        obtain ⟨⟨k, i⟩, hk⟩ := Option.isSome_iff_exists.mp hact
        obtain ⟨sp, yb, _⟩ := ec3 x k i hk (Nat.zero_le _)
        exact ⟨yb (by rw [h1n0]; exact hs), sp⟩
      · intro x hx
        exact ec1 x hx
      · intro x k i hx hsite
        exact ec4 x k i hx (Nat.zero_le _) (by rw [h1n0]; exact hsite)
      · refine ⟨recs, hf, ?_, hd, ?_⟩
        · intro r hrr
          obtain ⟨a, b⟩ := hp r hrr
          exact ⟨by rw [← h1n0]; exact a, by rw [← h1n0]; exact b⟩
        · intro x
          rw [hiff x]
          constructor
          · rintro ⟨⟨k, i, hsl, _⟩, hs⟩
            exact ⟨by rw [show (tw.evs x).slot = some (k, i) from hsl]; rfl,
              by rw [← h1n0]; exact hs⟩
          · rintro ⟨hact, hs⟩
            obtain ⟨⟨k, i⟩, hk⟩ := Option.isSome_iff_exists.mp hact
            exact ⟨⟨k, i, hk, Nat.zero_le _⟩, by rw [h1n0]; exact hs⟩
  by_cases hcasc : (tw.nows 0 + 1) % 256 = 0
  · -- the new tick lands on slot 0: the level-1 wheel advances first
    have hcond : tw1.nows 0 &&& MASK = 0 ∧ 0 + 1 < NUM_LEVELS :=
      ⟨by rw [hj]; exact hcasc, by simp only [NUM_LEVELS]; omega⟩
    rw [if_pos hcond] at hadv0
    have h256 : (2:Nat) ^ (8 * 1) = 256 := by norm_num
    obtain ⟨IH0, IHlow, IHhigh, IHwf, IHWD, IHWS, IHf, IHp, IHin⟩ :=
      advanceOn_outer_spec cb hGood 1 (Nat.le_refl _) (by omega) tw1
        (by rw [h1n0]; omega)
        (by rw [h1n0]; exact hnW)
        (by rw [h1n0, h256]; exact hcasc)
        (by
          intro k hk
          have hk0 : k = 0 := by omega
          subst hk0
          simp)
        (by
          intro k hk hk8
          rw [h1nk k (by omega), h1n0, Nat.add_sub_cancel]
          exact hal k (by simp only [NUM_LEVELS]; omega))
        hwf1
        (by
          intro k hk
          have hk0 : k = 0 := by omega
          subst hk0
          exact hWD1)
        (by
          intro k hk hk8 e i he
          rw [h1n0, Nat.add_sub_cancel]
          exact hWS k hk8 e i he)
    have hgas1 : (8:Nat) - 1 = 7 := rfl
    rw [hgas1] at IH0 IHlow IHhigh IHwf IHWD IHWS IHf IHp IHin
    have hidx : tw1.nows 0 &&& MASK =
        (TimerWheel.advanceOn cb 7 1 1 tw1).nows 0 % 256 := by
      rw [hj, IH0, h1n0]
    rw [hidx] at hadv0
    refine ⟨TimerWheel.advanceOn cb 7 1 1 tw1, hadv0, IH0, ?_, IHwf, IHWD, ?_,
      IHf, IHp, IHin⟩
    · intro k hk hk8
      exact IHhigh k (by omega) hk8
    · intro k hk hk8
      exact IHWS k (by omega) hk8
  · -- no cascade: only the core wheel ticks
    have hcond : ¬(tw1.nows 0 &&& MASK = 0 ∧ 0 + 1 < NUM_LEVELS) := by
      rw [hj]
      exact fun hc => hcasc hc.1
    rw [if_neg hcond] at hadv0
    rw [land_MASK (tw1.nows 0)] at hadv0
    have hknz : ∀ k, 0 < k → k < 8 → (tw.nows 0 + 1) % 2 ^ (8 * k) ≠ 0 := by
      intro k hk hk8 hc
      apply hcasc
      apply Nat.mod_eq_zero_of_dvd
      refine Nat.dvd_trans ?_ (Nat.dvd_of_mod_eq_zero hc)
      rw [show (256:Nat) = 2 ^ 8 by norm_num]
      exact Nat.pow_dvd_pow 2 (by omega)
    have hstat : ∀ k, 0 < k → k < 8 →
        tw.nows 0 / 2 ^ (8 * k) = (tw.nows 0 + 1) / 2 ^ (8 * k) := by
      intro k hk hk8
      have h := pred_div_eq (Nat.pos_pow_of_pos _ (by omega)) (hknz k hk hk8)
      rw [Nat.add_sub_cancel] at h
      exact h
    have hsgt : ∀ x k i, (tw.evs x).slot = some (k, i) → 0 < k →
        tw.nows 0 + 1 < (tw.evs x).scheduled_at := by
      intro x k i hx hk
      have hk8 : k < 8 := by
        have := (hwf.hP x k i hx).1
        simp only [NUM_LEVELS] at this
        exact this
      have w1 := (hWS k hk8 x i hx).1
      rw [hstat k hk hk8] at w1
      exact lt_of_div_lt_div w1
    refine ⟨tw1, hadv0, rfl, ?_, hwf1, ?_, ?_,
      ⟨[], (List.append_nil _).symm, fun r hr => absurd hr (List.not_mem_nil r)⟩,
      ⟨[], (List.append_nil _).symm, fun p hp => absurd hp (List.not_mem_nil p)⟩, ?_⟩
    · intro k hk hk8
      rw [h1nk k (by omega), h1n0, ← hstat k hk hk8]
      exact hal k (by simp only [NUM_LEVELS]; omega)
    · intro k hk8
      rcases Nat.eq_zero_or_pos k with hk0 | hk0
      · subst hk0
        exact hWD1
      · intro e i he
        obtain ⟨w1, w2⟩ := hWS k hk8 e i he
        show tw1.nows 0 / 2 ^ (8 * k) ≤ (tw.evs e).scheduled_at / 2 ^ (8 * k) ∧
          (tw.evs e).scheduled_at / 2 ^ (8 * k) ≤ tw1.nows 0 / 2 ^ (8 * k) + 255
        rw [h1n0, ← hstat k hk0 hk8]
        exact ⟨Nat.le_of_lt w1, w2⟩
    · intro k hk hk8 e i he
      obtain ⟨w1, w2⟩ := hWS k hk8 e i he
      show tw1.nows 0 / 2 ^ (8 * k) < (tw.evs e).scheduled_at / 2 ^ (8 * k) ∧
        (tw.evs e).scheduled_at / 2 ^ (8 * k) ≤ tw1.nows 0 / 2 ^ (8 * k) + 255
      rw [h1n0, ← hstat k hk hk8]
      exact ⟨w1, w2⟩
    · intro _
      constructor
      · refine ⟨fun x _ => rfl, fun x k i _ _ => rfl, ?_, fun x k i _ _ _ => rfl⟩
        intro x k i hx hk
        refine ⟨rfl, ?_, ?_⟩
        · intro hsd
          exfalso
          have hlt := hsgt x k i hx (by omega)
          have hsd' : (tw.evs x).scheduled_at = tw.nows 0 + 1 := by
            rw [← h1n0]
            exact hsd
          rw [hsd'] at hlt
          exact Nat.lt_irrefl _ hlt
        · intro _
          rw [hx]
          rfl
      · refine ⟨[], (List.append_nil _).symm,
          fun r hr => absurd hr (List.not_mem_nil r), List.nodup_nil, ?_⟩
        intro x
        constructor
        · intro hx
          exact absurd hx (List.not_mem_nil x)
        · rintro ⟨⟨k, i, hx, hk⟩, hs⟩
          exfalso
          have hlt := hsgt x k i hx (by omega)
          have hs' : (tw.evs x).scheduled_at = tw.nows 0 + 1 := by
            rw [← h1n0]
            exact hs
          rw [hs'] at hlt
          exact Nat.lt_irrefl _ hlt

theorem pairwise_of_all {α : Type} {R : α → α → Prop} :
    ∀ (l : List α), (∀ a ∈ l, ∀ b ∈ l, R a b) → l.Pairwise R
  | [], _ => List.Pairwise.nil
  | a :: l, h => List.Pairwise.cons
      (fun b hb => h a (List.mem_cons_self _ _) b (List.mem_cons_of_mem _ hb))
      (pairwise_of_all l (fun x hx y hy =>
        h x (List.mem_cons_of_mem _ hx) y (List.mem_cons_of_mem _ hy)))

/-- The `while (delta--)` loop of the public `advance`, iterated from a
resting well-formed state: `now` advances by `delta`, the engine stays
well formed and strictly windowed, fires happen in tick order with
`now() = scheduled_at` at each fire, and with an inert callback exactly
the active events with `scheduled_at` in `(now, now + delta]` fire,
each exactly once. -/
theorem advanceLoop_spec (cb : Cb) (hGood : GoodCb cb) :
    ∀ (delta : Nat) (tw : TW),
    tw.nows 0 + delta < W → Aligned tw → WF tw → (∀ k, k < 8 → WinS tw k) →
    (advanceLoop cb (TimerWheel.advanceOn cb 7 1 1) 0 delta tw).nows 0 =
      tw.nows 0 + delta ∧
    Aligned (advanceLoop cb (TimerWheel.advanceOn cb 7 1 1) 0 delta tw) ∧
    WF (advanceLoop cb (TimerWheel.advanceOn cb 7 1 1) 0 delta tw) ∧
    (∀ k, k < 8 → WinS (advanceLoop cb (TimerWheel.advanceOn cb 7 1 1) 0 delta tw) k) ∧
    (∃ recs, (advanceLoop cb (TimerWheel.advanceOn cb 7 1 1) 0 delta tw).fired =
        tw.fired ++ recs ∧
      (∀ r ∈ recs, tw.nows 0 < r.tick ∧ r.tick ≤ tw.nows 0 + delta ∧
        r.sched = r.tick) ∧
      recs.Pairwise (fun a b => a.tick ≤ b.tick)) ∧
    (∃ ps, (advanceLoop cb (TimerWheel.advanceOn cb 7 1 1) 0 delta tw).promos =
        tw.promos ++ ps ∧
      ∀ p ∈ ps, tw.nows 0 < p.2.2 ∧ p.2.2 ≤ tw.nows 0 + delta ∧
        p.2.2 < p.2.1 ∧ p.2.1 < W) ∧
    (cb = cbInert →
      (∀ x, ¬((tw.evs x).slot.isSome = true ∧
          tw.nows 0 < (tw.evs x).scheduled_at ∧
          (tw.evs x).scheduled_at ≤ tw.nows 0 + delta) →
        ((advanceLoop cb (TimerWheel.advanceOn cb 7 1 1) 0 delta tw).evs x).slot.isSome =
          (tw.evs x).slot.isSome ∧
        ((advanceLoop cb (TimerWheel.advanceOn cb 7 1 1) 0 delta tw).evs x).scheduled_at =
          (tw.evs x).scheduled_at) ∧
      (∀ x, (tw.evs x).slot.isSome = true → tw.nows 0 < (tw.evs x).scheduled_at →
        (tw.evs x).scheduled_at ≤ tw.nows 0 + delta →
        ((advanceLoop cb (TimerWheel.advanceOn cb 7 1 1) 0 delta tw).evs x).slot = none ∧
        ((advanceLoop cb (TimerWheel.advanceOn cb 7 1 1) 0 delta tw).evs x).scheduled_at =
          (tw.evs x).scheduled_at) ∧
      (∀ x, (tw.evs x).slot = none →
        (advanceLoop cb (TimerWheel.advanceOn cb 7 1 1) 0 delta tw).evs x = tw.evs x) ∧
      (∀ x k i, (tw.evs x).slot = some (k, i) →
        (∀ t, tw.nows 0 < t → t ≤ tw.nows 0 + delta →
          ¬(t % 2 ^ (8 * k) = 0 ∧ i = t / 2 ^ (8 * k) % 256)) →
        (advanceLoop cb (TimerWheel.advanceOn cb 7 1 1) 0 delta tw).evs x = tw.evs x) ∧
      (∃ recs, (advanceLoop cb (TimerWheel.advanceOn cb 7 1 1) 0 delta tw).fired =
          tw.fired ++ recs ∧
        (∀ r ∈ recs, r.sched = r.tick) ∧
        (recs.map FireRec.ev).Nodup ∧
        (∀ x, x ∈ recs.map FireRec.ev ↔
          (tw.evs x).slot.isSome = true ∧
          tw.nows 0 < (tw.evs x).scheduled_at ∧
          (tw.evs x).scheduled_at ≤ tw.nows 0 + delta))) := by
  intro delta
  induction delta with
  | zero =>
    intro tw hnW hal hwf hWS
    refine ⟨by rw [Nat.add_zero]; rfl, hal, hwf, hWS,
      ⟨[], (List.append_nil _).symm,
        fun r hr => absurd hr (List.not_mem_nil r), List.Pairwise.nil⟩,
      ⟨[], (List.append_nil _).symm, fun p hp => absurd hp (List.not_mem_nil p)⟩, ?_⟩
    intro _
    refine ⟨fun x _ => ⟨rfl, rfl⟩, ?_, fun x _ => rfl, fun x k i _ _ => rfl, ?_⟩
    · intro x _ h1 h2
      omega
    · refine ⟨[], (List.append_nil _).symm,
        fun r hr => absurd hr (List.not_mem_nil r), List.nodup_nil, ?_⟩
      intro x
      constructor
      · intro hx
        exact absurd hx (List.not_mem_nil x)
      · rintro ⟨_, h1, h2⟩
        omega
  | succ d ih =>
    intro tw hnW hal hwf hWS
    have hstep : advanceLoop cb (TimerWheel.advanceOn cb 7 1 1) 0 (d + 1) tw =
        advanceLoop cb (TimerWheel.advanceOn cb 7 1 1) 0 d
          (tickOn cb (TimerWheel.advanceOn cb 7 1 1) 0 tw) := rfl
    obtain ⟨T0, Tal, Twf, TWS, ⟨recs1, Tf, Tr⟩, ⟨ps1, Tp, Tpp⟩, Tin⟩ :=
      tick_spec cb hGood tw (by omega) hal hwf hWS
    set T := tickOn cb (TimerWheel.advanceOn cb 7 1 1) 0 tw with hT
    obtain ⟨A0, Aal, Awf, AWS, ⟨recs2, Af, Ar, Apw⟩, ⟨ps2, Ap, App⟩, Ain⟩ :=
      ih T (by rw [T0]; omega) Tal Twf TWS
    rw [hstep]
    refine ⟨by rw [A0, T0]; omega, Aal, Awf, AWS, ?_, ?_, ?_⟩
    · refine ⟨recs1 ++ recs2, by rw [Af, Tf, List.append_assoc], ?_, ?_⟩
      · intro r hr
        rcases List.mem_append.mp hr with hr | hr
        · obtain ⟨a, b⟩ := Tr r hr
          exact ⟨by omega, by omega, by rw [a, b]⟩
        · obtain ⟨a, b, c⟩ := Ar r hr
          rw [T0] at a b
          exact ⟨by omega, by omega, c⟩
      · rw [List.pairwise_append]
        refine ⟨?_, ?_, ?_⟩
        · refine pairwise_of_all recs1 ?_
          intro a ha b hb
          rw [(Tr a ha).1, (Tr b hb).1]
        · exact Apw
        · intro a ha b hb
          have h1 := (Tr a ha).1
          have h2 := (Ar b hb).1
          rw [T0] at h2
          omega
    · refine ⟨ps1 ++ ps2, by rw [Ap, Tp, List.append_assoc], ?_⟩
      intro p hp
      rcases List.mem_append.mp hp with hp | hp
      · obtain ⟨a, b, c⟩ := Tpp p hp
        exact ⟨by omega, by omega, by omega, c⟩
      · obtain ⟨a, b, c, e⟩ := App p hp
        rw [T0] at a b
        exact ⟨by omega, by omega, c, e⟩
    · intro hcb
      obtain ⟨Tu1, Tu2, Tnone, Tsite, ⟨trecs, Tif, Tis, Tid, Tiff⟩⟩ := Tin hcb
      obtain ⟨Au1, Au2, Anone, Asite, ⟨arecs, Aif, Ais, Aid, Aiff⟩⟩ := Ain hcb
      refine ⟨?_, ?_, ?_, ?_, ?_⟩
      · -- events outside the fired window keep activity and schedule
        intro x hx
        by_cases hact : (tw.evs x).slot.isSome = true
        · have hs1 : (tw.evs x).scheduled_at ≠ tw.nows 0 + 1 := by
            intro hc
            exact hx ⟨hact, by omega, by omega⟩
          obtain ⟨e1, e2⟩ := Tu1 x (fun hc => hs1 hc.2)
          have hTx : ¬((T.evs x).slot.isSome = true ∧
              T.nows 0 < (T.evs x).scheduled_at ∧
              (T.evs x).scheduled_at ≤ T.nows 0 + d) := by
            rintro ⟨a1, a2, a3⟩
            rw [e2, T0] at a2 a3
            exact hx ⟨hact, by omega, by omega⟩
          obtain ⟨f1, f2⟩ := Au1 x hTx
          exact ⟨f1.trans (e1.trans (by rw [hact])), f2.trans e2⟩
        · have hactf : (tw.evs x).slot.isSome = false := by
            cases h : (tw.evs x).slot.isSome
            · rfl
            · exact absurd h hact
          obtain ⟨e1, e2⟩ := Tu1 x (fun hc => hact hc.1)
          have hTx : ¬((T.evs x).slot.isSome = true ∧
              T.nows 0 < (T.evs x).scheduled_at ∧
              (T.evs x).scheduled_at ≤ T.nows 0 + d) := by
            rintro ⟨a1, _, _⟩
            rw [e1, hactf] at a1
            exact Bool.false_ne_true a1
          obtain ⟨f1, f2⟩ := Au1 x hTx
          exact ⟨f1.trans e1, f2.trans e2⟩
      · -- events inside the window fire and detach
        intro x hact hlo hhi
        by_cases hs1 : (tw.evs x).scheduled_at = tw.nows 0 + 1
        · obtain ⟨e1, e2⟩ := Tu2 x hact hs1
          have hTact : (T.evs x).slot.isSome = false := by rw [e1]; rfl
          have hTx : ¬((T.evs x).slot.isSome = true ∧
              T.nows 0 < (T.evs x).scheduled_at ∧
              (T.evs x).scheduled_at ≤ T.nows 0 + d) := by
            rintro ⟨a1, _, _⟩
            rw [hTact] at a1
            exact Bool.false_ne_true a1
          obtain ⟨f1, f2⟩ := Au1 x hTx
          rw [hTact] at f1
          exact ⟨Option.not_isSome_iff_eq_none.mp (by rw [f1]; exact Bool.false_ne_true),
            f2.trans e2⟩
        · obtain ⟨e1, e2⟩ := Tu1 x (fun hc => hs1 hc.2)
          obtain ⟨f1, f2⟩ := Au2 x (by rw [e1, hact]) (by rw [e2, T0]; omega)
            (by rw [e2, T0]; omega)
          exact ⟨f1, f2.trans e2⟩
      · -- inactive events are untouched
        intro x hx
        have e1 := Tnone x hx
        have e2 := Anone x (by rw [e1]; exact hx)
        rw [e2, e1]
      · -- events whose slot is never drained are untouched
        intro x k i hx hsite
        have e1 := Tsite x k i hx (hsite (tw.nows 0 + 1) (by omega) (by omega))
        have e2 := Asite x k i (by rw [e1]; exact hx) ?_
        · rw [e2, e1]
        · intro t ht1 ht2
          rw [T0] at ht1 ht2
          exact hsite t (by omega) (by omega)
      · -- the fired log is exactly the due events, in order, once each
        refine ⟨trecs ++ arecs, by rw [Aif, Tif, List.append_assoc], ?_, ?_, ?_⟩
        · intro r hr
          rcases List.mem_append.mp hr with hr | hr
          · obtain ⟨a, b⟩ := Tis r hr
            rw [a, b]
          · exact Ais r hr
        · rw [List.map_append]
          refine List.Nodup.append Tid Aid ?_
          intro x hx1 hx2
          obtain ⟨a1, a2⟩ := (Tiff x).mp hx1
          obtain ⟨e1, e2⟩ := Tu2 x a1 a2
          obtain ⟨b1, _, _⟩ := (Aiff x).mp hx2
          rw [e1] at b1
          exact Bool.false_ne_true b1
        · intro x
          rw [List.map_append, List.mem_append, Tiff x, Aiff x]
          constructor
          · rintro (⟨a1, a2⟩ | ⟨b1, b2, b3⟩)
            · exact ⟨a1, by omega, by omega⟩
            · by_cases hact : (tw.evs x).slot.isSome = true
              · by_cases hs1 : (tw.evs x).scheduled_at = tw.nows 0 + 1
                · exact ⟨hact, by omega, by omega⟩
                · obtain ⟨e1, e2⟩ := Tu1 x (fun hc => hs1 hc.2)
                  rw [e2, T0] at b2 b3
                  exact ⟨hact, by omega, by omega⟩
              · exfalso
                obtain ⟨e1, e2⟩ := Tu1 x (fun hc => hact hc.1)
                rw [e1] at b1
                exact hact b1
          · rintro ⟨hact, hlo, hhi⟩
            by_cases hs1 : (tw.evs x).scheduled_at = tw.nows 0 + 1
            · exact Or.inl ⟨hact, hs1⟩
            · refine Or.inr ?_
              obtain ⟨e1, e2⟩ := Tu1 x (fun hc => hs1 hc.2)
              exact ⟨by rw [e1]; exact hact, by rw [e2, T0]; omega,
                by rw [e2, T0]; omega⟩

theorem advance_eq_loop (cb : Cb) (delta : Nat) (tw : TW) :
    TimerWheel.advance cb delta tw =
      advanceLoop cb (TimerWheel.advanceOn cb 7 1 1) 0 delta tw := rfl

/-- Engine states reachable from a fresh `TimerWheel()` by the public
operations, with the overflow-free side conditions under which the
claims are stated (64-bit ticks never wrap in any considered run). -/
inductive Reach : TW → Prop where
  | init : Reach (TimerWheel.init 0)
  | sched {tw : TW} (e : EventId) (d : Nat) : Reach tw → 1 ≤ d →
      tw.nows 0 + d < W → Reach (TimerWheel.schedule e d tw)
  | schedRange {tw : TW} (e : EventId) (s t : Nat) : Reach tw → 1 ≤ s → s < t →
      t < 2 ^ 56 → tw.nows 0 + t < W → Reach (TimerWheel.schedule_in_range e s t tw)
  | cancel {tw : TW} (e : EventId) : Reach tw → Reach (TimerEventInterface.cancel e tw)
  | advance {tw : TW} (cb : Cb) (d : Nat) : Reach tw → GoodCb cb →
      tw.nows 0 + d < W → Reach (TimerWheel.advance cb d tw)

theorem WheelInv_parts {tw : TW} (h : WheelInv tw) :
    tw.nows 0 < W ∧ Aligned tw ∧ WF tw ∧ ∀ k, k < 8 → WinS tw k := by
  obtain ⟨h1, h2, h3, h4, h5, h6, h7⟩ := h
  exact ⟨h1, h2, ⟨h3, h4, h5, h6⟩, fun k hk => h7 k (by simp only [NUM_LEVELS]; omega)⟩

theorem WheelInv_of_parts {tw : TW} (h1 : tw.nows 0 < W) (h2 : Aligned tw)
    (h3 : WF tw) (h4 : ∀ k, k < 8 → WinS tw k) : WheelInv tw :=
  ⟨h1, h2, h3.hB, h3.hN, h3.hM, h3.hP,
    fun k hk => h4 k (by simp only [NUM_LEVELS] at hk; omega)⟩

/-- The resting-state invariant holds in every reachable engine state. -/
theorem Reach_WheelInv {tw : TW} (h : Reach tw) : WheelInv tw := by
  induction h with
  | init => exact WheelInv_init
  | sched e d _ hd hov ih =>
    obtain ⟨hn, hal, hwf, hWS⟩ := WheelInv_parts ih
    obtain ⟨hnows, _, _, hwf', hWSs, _, _⟩ :=
      schedule_ActPres _ e d hn hal hd hov hwf
    refine WheelInv_of_parts (by rw [hnows]; exact hn) ?_ hwf' ?_
    · intro k hk
      rw [hnows]
      exact hal k hk
    · intro k hk
      exact hWSs k (hWS k hk)
  | schedRange e s t _ hs hst ht hov ih =>
    obtain ⟨hn, hal, hwf, hWS⟩ := WheelInv_parts ih
    obtain ⟨hnows, _, _, hwf', hWSs, _, _⟩ :=
      schedule_in_range_ActPres _ e s t hn hal hs hst ht hov hwf
    refine WheelInv_of_parts (by rw [hnows]; exact hn) ?_ hwf' ?_
    · intro k hk
      rw [hnows]
      exact hal k hk
    · intro k hk
      exact hWSs k (hWS k hk)
  | cancel e _ ih =>
    obtain ⟨hn, hal, hwf, hWS⟩ := WheelInv_parts ih
    obtain ⟨hnows, _, _, hwf', hWSs, _, _⟩ := cancel_ActPres _ e hwf
    refine WheelInv_of_parts (by rw [hnows]; exact hn) ?_ hwf' ?_
    · intro k hk
      rw [hnows]
      exact hal k hk
    · intro k hk
      exact hWSs k (hWS k hk)
  | advance cb d _ hGood hov ih =>
    obtain ⟨hn, hal, hwf, hWS⟩ := WheelInv_parts ih
    obtain ⟨h0, hal', hwf', hWS', _, _, _⟩ :=
      advanceLoop_spec cb hGood d _ hov hal hwf hWS
    rw [advance_eq_loop]
    exact WheelInv_of_parts (by rw [h0]; omega) hal' hwf' hWS'

/-- Every fire ever logged in a reachable run happened exactly at the
event's `scheduled_at`: `now()` during the callback equals the
`scheduled_at` recorded at the moment of firing. -/
theorem Reach_fired_on_time {tw : TW} (h : Reach tw) :
    ∀ r ∈ tw.fired, r.tick = r.sched := by
  induction h with
  | init =>
    intro r hr
    simp [TimerWheel.init] at hr
  | sched e d hre hd hov ih =>
    obtain ⟨hn, hal, hwf, _⟩ := WheelInv_parts (Reach_WheelInv hre)
    obtain ⟨_, _, _, _, _, _, _, hf, _, _, _, _, _, _, _⟩ :=
      schedule_spec _ e d hn hal hd hov hwf
    intro r hr
    rw [hf] at hr
    exact ih r hr
  | schedRange e s t hre hs hst ht hov ih =>
    obtain ⟨hn, hal, hwf, _⟩ := WheelInv_parts (Reach_WheelInv hre)
    obtain ⟨_, hf, _, _, _, _, _⟩ :=
      schedule_in_range_ActPres _ e s t hn hal hs hst ht hov hwf
    intro r hr
    rw [hf] at hr
    exact ih r hr
  | cancel e hre ih =>
    intro r hr
    rw [cancel_fired _ e] at hr
    exact ih r hr
  | advance cb d hre hGood hov ih =>
    obtain ⟨hn, hal, hwf, hWS⟩ := WheelInv_parts (Reach_WheelInv hre)
    obtain ⟨_, _, _, _, ⟨recs, hf, hr1, _⟩, _, _⟩ :=
      advanceLoop_spec cb hGood d _ hov hal hwf hWS
    intro r hr
    rw [advance_eq_loop] at hr
    rw [hf] at hr
    rcases List.mem_append.mp hr with hr | hr
    · exact ih r hr
    · exact ((hr1 r hr).2.2).symm

/-- The `promos` ghost log records every unsigned subtraction
`scheduled_at() - now` an outer drain loop ever evaluated: in reachable
runs the subtrahend is always strictly below the minuend, which is
below `2^64`, so the subtraction never wraps and the delta passed to
the core `schedule` is at least 1. -/
theorem Reach_promos_safe {tw : TW} (h : Reach tw) :
    ∀ p ∈ tw.promos, p.2.2 < p.2.1 ∧ p.2.1 < W := by
  induction h with
  | init =>
    intro p hp
    simp [TimerWheel.init] at hp
  | sched e d hre hd hov ih =>
    obtain ⟨hn, hal, hwf, _⟩ := WheelInv_parts (Reach_WheelInv hre)
    obtain ⟨_, _, _, _, _, _, _, _, hp, _, _, _, _, _, _⟩ :=
      schedule_spec _ e d hn hal hd hov hwf
    intro p hpm
    rw [hp] at hpm
    exact ih p hpm
  | schedRange e s t hre hs hst ht hov ih =>
    obtain ⟨hn, hal, hwf, _⟩ := WheelInv_parts (Reach_WheelInv hre)
    obtain ⟨_, _, hp, _, _, _, _⟩ :=
      schedule_in_range_ActPres _ e s t hn hal hs hst ht hov hwf
    intro p hpm
    rw [hp] at hpm
    exact ih p hpm
  | cancel e hre ih =>
    intro p hpm
    rw [cancel_promos _ e] at hpm
    exact ih p hpm
  | advance cb d hre hGood hov ih =>
    obtain ⟨hn, hal, hwf, hWS⟩ := WheelInv_parts (Reach_WheelInv hre)
    obtain ⟨_, _, _, _, _, ⟨ps, hp, hpp⟩, _⟩ :=
      advanceLoop_spec cb hGood d _ hov hal hwf hWS
    intro p hpm
    rw [advance_eq_loop] at hpm
    rw [hp] at hpm
    rcases List.mem_append.mp hpm with hpm | hpm
    · exact ih p hpm
    · obtain ⟨_, _, h3, h4⟩ := hpp p hpm
      exact ⟨h3, h4⟩

/-- C7: within one `advance` call, fired events obey tick order — the
fire log of the call is sorted by tick, and every event scheduled for
tick `T` is executed before any event scheduled for `T + 1` (records
with equal ticks are adjacent and ordered ≤) — and during each
callback `now()` (the `tick` field of the fire record) equals the tick
the event was scheduled for, not the caller's final target. -/
theorem C7_tick_order (cb : Cb) (tw : TW) (delta : Nat)
    (hGood : GoodCb cb) (hre : Reach tw) (hov : tw.nows 0 + delta < W) :
    ∃ recs, (TimerWheel.advance cb delta tw).fired = tw.fired ++ recs ∧
      recs.Pairwise (fun a b => a.tick ≤ b.tick) ∧
      ∀ r ∈ recs, r.tick = r.sched := by
  obtain ⟨hn, hal, hwf, hWS⟩ := WheelInv_parts (Reach_WheelInv hre)
  obtain ⟨_, _, _, _, ⟨recs, hf, hr, hpw⟩, _, _⟩ :=
    advanceLoop_spec cb hGood delta tw hov hal hwf hWS
  rw [advance_eq_loop]
  exact ⟨recs, hf, hpw, fun r hrr => ((hr r hrr).2.2).symm⟩

theorem C7_tick_order_witness :
    ∃ recs, (TimerWheel.advance cbInert 3 (TimerWheel.init 0)).fired =
        (TimerWheel.init 0).fired ++ recs ∧
      recs.Pairwise (fun a b => a.tick ≤ b.tick) ∧
      ∀ r ∈ recs, r.tick = r.sched :=
  C7_tick_order cbInert (TimerWheel.init 0) 3 cbInert_good Reach.init (by decide)

/-- C8: under every reachable run — arbitrary interleavings of
`schedule`, `schedule_in_range`, `cancel` and `advance`, including
engine calls made from inside event callbacks — no event's callback
ever runs at a core tick earlier than the `scheduled_at` recorded at
the moment it fires: in fact every fire happens exactly at it. -/
theorem C8_never_fires_early (tw : TW) (hre : Reach tw) :
    ∀ r ∈ tw.fired, ¬ r.tick < r.sched ∧ r.tick = r.sched := by
  intro r hr
  have h := Reach_fired_on_time hre r hr
  exact ⟨by omega, h⟩

theorem C8_never_fires_early_witness :
    ¬ (FireRec.mk 1 5 5 0).tick < (FireRec.mk 1 5 5 0).sched ∧
      (FireRec.mk 1 5 5 0).tick = (FireRec.mk 1 5 5 0).sched :=
  C8_never_fires_early
    (TimerWheel.advance cbInert 6 (TimerWheel.schedule 1 5 (TimerWheel.init 0)))
    (Reach.advance cbInert 6 (Reach.sched 1 5 Reach.init (by decide) (by decide))
      cbInert_good (by decide))
    (FireRec.mk 1 5 5 0) (by decide)

/-- C9: in every engine state reachable by the public operations from a
fresh engine (constructed at the default initial tick 0): every active
event in the core wheel is scheduled no earlier than `now` and less
than 256 ticks ahead; every active event on the wheel at level `L`
occupies the slot indexed `(scheduled_at >> (8·L)) & 0xFF`; and each
active event appears in exactly one slot of exactly one wheel, while an
inactive event appears in none. -/
theorem C9_resting_invariants (tw : TW) (hre : Reach tw) :
    (∀ e i, (tw.evs e).slot = some (0, i) →
      tw.nows 0 ≤ (tw.evs e).scheduled_at ∧
      (tw.evs e).scheduled_at - tw.nows 0 < 256) ∧
    (∀ e L i, (tw.evs e).slot = some (L, i) →
      ((tw.evs e).scheduled_at >>> (8 * L)) &&& 255 = i) ∧
    (∀ e L i, (tw.evs e).slot = some (L, i) →
      e ∈ tw.slots L i ∧ ∀ a b, e ∈ tw.slots a b → a = L ∧ b = i) ∧
    (∀ e, (tw.evs e).slot = none → ∀ a b, e ∉ tw.slots a b) := by
  obtain ⟨hn, hal, hwf, hWS⟩ := WheelInv_parts (Reach_WheelInv hre)
  refine ⟨?_, ?_, ?_, ?_⟩
  · intro e i he
    obtain ⟨w1, w2⟩ := hWS 0 (by omega) e i he
    exact ⟨by omega, by omega⟩
  · intro e L i he
    have hpl := (hwf.hP e L i he).2.2
    rw [Nat.shiftRight_eq_div_pow,
      show (255:Nat) = 2 ^ 8 - 1 from rfl, Nat.land_two_pow_sub_one]
    exact hpl.symm
  · intro e L i he
    refine ⟨hwf.hM e L i he, ?_⟩
    intro a b hm
    have := hwf.hB a b e hm
    rw [he] at this
    injection this with h
    exact ⟨(congrArg Prod.fst h).symm, (congrArg Prod.snd h).symm⟩
  · intro e he a b hm
    have := hwf.hB a b e hm
    rw [he] at this
    cases this

theorem C9_resting_invariants_witness :
    (∀ e i, (((TimerWheel.schedule 1 5 (TimerWheel.init 0)).evs e).slot = some (0, i) →
      (TimerWheel.schedule 1 5 (TimerWheel.init 0)).nows 0 ≤
        ((TimerWheel.schedule 1 5 (TimerWheel.init 0)).evs e).scheduled_at ∧
      ((TimerWheel.schedule 1 5 (TimerWheel.init 0)).evs e).scheduled_at -
        (TimerWheel.schedule 1 5 (TimerWheel.init 0)).nows 0 < 256)) ∧
    (∀ e L i, (((TimerWheel.schedule 1 5 (TimerWheel.init 0)).evs e).slot = some (L, i) →
      (((TimerWheel.schedule 1 5 (TimerWheel.init 0)).evs e).scheduled_at >>> (8 * L)) &&&
        255 = i)) ∧
    (∀ e L i, (((TimerWheel.schedule 1 5 (TimerWheel.init 0)).evs e).slot = some (L, i) →
      e ∈ (TimerWheel.schedule 1 5 (TimerWheel.init 0)).slots L i ∧
      ∀ a b, e ∈ (TimerWheel.schedule 1 5 (TimerWheel.init 0)).slots a b →
        a = L ∧ b = i)) ∧
    (∀ e, ((TimerWheel.schedule 1 5 (TimerWheel.init 0)).evs e).slot = none →
      ∀ a b, e ∉ (TimerWheel.schedule 1 5 (TimerWheel.init 0)).slots a b) :=
  C9_resting_invariants _ (Reach.sched 1 5 Reach.init (by decide) (by decide))

/-- C9, counterexample part: the public constructor takes an arbitrary
initial tick (`TimerWheel(Tick now = 0)`); for an engine constructed at
tick 512, one `schedule` already violates the claimed outer-wheel
placement `(scheduled_at >> 8L) & 0xFF == slot_index`, because outer
wheels always start at `now_ = 0` and slot indices are computed from
`now_ + delta`, not from `scheduled_at`. -/
theorem C9_placement_counterexample :
    ((TimerWheel.schedule 1 300 (TimerWheel.init 512)).evs 1).slot = some (1, 1) ∧
    (((TimerWheel.schedule 1 300 (TimerWheel.init 512)).evs 1).scheduled_at >>> (8 * 1))
      &&& 255 = 3 := by
  decide

/-- C10: in `advance`'s drain of an outer-wheel slot, a popped event is
executed immediately whenever `scheduled_at ≤ now` — not only when the
residual is zero; the unsigned subtraction `scheduled_at() - now` is
evaluated only in the other branch, where `now < scheduled_at`, so in
reachable runs it never wraps and the delta it passes to the core
`schedule` is at least 1 (third conjunct: a concrete run of the
promotion branch). -/
theorem C10_outer_drain_guard :
    (∀ (cb : Cb) (ℓ i : Nat) (e : EventId) (tw : TW), ℓ ≠ 0 →
      ((TimerWheelSlot.pop_event ℓ i tw).evs e).scheduled_at ≤
        (TimerWheelSlot.pop_event ℓ i tw).nows 0 →
      drainStep cb ℓ i e tw = execute cb ℓ e (TimerWheelSlot.pop_event ℓ i tw)) ∧
    (∀ tw, Reach tw → ∀ p ∈ tw.promos,
      p.2.2 < p.2.1 ∧ p.2.1 < W ∧
      usub p.2.1 p.2.2 = p.2.1 - p.2.2 ∧ 1 ≤ usub p.2.1 p.2.2) ∧
    ((drainStep cbInert 1 1 1 (TimerWheel.schedule 1 300 (TimerWheel.init 0))).promos =
      [(1, 300, 0)] ∧ usub 300 0 = 300) := by
  refine ⟨?_, ?_, by decide⟩
  · intro cb ℓ i e tw hℓ hge
    have hstep : drainStep cb ℓ i e tw =
        if ℓ = 0 then execute cb 0 e (TimerWheelSlot.pop_event ℓ i tw)
        else if (TimerWheelSlot.pop_event ℓ i tw).nows 0 ≥
            ((TimerWheelSlot.pop_event ℓ i tw).evs e).scheduled_at then
          execute cb ℓ e (TimerWheelSlot.pop_event ℓ i tw)
        else TimerWheel.schedule e
          (usub ((TimerWheelSlot.pop_event ℓ i tw).evs e).scheduled_at
            ((TimerWheelSlot.pop_event ℓ i tw).nows 0))
          { TimerWheelSlot.pop_event ℓ i tw with
            promos := (TimerWheelSlot.pop_event ℓ i tw).promos ++
              [(e, ((TimerWheelSlot.pop_event ℓ i tw).evs e).scheduled_at,
                (TimerWheelSlot.pop_event ℓ i tw).nows 0)] } := rfl
    rw [hstep, if_neg hℓ, if_pos hge]
  · intro tw hre p hp
    obtain ⟨h1, h2⟩ := Reach_promos_safe hre p hp
    refine ⟨h1, h2, usub_exact (by omega) h2, ?_⟩
    rw [usub_exact (by omega) h2]
    omega

theorem C10_outer_drain_guard_witness :
    (1 : Nat) ≠ 0 ∧
    drainStep cbInert 1 0 5 (TimerWheel.init 0) =
      execute cbInert 1 5 (TimerWheelSlot.pop_event 1 0 (TimerWheel.init 0)) :=
  ⟨by decide,
    C10_outer_drain_guard.1 cbInert 1 0 5 (TimerWheel.init 0) (by decide) (by decide)⟩

/-- C1: one call to `advance(delta)` brings `now()` to `old_now + delta`
and only executes events at their exact due ticks inside
`(old_now, old_now + delta]` (this also covers events scheduled into the
interval by callbacks: they fire at their tick, once per scheduling,
as each fire pops the event); with no re-entrant scheduling the fired
set is exactly the active events with `scheduled_at` in the interval,
each exactly once; and the basic-fire example behaves as claimed:
after `schedule(e, 5)`, `advance(4)` fires nothing, `advance(1)` fires
`e` once, and a further `advance(256)` fires nothing more. -/
theorem C1_advance_window :
    (∀ (cb : Cb) (tw : TW) (delta : Nat), GoodCb cb → Reach tw →
      tw.nows 0 + delta < W →
      (TimerWheel.advance cb delta tw).nows 0 = tw.nows 0 + delta ∧
      ∃ recs, (TimerWheel.advance cb delta tw).fired = tw.fired ++ recs ∧
        ∀ r ∈ recs, tw.nows 0 < r.tick ∧ r.tick ≤ tw.nows 0 + delta ∧
          r.sched = r.tick) ∧
    (∀ (tw : TW) (delta : Nat), Reach tw → tw.nows 0 + delta < W →
      ∃ recs, (TimerWheel.advance cbInert delta tw).fired = tw.fired ++ recs ∧
        (recs.map FireRec.ev).Nodup ∧
        (∀ x, x ∈ recs.map FireRec.ev ↔
          (tw.evs x).slot.isSome = true ∧ tw.nows 0 < (tw.evs x).scheduled_at ∧
          (tw.evs x).scheduled_at ≤ tw.nows 0 + delta)) ∧
    ((TimerWheel.advance cbInert 4
        (TimerWheel.schedule 1 5 (TimerWheel.init 0))).fired = [] ∧
      (TimerWheel.advance cbInert 1 (TimerWheel.advance cbInert 4
        (TimerWheel.schedule 1 5 (TimerWheel.init 0)))).fired = [⟨1, 5, 5, 0⟩] ∧
      (TimerWheel.advance cbInert 256 (TimerWheel.advance cbInert 1
        (TimerWheel.advance cbInert 4
          (TimerWheel.schedule 1 5 (TimerWheel.init 0))))).fired = [⟨1, 5, 5, 0⟩]) := by
  refine ⟨?_, ?_, by decide, by decide, ?_⟩
  · intro cb tw delta hGood hre hov
    obtain ⟨hn, hal, hwf, hWS⟩ := WheelInv_parts (Reach_WheelInv hre)
    obtain ⟨h0, _, _, _, ⟨recs, hf, hr, _⟩, _, _⟩ :=
      advanceLoop_spec cb hGood delta tw hov hal hwf hWS
    rw [advance_eq_loop]
    refine ⟨h0, recs, hf, ?_⟩
    intro r hrr
    exact hr r hrr
  · intro tw delta hre hov
    obtain ⟨hn, hal, hwf, hWS⟩ := WheelInv_parts (Reach_WheelInv hre)
    obtain ⟨_, _, _, _, _, _, hin⟩ :=
      advanceLoop_spec cbInert cbInert_good delta tw hov hal hwf hWS
    obtain ⟨_, _, _, _, ⟨recs, hf, _, hd, hiff⟩⟩ := hin rfl
    rw [advance_eq_loop]
    exact ⟨recs, hf, hd, hiff⟩
  · -- a further advance(256) fires nothing more
    have hre5 : Reach (TimerWheel.advance cbInert 1 (TimerWheel.advance cbInert 4
        (TimerWheel.schedule 1 5 (TimerWheel.init 0)))) :=
      Reach.advance cbInert 1
        (Reach.advance cbInert 4
          (Reach.sched 1 5 Reach.init (by decide) (by decide)) cbInert_good (by decide))
        cbInert_good (by decide)
    obtain ⟨hn, hal, hwf, hWS⟩ := WheelInv_parts (Reach_WheelInv hre5)
    obtain ⟨_, _, _, _, _, _, hin⟩ :=
      advanceLoop_spec cbInert cbInert_good 256 _ (by decide) hal hwf hWS
    obtain ⟨_, _, _, _, ⟨recs, hf, _, _, hiff⟩⟩ := hin rfl
    have hnone : ∀ x, (((TimerWheel.advance cbInert 1 (TimerWheel.advance cbInert 4
        (TimerWheel.schedule 1 5 (TimerWheel.init 0))))).evs x).slot = none := by
      intro x
      by_cases hx1 : x = 1
      · subst hx1
        decide
      · -- an event that was never scheduled is inactive throughout
        obtain ⟨_, _, _, _, _, _, _, _, _, _, hevso, _, _, _, _⟩ :=
          schedule_spec (TimerWheel.init 0) 1 5 (by decide) WheelInv_init.2.1
            (by decide) (by decide) (WheelInv_WF WheelInv_init)
        have h0 : ((TimerWheel.schedule 1 5 (TimerWheel.init 0)).evs x).slot = none := by
          rw [hevso x hx1]
          rfl
        have hre1 : Reach (TimerWheel.schedule 1 5 (TimerWheel.init 0)) :=
          Reach.sched 1 5 Reach.init (by decide) (by decide)
        obtain ⟨_, hal1, hwf1, hWS1⟩ := WheelInv_parts (Reach_WheelInv hre1)
        obtain ⟨_, _, _, _, _, _, hin1⟩ :=
          advanceLoop_spec cbInert cbInert_good 4 _ (by decide) hal1 hwf1 hWS1
        obtain ⟨_, _, hnone1, _, _⟩ := hin1 rfl
        have h4 : ((TimerWheel.advance cbInert 4
            (TimerWheel.schedule 1 5 (TimerWheel.init 0))).evs x).slot = none := by
          rw [advance_eq_loop, hnone1 x h0, h0]
        have hre4 : Reach (TimerWheel.advance cbInert 4
            (TimerWheel.schedule 1 5 (TimerWheel.init 0))) :=
          Reach.advance cbInert 4 hre1 cbInert_good (by decide)
        obtain ⟨_, hal4, hwf4, hWS4⟩ := WheelInv_parts (Reach_WheelInv hre4)
        obtain ⟨_, _, _, _, _, _, hin4⟩ :=
          advanceLoop_spec cbInert cbInert_good 1 _ (by decide) hal4 hwf4 hWS4
        obtain ⟨_, _, hnone4, _, _⟩ := hin4 rfl
        rw [advance_eq_loop, hnone4 x h4, h4]
    have hmap : recs.map FireRec.ev = [] := by
      rw [List.eq_nil_iff_forall_not_mem]
      intro x hx
      have h := (hiff x).mp hx
      rw [hnone x] at h
      exact Bool.false_ne_true h.1
    have hrecs : recs = [] := List.map_eq_nil_iff.mp hmap
    rw [← advance_eq_loop] at hf
    rw [hf, hrecs, List.append_nil]
    decide

/-- Witness for C1: instantiating the advance-window theorem on an empty
engine advanced by 3 ticks. -/
theorem C1_advance_window_witness :
    (TimerWheel.advance cbInert 3 (TimerWheel.init 0)).nows 0 =
      (TimerWheel.init 0).nows 0 + 3 ∧
    ∃ recs, (TimerWheel.advance cbInert 3 (TimerWheel.init 0)).fired =
        (TimerWheel.init 0).fired ++ recs ∧
      ∀ r ∈ recs, (TimerWheel.init 0).nows 0 < r.tick ∧
        r.tick ≤ (TimerWheel.init 0).nows 0 + 3 ∧ r.sched = r.tick :=
  C1_advance_window.1 cbInert (TimerWheel.init 0) 3 cbInert_good Reach.init (by decide)

/-- C5: rescheduling replaces. For every reachable engine, event `e` and
deltas `a, b >= 1` (with `now + a` and `now + b` representable),
`schedule(e, a)` followed by `schedule(e, b)` produces a state whose
per-event records and slot memberships coincide with those of
`schedule(e, b)` alone — in particular `e` occupies only the slot
determined by the second call — and when `b > a`, a subsequent
`advance(a)` (with inert callbacks) fires no new record for `e`. -/
theorem C5_reschedule_replaces (tw : TW) (e : EventId) (a b : Nat)
    (hre : Reach tw) (ha : 1 ≤ a) (hb : 1 ≤ b)
    (hova : tw.nows 0 + a < W) (hovb : tw.nows 0 + b < W) :
    (∀ x, (TimerWheel.schedule e b (TimerWheel.schedule e a tw)).evs x =
      (TimerWheel.schedule e b tw).evs x) ∧
    (∀ L i x, x ∈ (TimerWheel.schedule e b (TimerWheel.schedule e a tw)).slots L i ↔
      x ∈ (TimerWheel.schedule e b tw).slots L i) ∧
    (a < b → ∃ recs,
      (TimerWheel.advance cbInert a
          (TimerWheel.schedule e b (TimerWheel.schedule e a tw))).fired =
        (TimerWheel.schedule e b (TimerWheel.schedule e a tw)).fired ++ recs ∧
      ∀ r ∈ recs, r.ev ≠ e) := by
  obtain ⟨hn, hal, hwf, hWS⟩ := WheelInv_parts (Reach_WheelInv hre)
  obtain ⟨La, hLa8, _, _, _, _, hnowsA, hfA, hpA, hevseA, hevsoA, hmemA, hwfA, _, _⟩ :=
    schedule_spec tw e a hn hal ha hova hwf
  have hreI : Reach (TimerWheel.schedule e a tw) := Reach.sched e a hre ha hova
  obtain ⟨hnI, halI, hwfI, hWSI⟩ := WheelInv_parts (Reach_WheelInv hreI)
  have hovbI : (TimerWheel.schedule e a tw).nows 0 + b < W := by
    rw [hnowsA]; exact hovb
  obtain ⟨Lb1, hLb18, _, _, hw1A, hw2A, hnowsB1, hfB1, hpB1, hevseB1, hevsoB1, hmemB1,
    hwfB1, _, hminB1⟩ :=
    schedule_spec (TimerWheel.schedule e a tw) e b hnI halI hb hovbI hwfI
  obtain ⟨Lb2, hLb28, _, _, hw1B, hw2B, hnowsB2, hfB2, hpB2, hevseB2, hevsoB2, hmemB2,
    hwfB2, _, hminB2⟩ :=
    schedule_spec tw e b hn hal hb hovb hwf
  rw [hnowsA] at hw1A hw2A hnowsB1 hevseB1 hmemB1 hminB1
  have hLeq : Lb1 = Lb2 := by
    rcases Nat.lt_trichotomy Lb1 Lb2 with h | h | h
    · have := hminB2 Lb1 h
      omega
    · exact h
    · have := hminB1 Lb2 h
      omega
  subst hLeq
  refine ⟨?_, ?_, ?_⟩
  · intro x
    by_cases hxe : x = e
    · subst hxe
      rw [hevseB1, hevseB2]
    · rw [hevsoB1 x hxe, hevsoB2 x hxe, hevsoA x hxe]
  · intro L i x
    rw [hmemB1 L i x, hmemB2 L i x]
    constructor
    · rintro (h | ⟨hxe, hx⟩)
      · exact Or.inl h
      · rcases (hmemA L i x).mp hx with ⟨he, _⟩ | ⟨_, hx'⟩
        · exact absurd he hxe
        · exact Or.inr ⟨hxe, hx'⟩
    · rintro (h | ⟨hxe, hx⟩)
      · exact Or.inl h
      · exact Or.inr ⟨hxe, (hmemA L i x).mpr (Or.inr ⟨hxe, hx⟩)⟩
  · intro hab
    have hreC : Reach (TimerWheel.schedule e b (TimerWheel.schedule e a tw)) :=
      Reach.sched e b hreI hb hovbI
    obtain ⟨hnC, halC, hwfC, hWSC⟩ := WheelInv_parts (Reach_WheelInv hreC)
    have hovaC : (TimerWheel.schedule e b (TimerWheel.schedule e a tw)).nows 0 + a < W := by
      rw [hnowsB1]; exact hova
    obtain ⟨_, _, _, _, _, _, hin⟩ :=
      advanceLoop_spec cbInert cbInert_good a _ hovaC halC hwfC hWSC
    obtain ⟨_, _, _, _, ⟨recs, hf, _, _, hiff⟩⟩ := hin rfl
    rw [← advance_eq_loop] at hf
    refine ⟨recs, hf, ?_⟩
    intro r hr hre'
    have hx : r.ev ∈ recs.map FireRec.ev := List.mem_map_of_mem FireRec.ev hr
    rw [hre'] at hx
    have h := (hiff e).mp hx
    rw [hnowsB1, hevseB1] at h
    have h22 : tw.nows 0 + b ≤ tw.nows 0 + a := h.2.2
    omega

/-- Witness for C5: a concrete reschedule of event 1 from delta 5 to
delta 7 on an empty engine. -/
theorem C5_reschedule_replaces_witness :
    (∀ x, (TimerWheel.schedule 1 7 (TimerWheel.schedule 1 5 (TimerWheel.init 0))).evs x =
      (TimerWheel.schedule 1 7 (TimerWheel.init 0)).evs x) ∧
    (∀ L i x,
      x ∈ (TimerWheel.schedule 1 7 (TimerWheel.schedule 1 5 (TimerWheel.init 0))).slots L i ↔
      x ∈ (TimerWheel.schedule 1 7 (TimerWheel.init 0)).slots L i) ∧
    (5 < 7 → ∃ recs,
      (TimerWheel.advance cbInert 5
          (TimerWheel.schedule 1 7 (TimerWheel.schedule 1 5 (TimerWheel.init 0)))).fired =
        (TimerWheel.schedule 1 7 (TimerWheel.schedule 1 5 (TimerWheel.init 0))).fired ++
          recs ∧
      ∀ r ∈ recs, r.ev ≠ 1) :=
  C5_reschedule_replaces (TimerWheel.init 0) 1 5 7 Reach.init (by decide) (by decide)
    (by decide) (by decide)

theorem list_singleton_of {l : List EventId} (hd : l.Nodup) {a : EventId}
    (ha : a ∈ l) (hu : ∀ x ∈ l, x = a) : l = [a] := by
  cases l with
  | nil => exact absurd ha (List.not_mem_nil a)
  | cons b t =>
    have hb : b = a := hu b (List.mem_cons_self b t)
    subst hb
    have ht : t = [] := by
      rw [List.eq_nil_iff_forall_not_mem]
      intro x hx
      have hxb := hu x (List.mem_cons_of_mem b hx)
      rw [hxb] at hx
      exact (List.nodup_cons.mp hd).1 hx
    rw [ht]

/-- Definitional unfolding of one `ttneScan` iteration, with the local
lets expanded. -/
theorem ttneScan_succ_eq (tw : TW) (L now m i c : Nat) :
    TimerWheel.ttneScan tw L now m i (c + 1) =
      (match tw.slots L (((tw.nows L + 1 + i) % W) &&& MASK) with
       | [] => TimerWheel.ttneScan tw L now
           (if ((tw.nows L + 1 + i) % W) &&& MASK = 0 ∧ L + 1 < NUM_LEVELS ∧
               (L ≠ 0 ∨ tw.slots L 0 = []) then
             slotMinFrom tw now
               (tw.slots (L + 1) (((tw.nows (L + 1) + 1) % W) &&& MASK)) m
           else m) (i + 1) c
       | e :: rest =>
         if L = 0 then
           some (min (if ((tw.nows L + 1 + i) % W) &&& MASK = 0 ∧ L + 1 < NUM_LEVELS ∧
               (L ≠ 0 ∨ tw.slots L 0 = []) then
             slotMinFrom tw now
               (tw.slots (L + 1) (((tw.nows (L + 1) + 1) % W) &&& MASK)) m
           else m) (usub (tw.evs e).scheduled_at now))
         else some (slotMinFrom tw now (e :: rest)
           (if ((tw.nows L + 1 + i) % W) &&& MASK = 0 ∧ L + 1 < NUM_LEVELS ∧
               (L ≠ 0 ∨ tw.slots L 0 = []) then
             slotMinFrom tw now
               (tw.slots (L + 1) (((tw.nows (L + 1) + 1) % W) &&& MASK)) m
           else m))) := rfl

/-- One iteration of the `ticks_to_next_event` scan on the core wheel at
the slot-0 crossing: the core's slot 0 is empty so the level-1 peek
happens, the peeked slot is empty, the core's slot 0 yields nothing, and
the scan moves on. -/
theorem ttneScan_skip0_core (tw : TW) (now m i c : Nat)
    (hj : ((tw.nows 0 + 1 + i) % W) &&& MASK = 0)
    (h00 : tw.slots 0 0 = [])
    (hpk : tw.slots 1 (((tw.nows 1 + 1) % W) &&& MASK) = []) :
    TimerWheel.ttneScan tw 0 now m i (c + 1) =
      TimerWheel.ttneScan tw 0 now m (i + 1) c := by
  rw [ttneScan_succ_eq, hj, h00]
  simp only [Nat.zero_add]
  rw [hpk]
  simp only [slotMinFrom, ite_self]

/-- One iteration of the scan on the core wheel at an empty slot other
than slot 0: no peek, nothing found, move on. -/
theorem ttneScan_skip_core (tw : TW) (now m i c j : Nat)
    (hj : ((tw.nows 0 + 1 + i) % W) &&& MASK = j) (hj0 : ¬j = 0)
    (hsl : tw.slots 0 j = []) :
    TimerWheel.ttneScan tw 0 now m i (c + 1) =
      TimerWheel.ttneScan tw 0 now m (i + 1) c := by
  rw [ttneScan_succ_eq, hj, hsl, if_neg (fun hc => hj0 hc.1)]

/-- One iteration of the scan on the core wheel at a non-empty slot
other than slot 0: the core returns immediately with the first event's
residual folded into the running minimum. -/
theorem ttneScan_hit_core (tw : TW) (now m i c j : Nat) (e : EventId)
    (rest : List EventId)
    (hj : ((tw.nows 0 + 1 + i) % W) &&& MASK = j) (hj0 : ¬j = 0)
    (hsl : tw.slots 0 j = e :: rest) :
    TimerWheel.ttneScan tw 0 now m i (c + 1) =
      some (min m (usub (tw.evs e).scheduled_at now)) := by
  rw [ttneScan_succ_eq, hj, hsl, if_neg (fun hc => hj0 hc.1)]
  rfl

/-- The state exhibiting the `ticks_to_next_event` divergence: event 2
parked two wheel levels out (level 2, slot 1, due at tick 65536 — one
tick away), event 1 in the core wheel five ticks away. -/
def C3state : TW :=
  TimerWheel.schedule 1 5 (TimerWheel.advance cbInert 65535
    (TimerWheel.schedule 2 65536 (TimerWheel.init 0)))

theorem C3state_facts :
    Reach C3state ∧
    C3state.nows 0 = 65535 ∧ C3state.nows 1 = 255 ∧
    C3state.evs 1 = ⟨65540, some (0, 4)⟩ ∧
    C3state.evs 2 = ⟨65536, some (2, 1)⟩ ∧
    (∀ x, ¬x = 1 → ¬x = 2 → (C3state.evs x).slot = none) := by
  unfold C3state
  have hre1 : Reach (TimerWheel.schedule 2 65536 (TimerWheel.init 0)) :=
    Reach.sched 2 65536 Reach.init (by decide) (by decide)
  obtain ⟨hn0, hal0, hwf0, hWS0⟩ := WheelInv_parts (Reach_WheelInv Reach.init)
  obtain ⟨Lf, hLf8, _, _, hw1, hw2, hnows1, _, _, hevse1, hevso1, _, _, _, _⟩ :=
    schedule_spec (TimerWheel.init 0) 2 65536 hn0 hal0 (by decide) (by decide) hwf0
  have hLf2 : Lf = 2 := by
    interval_cases Lf <;> first | rfl | (exfalso; revert hw1 hw2; decide)
  subst hLf2
  have hE2 : (TimerWheel.schedule 2 65536 (TimerWheel.init 0)).evs 2 =
      ⟨65536, some (2, 1)⟩ := by
    rw [hevse1]
    decide
  have hEo : ∀ x, ¬x = 2 →
      (TimerWheel.schedule 2 65536 (TimerWheel.init 0)).evs x = ⟨0, none⟩ := by
    intro x hx
    rw [hevso1 x hx]
    rfl
  obtain ⟨hn1, hal1, hwf1, hWS1⟩ := WheelInv_parts (Reach_WheelInv hre1)
  have hov1 : (TimerWheel.schedule 2 65536 (TimerWheel.init 0)).nows 0 + 65535 < W := by
    rw [hnows1]; decide
  obtain ⟨h20, hal2', _, _, _, _, hin⟩ :=
    advanceLoop_spec cbInert cbInert_good 65535
      (TimerWheel.schedule 2 65536 (TimerWheel.init 0)) hov1 hal1 hwf1 hWS1
  obtain ⟨_, _, hnonep, hsitep, _⟩ := hin rfl
  rw [← advance_eq_loop] at h20 hnonep hsitep
  have hT2n0 : (TimerWheel.advance cbInert 65535
      (TimerWheel.schedule 2 65536 (TimerWheel.init 0))).nows 0 = 65535 := by
    rw [h20, hnows1]
    decide
  have hT2e2 : (TimerWheel.advance cbInert 65535
      (TimerWheel.schedule 2 65536 (TimerWheel.init 0))).evs 2 = ⟨65536, some (2, 1)⟩ := by
    rw [hsitep 2 2 1 (by rw [hE2]) ?_, hE2]
    intro t h1 h2
    rw [hnows1] at h1 h2
    have h1' : 0 < t := h1
    have h2' : t ≤ 65535 := h2
    rintro ⟨hm, -⟩
    rw [show (2 : Nat) ^ (8 * 2) = 65536 from rfl] at hm
    omega
  have hT2none : ∀ x, ¬x = 2 → (TimerWheel.advance cbInert 65535
      (TimerWheel.schedule 2 65536 (TimerWheel.init 0))).evs x = ⟨0, none⟩ := by
    intro x hx
    have hsl : ((TimerWheel.schedule 2 65536 (TimerWheel.init 0)).evs x).slot = none := by
      rw [hEo x hx]
    rw [hnonep x hsl, hEo x hx]
  have hre2 : Reach (TimerWheel.advance cbInert 65535
      (TimerWheel.schedule 2 65536 (TimerWheel.init 0))) :=
    Reach.advance cbInert 65535 hre1 cbInert_good hov1
  obtain ⟨hn2, hal2, hwf2, hWS2⟩ := WheelInv_parts (Reach_WheelInv hre2)
  have hov2 : (TimerWheel.advance cbInert 65535
      (TimerWheel.schedule 2 65536 (TimerWheel.init 0))).nows 0 + 5 < W := by
    rw [hT2n0]; decide
  obtain ⟨Lg, hLg8, hcoreg, _, _, _, hnowsS, _, _, hevseS, hevsoS, _, _, _, _⟩ :=
    schedule_spec (TimerWheel.advance cbInert 65535
      (TimerWheel.schedule 2 65536 (TimerWheel.init 0))) 1 5 hn2 hal2 (by decide) hov2 hwf2
  have hLg0 : Lg = 0 := hcoreg (by decide)
  subst hLg0
  have hreS : Reach (TimerWheel.schedule 1 5 (TimerWheel.advance cbInert 65535
      (TimerWheel.schedule 2 65536 (TimerWheel.init 0)))) :=
    Reach.sched 1 5 hre2 (by decide) hov2
  have hSn0 : (TimerWheel.schedule 1 5 (TimerWheel.advance cbInert 65535
      (TimerWheel.schedule 2 65536 (TimerWheel.init 0)))).nows 0 = 65535 := by
    rw [hnowsS]; exact hT2n0
  refine ⟨hreS, hSn0, ?_, ?_, ?_, ?_⟩
  · obtain ⟨_, halS, _, _⟩ := WheelInv_parts (Reach_WheelInv hreS)
    rw [halS 1 (by decide), hSn0]
    decide
  · rw [hevseS, hT2n0]
    decide
  · rw [hevsoS 2 (by decide), hT2e2]
  · intro x h1 h2
    rw [hevsoS x h1, hT2none x h2]

theorem C3state_slots :
    C3state.slots 0 0 = [] ∧ C3state.slots 0 1 = [] ∧ C3state.slots 0 2 = [] ∧
    C3state.slots 0 3 = [] ∧ C3state.slots 0 4 = [1] ∧ C3state.slots 1 0 = [] := by
  obtain ⟨hre, hn0, hn1, he1, he2, hno⟩ := C3state_facts
  obtain ⟨_, _, hwf, _⟩ := WheelInv_parts (Reach_WheelInv hre)
  have hempty : ∀ a b, (∀ x, ¬(C3state.evs x).slot = some (a, b)) →
      C3state.slots a b = [] := by
    intro a b h
    rw [List.eq_nil_iff_forall_not_mem]
    intro x hx
    exact h x (hwf.hB a b x hx)
  have hone : ∀ a b : Nat, ¬(some ((0 : Nat), (4 : Nat)) = some (a, b)) →
      ¬(some ((2 : Nat), (1 : Nat)) = some (a, b)) → C3state.slots a b = [] := by
    intro a b ha hb2
    apply hempty
    intro x
    by_cases h1 : x = 1
    · subst h1
      rw [he1]
      exact ha
    · by_cases h2 : x = 2
      · subst h2
        rw [he2]
        exact hb2
      · rw [hno x h1 h2]
        intro hc
        cases hc
  refine ⟨hone 0 0 (by decide) (by decide), hone 0 1 (by decide) (by decide),
    hone 0 2 (by decide) (by decide), hone 0 3 (by decide) (by decide), ?_,
    hone 1 0 (by decide) (by decide)⟩
  apply list_singleton_of (hwf.hN 0 4) (hwf.hM 1 0 4 (by rw [he1]))
  intro x hx
  have hb := hwf.hB 0 4 x hx
  by_cases h1 : x = 1
  · exact h1
  · by_cases h2 : x = 2
    · subst h2
      rw [he2] at hb
      exact absurd hb (by decide)
    · rw [hno x h1 h2] at hb
      cases hb

theorem C3state_ttne : TimerWheel.ticks_to_next_event 100 C3state = 5 := by
  obtain ⟨hre, hn0, hn1, he1, he2, hno⟩ := C3state_facts
  obtain ⟨h00, h01, h02, h03, h04, h10⟩ := C3state_slots
  have s0 : TimerWheel.ttneScan C3state 0 65535 100 0 256 =
      TimerWheel.ttneScan C3state 0 65535 100 1 255 :=
    ttneScan_skip0_core C3state 65535 100 0 255 (by rw [hn0]; decide) h00
      (by rw [hn1, show (((255 : Nat) + 1) % W) &&& MASK = 0 from by decide]; exact h10)
  have s1 : TimerWheel.ttneScan C3state 0 65535 100 1 255 =
      TimerWheel.ttneScan C3state 0 65535 100 2 254 :=
    ttneScan_skip_core C3state 65535 100 1 254 1 (by rw [hn0]; decide) (by decide) h01
  have s2 : TimerWheel.ttneScan C3state 0 65535 100 2 254 =
      TimerWheel.ttneScan C3state 0 65535 100 3 253 :=
    ttneScan_skip_core C3state 65535 100 2 253 2 (by rw [hn0]; decide) (by decide) h02
  have s3 : TimerWheel.ttneScan C3state 0 65535 100 3 253 =
      TimerWheel.ttneScan C3state 0 65535 100 4 252 :=
    ttneScan_skip_core C3state 65535 100 3 252 3 (by rw [hn0]; decide) (by decide) h03
  have s4 : TimerWheel.ttneScan C3state 0 65535 100 4 252 = some 5 := by
    rw [ttneScan_hit_core C3state 65535 100 4 251 4 1 [] (by rw [hn0]; decide) (by decide) h04,
      he1]
    decide
  have hscan : TimerWheel.ttneScan C3state 0 65535 100 0 256 = some 5 := by
    rw [s0, s1, s2, s3, s4]
  show TimerWheel.ticks_to_next_eventOn NUM_LEVELS 0 100 C3state = 5
  rw [show NUM_LEVELS = 7 + 1 from rfl, TimerWheel.ticks_to_next_eventOn, hn0,
    show NUM_SLOTS = 256 from rfl, hscan]

/-- C3: the claimed exactness of `ticks_to_next_event` fails on the
code. In the reachable state `C3state` (engine started at 0; event 2
scheduled 65536 ticks out, so it rests at level 2; 65535 ticks advanced;
event 1 scheduled 5 ticks out), event 2 is active with
`scheduled_at = now + 1` — and indeed `advance(1)` fires it — yet
`ticks_to_next_event(100)` returns 5: when the scan crosses slot 0 it
peeks only one wheel level out, so the level-2 event due one tick away
is invisible and the core event five ticks away wins. -/
theorem C3_ticks_to_next_event_bug :
    Reach C3state ∧
    (C3state.evs 2).slot.isSome = true ∧
    (C3state.evs 2).scheduled_at = C3state.nows 0 + 1 ∧
    TimerWheel.ticks_to_next_event 100 C3state = 5 ∧
    ∃ recs,
      (TimerWheel.advance cbInert 1 C3state).fired = C3state.fired ++ recs ∧
      2 ∈ recs.map FireRec.ev := by
  obtain ⟨hre, hn0, hn1, he1, he2, hno⟩ := C3state_facts
  refine ⟨hre, by rw [he2]; rfl, by rw [he2, hn0], C3state_ttne, ?_⟩
  obtain ⟨hnS, halS, hwfS, hWSS⟩ := WheelInv_parts (Reach_WheelInv hre)
  have hov : C3state.nows 0 + 1 < W := by rw [hn0]; decide
  obtain ⟨_, _, _, _, _, _, hin⟩ :=
    advanceLoop_spec cbInert cbInert_good 1 C3state hov halS hwfS hWSS
  obtain ⟨_, _, _, _, ⟨recs, hf, _, _, hiff⟩⟩ := hin rfl
  rw [← advance_eq_loop] at hf
  refine ⟨recs, hf, ?_⟩
  apply (hiff 2).mpr
  rw [he2, hn0]
  exact ⟨rfl, by decide, by decide⟩
